import Mathlib

/-!
# Verification of the chrome-dom-diff reconciliation core

A shallow embedding, in Lean 4, of the diff engine of the `chrome-dom-diff`
repository: the DOM data model (`src/dom/mod.rs`), the structural fingerprint
(`src/diff/hash.rs`), the tree-diff computer (`src/diff/tree_diff.rs`) and the
mutation-to-operation translator (`src/diff/ops_generator.rs`), together with
theorems settling the specification claims about them.

Modelling conventions:

* Rust `String` values are modelled as their UTF-8 byte sequences (`List Nat`),
  because the source caps and samples strings at *byte* granularity
  (`as_bytes()[..len]`).
* Rust `u64` node ids are modelled as `Nat`; the source never performs
  arithmetic on ids other than incrementing a fresh-id counter, so no wrapping
  behaviour is observable.
* `HashMap<NodeId, DomNode>` storage is modelled as an association list with
  HashMap insert/replace semantics.  Iteration order of a `HashMap` is never
  observable in the modelled code paths: the diff algorithm only reads the
  storage through `get`/`contains_key` and through the explicit DFS iterator
  `DomTree::iter`, and the attribute maps built inside `compare_nodes` only
  affect the (unspecified) relative order of `AttrChange` entries inside a
  single `Update`, which no claim depends on; this embedding fixes the
  first-occurrence key order for them.
* The 64-bit `NodeHash` produced by `std`'s `DefaultHasher` is modelled as the
  exact tuple of data the source feeds into the hasher (node kind, capped tag
  prefix, attribute count, capped id/class prefixes, text length and sample,
  child count).  Equal tuples provably yield equal `u64` hashes in the source;
  the model additionally treats distinct tuples as distinct hashes, i.e. it
  idealises the underlying SipHash as collision-free, exactly the idealisation
  the specification itself makes when it asserts that nodes differing in a
  fingerprinted feature "hash differently".
* The Rust traversals (`DomIter::next`, the BFS queue loop in
  `compute_tree_diff`) are loops that need not terminate on cyclic inputs, so
  they are embedded with explicit fuel, returning `none` when fuel runs out;
  fuel-monotonicity and termination lemmas recover the total behaviour on
  acyclic inputs.
-/

/-- UTF-8 byte sequence standing for a Rust `String`. -/
abbrev Str := List Nat

/-- Node id (`pub type NodeId = u64`). -/
abbrev NodeId := Nat

/-- Node kind (`enum NodeType` in `src/dom/mod.rs`). -/
inductive NodeType where
  | Element
  | Text
  | Comment
  | CData
  | Document
deriving DecidableEq, Repr

/-- DOM node (`struct DomNode` in `src/dom/mod.rs`). -/
structure DomNode where
  id : NodeId
  node_type : NodeType
  tag_name : Option Str
  text_content : Option Str
  attributes : List (Str × Str)
  parent : Option NodeId
  children : List NodeId
  prev_sibling : Option NodeId
  next_sibling : Option NodeId
deriving DecidableEq, Repr

/-- `DomNode::new_element` (attributes empty, no text, no links). -/
def DomNode.new_element (id : NodeId) (tag : Str) : DomNode :=
  { id := id, node_type := .Element, tag_name := some tag, text_content := none,
    attributes := [], parent := none, children := [], prev_sibling := none,
    next_sibling := none }

/-- `DomNode::new_text`. -/
def DomNode.new_text (id : NodeId) (text : Str) : DomNode :=
  { id := id, node_type := .Text, tag_name := none, text_content := some text,
    attributes := [], parent := none, children := [], prev_sibling := none,
    next_sibling := none }

/-- `DomNode::new_comment`. -/
def DomNode.new_comment (id : NodeId) (text : Str) : DomNode :=
  { id := id, node_type := .Comment, tag_name := none, text_content := some text,
    attributes := [], parent := none, children := [], prev_sibling := none,
    next_sibling := none }

/-- `DomNode::get_attr`: first attribute with the given name. -/
def DomNode.get_attr (n : DomNode) (name : Str) : Option Str :=
  (n.attributes.find? (fun kv => kv.1 = name)).map (·.2)

/-- `DomNode::with_attr`: drop every binding of `name`, then push the new one. -/
def DomNode.with_attr (n : DomNode) (name value : Str) : DomNode :=
  { n with attributes := (n.attributes.filter (fun kv => ¬ kv.1 = name)) ++ [(name, value)] }

/-- `DomNode::is_element`. -/
def DomNode.is_element (n : DomNode) : Bool :=
  n.node_type = NodeType.Element

/-! ## Association-list model of `HashMap` storage -/

/-- HashMap `insert`: replace the binding of `k` if present, else append it. -/
def mapInsert {K V : Type} [DecidableEq K] (k : K) (v : V) :
    List (K × V) → List (K × V)
  | [] => [(k, v)]
  | p :: rest => if p.1 = k then (k, v) :: rest else p :: mapInsert k v rest

/-- HashMap `get`: first binding of `k` (the only one when keys are unique). -/
def mapLookup {K V : Type} [DecidableEq K] (k : K) (m : List (K × V)) : Option V :=
  (m.find? (fun kv => kv.1 = k)).map (·.2)

/-- HashMap `get_mut` followed by a field update: rewrite the binding in place,
no-op when `k` is absent (mirrors `if let Some(x) = map.get_mut(&k)`). -/
def mapUpdate {K V : Type} [DecidableEq K] (k : K) (f : V → V) (m : List (K × V)) :
    List (K × V) :=
  m.map (fun kv => if kv.1 = k then (kv.1, f kv.2) else kv)

/-- `entry(k).or_insert_with(Vec::new).push(v)` on a `HashMap<K, Vec V>`. -/
def mapPush {K V : Type} [DecidableEq K] (k : K) (v : V) :
    List (K × List V) → List (K × List V)
  | [] => [(k, [v])]
  | p :: rest => if p.1 = k then (p.1, p.2 ++ [v]) :: rest else p :: mapPush k v rest

/-! ## The tree (`struct DomTree` in `src/dom/mod.rs`) -/

/-- DOM tree: node storage, optional root, fresh-id counter. -/
structure DomTree where
  nodes : List (NodeId × DomNode)
  root_id : Option NodeId
  next_id : NodeId
deriving DecidableEq, Repr

/-- `DomTree::new`. -/
def DomTree.new_ : DomTree := { nodes := [], root_id := none, next_id := 1 }

/-- `DomTree::get_node`. -/
def DomTree.get_node (t : DomTree) (id : NodeId) : Option DomNode :=
  mapLookup id t.nodes

/-- `DomTree::add_node` (returns the updated tree; the returned id is `node.id`). -/
def DomTree.add_node (t : DomTree) (node : DomNode) : DomTree :=
  { t with nodes := mapInsert node.id node t.nodes }

/-- `DomTree::set_root`: record the root id and clear its parent pointer. -/
def DomTree.set_root (t : DomTree) (id : NodeId) : DomTree :=
  { t with root_id := some id,
           nodes := mapUpdate id (fun n => { n with parent := none }) t.nodes }

/-- `DomTree::root`. -/
def DomTree.root (t : DomTree) : Option NodeId := t.root_id

/-- `DomTree::node_count`. -/
def DomTree.node_count (t : DomTree) : Nat := t.nodes.length

/-- In-place node update used to model `get_node_mut` call sites. -/
def DomTree.update_node (t : DomTree) (id : NodeId) (f : DomNode → DomNode) : DomTree :=
  { t with nodes := mapUpdate id f t.nodes }

/-- `DomTree::append_child` (`src/dom/mod.rs` lines 247-294): existence checks,
push onto the parent's child list, set the child's parent, wire the previous
sibling when the parent already had children, clear the child's next pointer.
Returns the Rust `bool` result together with the updated tree. -/
def DomTree.append_child (t : DomTree) (parent_id child_id : NodeId) :
    Bool × DomTree :=
  if (t.get_node parent_id).isNone ∨ (t.get_node child_id).isNone then
    (false, t)
  else
    match t.get_node parent_id with
    | none => (false, t)
    | some parent =>
      let child_index := parent.children.length
      let t1 := t.update_node parent_id (fun n => { n with children := n.children ++ [child_id] })
      let t2 := t1.update_node child_id (fun n => { n with parent := some parent_id })
      let t3 :=
        if child_index > 0 then
          match t2.get_node parent_id with
          | some parent2 =>
            match parent2.children.get? (child_index - 1) with
            | some prev_id =>
              let ta := t2.update_node prev_id (fun n => { n with next_sibling := some child_id })
              ta.update_node child_id (fun n => { n with prev_sibling := some prev_id })
            | none => t2
          | none => t2
        else t2
      let t4 := t3.update_node child_id (fun n => { n with next_sibling := none })
      (true, t4)

/-- `DomTree::remove_child` (`src/dom/mod.rs` lines 297-351): existence checks,
locate the child in the parent's list (else return `false` with the tree
untouched), splice it out, re-link the two neighbours, clear the child's
parent and sibling pointers. -/
def DomTree.remove_child (t : DomTree) (parent_id child_id : NodeId) :
    Bool × DomTree :=
  if (t.get_node parent_id).isNone ∨ (t.get_node child_id).isNone then
    (false, t)
  else
    match t.get_node parent_id with
    | none => (false, t)
    | some parent =>
      match parent.children.findIdx? (fun id => id = child_id) with
      | none => (false, t)
      | some pos =>
        let prev_id := if pos > 0 then parent.children.get? (pos - 1) else none
        let next_id := if pos + 1 < parent.children.length then parent.children.get? (pos + 1) else none
        let t1 := t.update_node parent_id (fun n => { n with children := n.children.eraseIdx pos })
        let t2 :=
          match prev_id with
          | some p => t1.update_node p (fun n => { n with next_sibling := next_id })
          | none => t1
        let t3 :=
          match next_id with
          | some nx => t2.update_node nx (fun n => { n with prev_sibling := prev_id })
          | none => t2
        let t4 := t3.update_node child_id
          (fun n => { n with parent := none, prev_sibling := none, next_sibling := none })
        (true, t4)

/-! ## The DFS iterator (`DomIter`, `src/dom/mod.rs` lines 378-410)

`DomIter` pops an id off an explicit stack, yields it (even when the id is
dangling, i.e. not stored), and pushes its children in reverse so that they are
visited in order.  On a cyclic tree the iterator never ends, hence the fuel. -/

/-- Run the iterator to exhaustion from an explicit stack, spending one unit of
fuel per yielded id; `none` when fuel runs out before the stack empties. -/
def dfsAux (t : DomTree) : Nat → List NodeId → Option (List NodeId)
  | _, [] => some []
  | 0, _ :: _ => none
  | fuel + 1, id :: rest =>
    let stack2 :=
      match t.get_node id with
      | some n => n.children ++ rest
      | none => rest
    (dfsAux t fuel stack2).map (fun l => id :: l)

/-- `tree.iter().collect()`: the full preorder id sequence from the root. -/
def domIterList (t : DomTree) (fuel : Nat) : Option (List NodeId) :=
  dfsAux t fuel (match t.root with | some r => [r] | none => [])

/-! ## The fingerprint (`hash_node`, `src/diff/hash.rs` lines 46-100)

`NodeHash` is the tuple of data fed to the hasher, in source order. -/

/-- The data `hash_node` feeds into the hasher, one field per `hash` call
group: node kind; the first 32 bytes of the tag name (when present); the
attribute count; the first 16 bytes of the `id` and `class` attribute values
(Element nodes only); the text length paired with the hashed sample (the whole
text when `len <= 32`, else first 16 bytes plus last 16 bytes); the child
count. -/
structure NodeHash where
  typ : NodeType
  tagPart : Option Str
  attrCount : Nat
  idPart : Option Str
  classPart : Option Str
  textPart : Option (Nat × Str)
  childCount : Nat
deriving DecidableEq, Repr

/-- Byte sequence of the attribute name `id`. -/
def idAttrName : Str := [105, 100]

/-- Byte sequence of the attribute name `class`. -/
def classAttrName : Str := [99, 108, 97, 115, 115]

/-- `hash_node` (`src/diff/hash.rs` lines 46-100). -/
def hash_node (node : DomNode) : NodeHash :=
  { typ := node.node_type
    tagPart := node.tag_name.map (fun tag => tag.take 32)
    attrCount := node.attributes.length
    idPart :=
      if node.is_element then (node.get_attr idAttrName).map (fun v => v.take 16)
      else none
    classPart :=
      if node.is_element then (node.get_attr classAttrName).map (fun v => v.take 16)
      else none
    textPart := node.text_content.map (fun text =>
      (text.length,
        if text.length ≤ 32 then text
        else text.take 16 ++ text.drop (text.length - 16)))
    childCount := node.children.length }

/-- `hash_node_with_seed`: a derived transform of the base fingerprint.  The
source computes `hash_node(node).wrapping_add(seed).wrapping_mul(31)`; in the
tuple model the injective post-transform is the pair with the seed. -/
def hash_node_with_seed (node : DomNode) (seed : Nat) : NodeHash × Nat :=
  (hash_node node, seed)

/-! ## The change model (`src/diff/tree_diff.rs` lines 24-146) -/

/-- `enum NodeChange`. -/
inductive NodeChange where
  | AttrChange (name : Str) (old_value : Option Str) (new_value : Option Str)
  | TextChange (old_value : Str) (new_value : Str)
deriving DecidableEq, Repr

/-- `enum DiffChange`. -/
inductive DiffChange where
  | Insert (parent : NodeId) (index : Nat) (node : NodeId)
  | Delete (parent : NodeId) (index : Nat) (node : NodeId)
  | Move (from_parent : NodeId) (to_parent : NodeId) (index : Nat) (node : NodeId)
  | Update (node : NodeId) (changes : List NodeChange)
deriving DecidableEq, Repr

/-- `struct TreeDiff`: the change list plus the three derived lookup maps. -/
structure TreeDiff where
  changes : List DiffChange
  inserts : List (NodeId × NodeId × Nat)
  deletes : List (NodeId × NodeId × Nat)
  moves : List (NodeId × NodeId × NodeId × Nat)
deriving DecidableEq, Repr

/-- `TreeDiff::new` / `with_capacity` (capacities are not observable). -/
def TreeDiff.new_ : TreeDiff :=
  { changes := [], inserts := [], deletes := [], moves := [] }

/-- `TreeDiff::add_change`. -/
def TreeDiff.add_change (d : TreeDiff) (change : DiffChange) : TreeDiff :=
  let d1 :=
    match change with
    | .Insert parent index node => { d with inserts := mapInsert node (parent, index) d.inserts }
    | .Delete parent index node => { d with deletes := mapInsert node (parent, index) d.deletes }
    | .Move fp tp index node => { d with moves := mapInsert node (fp, tp, index) d.moves }
    | .Update _ _ => d
  { d1 with changes := d1.changes ++ [change] }

/-- `TreeDiff::has_changes`. -/
def TreeDiff.has_changes (d : TreeDiff) : Bool := ¬ d.changes.isEmpty

/-- `TreeDiff::change_count`. -/
def TreeDiff.change_count (d : TreeDiff) : Nat := d.changes.length

/-! ## The mutation-to-operation translator (`src/diff/ops_generator.rs`) -/

/-- `enum DomOp`. -/
inductive DomOp where
  | AppendChild (parent : NodeId) (child : NodeId)
  | RemoveChild (parent : NodeId) (child : NodeId)
  | ReplaceChild (parent : NodeId) (old : NodeId) (new : NodeId)
  | SetAttribute (node : NodeId) (name : Str) (value : Str)
  | RemoveAttribute (node : NodeId) (name : Str)
  | SetTextContent (node : NodeId) (text : Str)
  | InsertBefore (parent : NodeId) (new : NodeId) (reference : NodeId)
deriving DecidableEq, Repr

/-- `enum MutationType`. -/
inductive MutationType where
  | ChildList
  | Attributes
  | CharacterData
  | Subtree
deriving DecidableEq, Repr

/-- `struct MutationRecord`. -/
structure MutationRecord where
  type_ : MutationType
  target : NodeId
  related_node : Option NodeId
  attribute_name : Option Str
  old_value : Option Str
  new_value : Option Str
  previous_sibling : Option NodeId
  next_sibling : Option NodeId
deriving DecidableEq, Repr

/-- `OpsGenerator::process_child_list_mutation` (lines 168-205): requires a
related node and a stored target; the related node being present in the
target's current child list means an addition (`InsertBefore` when
`next_sibling` is set, else `AppendChild`), absent means `RemoveChild`. -/
def process_child_list_mutation (tree : DomTree) (mutation : MutationRecord)
    (ops : List DomOp) : List DomOp :=
  match mutation.related_node with
  | none => ops
  | some related =>
    match tree.get_node mutation.target with
    | none => ops
    | some target_node =>
      let is_added := related ∈ target_node.children
      if is_added then
        match mutation.next_sibling with
        | some ref_id => ops ++ [.InsertBefore mutation.target related ref_id]
        | none => ops ++ [.AppendChild mutation.target related]
      else
        ops ++ [.RemoveChild mutation.target related]

/-- `OpsGenerator::process_attribute_mutation` (lines 208-227). -/
def process_attribute_mutation (mutation : MutationRecord)
    (ops : List DomOp) : List DomOp :=
  match mutation.attribute_name with
  | none => ops
  | some attr_name =>
    match mutation.new_value with
    | some new_value => ops ++ [.SetAttribute mutation.target attr_name new_value]
    | none => ops ++ [.RemoveAttribute mutation.target attr_name]

/-- `OpsGenerator::process_character_data_mutation` (lines 230-239): a record
with no new value emits nothing. -/
def process_character_data_mutation (mutation : MutationRecord)
    (ops : List DomOp) : List DomOp :=
  match mutation.new_value with
  | some new_value => ops ++ [.SetTextContent mutation.target new_value]
  | none => ops

/-- `OpsGenerator::process_mutation` (lines 150-165): dispatch on the record
kind; `Subtree` records are informational no-ops. -/
def process_mutation (tree : DomTree) (mutation : MutationRecord)
    (ops : List DomOp) : List DomOp :=
  match mutation.type_ with
  | .ChildList => process_child_list_mutation tree mutation ops
  | .Attributes => process_attribute_mutation mutation ops
  | .CharacterData => process_character_data_mutation mutation ops
  | .Subtree => ops

/-- `OpsGenerator::generate_ops_sequence` (lines 138-147): one pass over the
records, in order. -/
def generate_ops_sequence (tree : DomTree) (mutations : List MutationRecord) :
    List DomOp :=
  mutations.foldl (fun ops mutation => process_mutation tree mutation ops) []

/-! ## The tree-diff computer (`compute_tree_diff`, `src/diff/tree_diff.rs`) -/

/-- `build_node_index` (lines 233-244): fold the preorder id list into a
fingerprint-to-id map; on a fingerprint collision the last indexed node wins
(`HashMap::insert` replaces). -/
def build_node_index (tree : DomTree) (iterList : List NodeId) :
    List (NodeHash × NodeId) :=
  iterList.foldl
    (fun index id =>
      match tree.get_node id with
      | some node => mapInsert (hash_node node) id index
      | none => index)
    []

/-- `build_children_index` (lines 248-260): parent id to ordered child list,
an entry appearing only for parents with at least one child. -/
def build_children_index (tree : DomTree) (iterList : List NodeId) :
    List (NodeId × List NodeId) :=
  iterList.foldl
    (fun index id =>
      match tree.get_node id with
      | some node => node.children.foldl (fun idx child_id => mapPush id child_id idx) index
      | none => index)
    []

/-- Attribute map built inside `compare_nodes`
(`old.attributes.iter().map(...).collect::<HashMap<_, _>>()`): later bindings
of a name overwrite earlier ones; keys keep first-occurrence order (the real
`HashMap` order is unspecified and unobservable up to `AttrChange` order). -/
def attrMap (attrs : List (Str × Str)) : List (Str × Str) :=
  attrs.foldl (fun m kv => mapInsert kv.1 kv.2 m) []

/-- The `NodeChange` list accumulated by `compare_nodes` (lines 263-311):
added/modified attributes from the new map, removed attributes from the old
map, then the text comparison treating an absent payload as empty only when
exactly one side is absent. -/
def compare_changes (old new : DomNode) : List NodeChange :=
  let old_attrs := attrMap old.attributes
  let new_attrs := attrMap new.attributes
  let addedModified := new_attrs.filterMap (fun kv =>
    let old_value := mapLookup kv.1 old_attrs
    if ¬ old_value = some kv.2 then
      some (NodeChange.AttrChange kv.1 old_value (some kv.2))
    else none)
  let removed := old_attrs.filterMap (fun kv =>
    if (mapLookup kv.1 new_attrs).isNone then
      some (NodeChange.AttrChange kv.1 (mapLookup kv.1 old_attrs) none)
    else none)
  let textChanges :=
    match old.text_content, new.text_content with
    | some old_text, some new_text =>
      if ¬ old_text = new_text then [NodeChange.TextChange old_text new_text] else []
    | none, some new_text => [NodeChange.TextChange [] new_text]
    | some old_text, none => [NodeChange.TextChange old_text []]
    | none, none => []
  addedModified ++ removed ++ textChanges

/-- `compare_nodes` (lines 263-319): emit one `Update` keyed by the *new*
node's id when any change was found. -/
def compare_nodes (old new : DomNode) (diff : TreeDiff) : TreeDiff :=
  let changes := compare_changes old new
  if ¬ changes.isEmpty then diff.add_change (.Update new.id changes) else diff

/-- The `Move` entries emitted by `check_children_reorder` (lines 322-350):
nothing without an index entry or on a length mismatch, else one `Move` per
differing position, keyed by the old node's id on both sides. -/
def reorder_moves (old : DomNode) (new_children_index : List (NodeId × List NodeId)) :
    List DiffChange :=
  match mapLookup old.id new_children_index with
  | none => []
  | some new_children =>
    if ¬ old.children.length = new_children.length then []
    else
      ((old.children.zip new_children).enum).filterMap (fun entry =>
        if ¬ entry.2.1 = entry.2.2 then
          some (DiffChange.Move old.id old.id entry.1 entry.2.2)
        else none)

/-- `check_children_reorder` folded into the diff accumulator via
`add_change`. -/
def check_children_reorder (old : DomNode)
    (new_children_index : List (NodeId × List NodeId)) (diff : TreeDiff) : TreeDiff :=
  (reorder_moves old new_children_index).foldl TreeDiff.add_change diff

/-- One BFS queue entry: `(node_id, parent_id, index)` as pushed by the loop in
`compute_tree_diff` (lines 180-223). -/
abbrev BfsEntry := NodeId × Option NodeId × Nat

/-- The BFS loop of `compute_tree_diff`: pop from the front; skip dangling
ids; on a fingerprint match compare the nodes, check child reordering and
enqueue every child with its position; on a miss emit a `Delete` located under
the BFS parent (a root uses its own id) and do not enqueue the children.  One
unit of fuel per processed entry. -/
def bfs_diff (old new : DomTree) (new_index : List (NodeHash × NodeId))
    (new_children_index : List (NodeId × List NodeId)) :
    Nat → List BfsEntry → TreeDiff → Option TreeDiff
  | _, [], diff => some diff
  | 0, _ :: _, _ => none
  | fuel + 1, (node_id, parent_id, index) :: rest, diff =>
    match old.get_node node_id with
    | none => bfs_diff old new new_index new_children_index fuel rest diff
    | some old_node =>
      let old_hash := hash_node old_node
      match mapLookup old_hash new_index with
      | some new_id =>
        let diff1 :=
          match new.get_node new_id with
          | some new_node => compare_nodes old_node new_node diff
          | none => diff
        let diff2 := check_children_reorder old_node new_children_index diff1
        let entries := old_node.children.enum.map
          (fun ci => (ci.2, some node_id, ci.1))
        bfs_diff old new new_index new_children_index fuel (rest ++ entries) diff2
      | none =>
        bfs_diff old new new_index new_children_index fuel rest
          (diff.add_change (.Delete (parent_id.getD node_id) index node_id))

/-- The per-id `Insert` emitted by `detect_insertions` for a new-tree id that
the old tree does not reach: parent taken from the node's parent field (no
parent, no insert), index falling back to 0 when the parent or the position
cannot be resolved. -/
def insertion_for (old_ids : List NodeId) (new : DomTree) (new_id : NodeId) :
    List DiffChange :=
  if new_id ∈ old_ids then []
  else
    match new.get_node new_id with
    | none => []
    | some new_node =>
      match new_node.parent with
      | none => []
      | some parent_id =>
        let index :=
          ((new.get_node parent_id).bind
            (fun p => p.children.findIdx? (fun id => id = new_id))).getD 0
        [DiffChange.Insert parent_id index new_id]

/-- `detect_insertions` (lines 353-384): scan the new tree's preorder id list
against the set of old-tree preorder ids. -/
def detect_insertions (old_ids new_ids : List NodeId) (new : DomTree)
    (diff : TreeDiff) : TreeDiff :=
  new_ids.foldl
    (fun d new_id => (insertion_for old_ids new new_id).foldl TreeDiff.add_change d)
    diff

/-- `compute_tree_diff` (lines 171-229): index the new tree, BFS-walk the old
tree from its root, then detect insertions.  All four traversals of the two
trees receive the same fuel; the result is `none` exactly when some traversal
runs out of fuel (which on tree-shaped input never happens for large enough
fuel). -/
def compute_tree_diff (fuel : Nat) (old new : DomTree) : Option TreeDiff := do
  let new_iter ← domIterList new fuel
  let new_index := build_node_index new new_iter
  let new_children_index := build_children_index new new_iter
  let queue : List BfsEntry :=
    match old.root with
    | some root => [(root, none, 0)]
    | none => []
  let diff ← bfs_diff old new new_index new_children_index fuel queue TreeDiff.new_
  let old_iter ← domIterList old fuel
  pure (detect_insertions old_iter new_iter new diff)

/-- The change list of a completed diff, the view the claims talk about. -/
def diff_changes (fuel : Nat) (old new : DomTree) : Option (List DiffChange) :=
  (compute_tree_diff fuel old new).map TreeDiff.changes

/-! ## Well-formedness predicates for the sibling-cache invariant -/

/-- Position `i` of `children` is consistent: the node stored there (when the
position and the node exist) has `prev_sibling` pointing at position `i - 1`
(none at position 0) and `next_sibling` pointing at position `i + 1`. -/
def sibOkAt (t : DomTree) (children : List NodeId) (i : Nat) : Bool :=
  match children.get? i with
  | none => true
  | some c =>
    match t.get_node c with
    | none => true
    | some cn =>
      decide (cn.prev_sibling = (if i = 0 then none else children.get? (i - 1))) &&
      decide (cn.next_sibling = children.get? (i + 1))

/-- The sibling-cache invariant of the specification: every node's
`prev_sibling`/`next_sibling` fields agree with that node's position in its
parent's ordered children list (checked at every slot of every stored node's
child list). -/
def siblingAgree (t : DomTree) : Bool :=
  t.nodes.all (fun pr =>
    (List.range pr.2.children.length).all (fun i => sibOkAt t pr.2.children i))

/-- Total number of child-list slots across the whole tree holding `x`. -/
def childOccCount (t : DomTree) (x : NodeId) : Nat :=
  (t.nodes.map (fun pr => pr.2.children.count x)).sum

/-- No id occupies more than one child slot anywhere in the tree (true of any
tree built through `append_child`/`remove_child` alone). -/
def uniqueChildOcc (t : DomTree) : Bool :=
  t.nodes.all (fun pr => pr.2.children.all (fun c => decide (childOccCount t c ≤ 1)))

/-- Storage keys are pairwise distinct (an intrinsic `HashMap` property). -/
def keysNodup (t : DomTree) : Prop :=
  (t.nodes.map Prod.fst).Nodup

/-! ## Concrete inputs used by counterexamples and witnesses -/

/-- The three-node tree of the repository's own tests: `div` root 1 with
children `span` 2 and text node 3 ("hello"). -/
def simpleTree : DomTree :=
  let t := DomTree.new_
  let t := t.add_node (DomNode.new_element 1 [100, 105, 118])
  let t := t.add_node (DomNode.new_element 2 [115, 112, 97, 110])
  let t := t.add_node (DomNode.new_text 3 [104, 101, 108, 108, 111])
  let t := t.set_root 1
  let t := (t.append_child 1 2).2
  (t.append_child 1 3).2

/-- `simpleTree` plus a fresh `p` element 4 appended under the root, the
insertion scenario of the claims. -/
def simpleTreePlus : DomTree :=
  let t := simpleTree.add_node (DomNode.new_element 4 [112])
  (t.append_child 1 4).2

/-- `simpleTree` with the text of node 3 changed. -/
def simpleTreeText : DomTree :=
  simpleTree.update_node 3 (fun n => { n with text_content := some [119] })

/-- A tree whose two leaf children are distinct nodes with equal fingerprints:
both are `a` elements with one attribute, whose values differ only in a
position the fingerprint does not sample. -/
def collideTree : DomTree :=
  let t := DomTree.new_
  let t := t.add_node (DomNode.new_element 1 [100])
  let t := t.add_node { DomNode.new_element 2 [97] with attributes := [([104], [97])] }
  let t := t.add_node { DomNode.new_element 3 [97] with attributes := [([104], [98])] }
  let t := t.set_root 1
  let t := (t.append_child 1 2).2
  (t.append_child 1 3).2

/-- Single-node tree with root 1. -/
def rootOnlyTree : DomTree :=
  let t := DomTree.new_
  let t := t.add_node (DomNode.new_element 1 [100])
  t.set_root 1

/-- `rootOnlyTree` plus a stored node 99 that is not reachable from the root
(it sits in the storage map with a parent pointer but in no child list). -/
def strayNodeTree : DomTree :=
  rootOnlyTree.add_node { DomNode.new_element 99 [113] with parent := some 1 }

/-- A self-referential tree: node 1 lists itself as its only child. -/
def cyclicTree : DomTree :=
  let t := DomTree.new_
  let t := t.add_node { DomNode.new_element 1 [100] with children := [1] }
  t.set_root 1

/-- Tree for the sibling-invariant counterexample: root 1 with children
`[2, 3]` (siblings wired correctly) and a second, childless parent 4. -/
def twoParentTree : DomTree :=
  let t := DomTree.new_
  let t := t.add_node (DomNode.new_element 1 [100])
  let t := t.add_node (DomNode.new_element 2 [97])
  let t := t.add_node (DomNode.new_element 3 [98])
  let t := t.add_node (DomNode.new_element 4 [99])
  let t := t.set_root 1
  let t := (t.append_child 1 2).2
  (t.append_child 1 3).2

/-- The reference tree of the specification's ChildList example: root 1 with
children `[2, 3]` and a stored node 4 that is not a child of 1. -/
def opsExampleTree : DomTree :=
  let t := DomTree.new_
  let t := t.add_node (DomNode.new_element 1 [100, 105, 118])
  let t := t.add_node (DomNode.new_element 2 [115])
  let t := t.add_node (DomNode.new_text 3 [104])
  let t := t.add_node (DomNode.new_text 4 [119])
  let t := t.set_root 1
  let t := (t.append_child 1 2).2
  (t.append_child 1 3).2

/-- The ChildList record of the specification's example:
`{target: 1, related_node: 4, next_sibling: 3}`. -/
def opsExampleRecord : MutationRecord :=
  { type_ := .ChildList, target := 1, related_node := some 4, attribute_name := none,
    old_value := none, new_value := none, previous_sibling := some 2,
    next_sibling := some 3 }

/-- A 33-byte text whose middle byte alone distinguishes it from
`longText2`: same length, same first and last 16 bytes. -/
def longText1 : Str := List.replicate 16 97 ++ [98] ++ List.replicate 16 97

/-- The fingerprint-equal partner of `longText1`. -/
def longText2 : Str := List.replicate 16 97 ++ [99] ++ List.replicate 16 97

/-- Tree with a `div` root and one long text node, for the
fingerprint-preserving text-change scenario. -/
def textTree : DomTree :=
  let t := DomTree.new_
  let t := t.add_node (DomNode.new_element 1 [100])
  let t := t.add_node (DomNode.new_text 2 longText1)
  let t := t.set_root 1
  (t.append_child 1 2).2

/-- Two nodes agreeing on every field except possibly the sibling cache
(`prev_sibling`/`next_sibling`): the relation between a node before and after
`append_child` rewires its neighbours. -/
def siblingOnly (n n2 : DomNode) : Prop :=
  n2.id = n.id ∧ n2.node_type = n.node_type ∧ n2.tag_name = n.tag_name ∧
  n2.text_content = n.text_content ∧ n2.attributes = n.attributes ∧
  n2.parent = n.parent ∧ n2.children = n.children

/-- `InsStack c k SN SO`: the new-tree DFS stack `SN` is the old-tree stack
`SO` with `k` copies of the fresh id `c` interspersed (and `c` nowhere in
`SO`). -/
inductive InsStack (c : NodeId) : Nat → List NodeId → List NodeId → Prop where
  | nil : InsStack c 0 [] []
  | cons : ∀ (id : NodeId) {k SN SO}, ¬ id = c → InsStack c k SN SO →
      InsStack c k (id :: SN) (id :: SO)
  | ins : ∀ {k SN SO}, InsStack c k SN SO → InsStack c (k + 1) (c :: SN) SO

/-- Termination of the diff on a pair of trees: some amount of fuel lets every
traversal finish. -/
def DiffTerminates (old new : DomTree) : Prop :=
  ∃ fuel, (compute_tree_diff fuel old new).isSome

/-! ## Reachability and traversal measures -/

/-- Ids reachable from the tree's root along stored child lists: exactly the
ids `DomTree::iter` can visit. -/
inductive Reach (t : DomTree) : NodeId → Prop where
  | root : ∀ r, t.root = some r → Reach t r
  | child : ∀ p n c, Reach t p → t.get_node p = some n → c ∈ n.children → Reach t c

/-- Number of occurrences of `x` in the preorder enumeration of the subtree
rooted at `id` (0 when the given fuel cannot finish that enumeration). -/
def subCountAt (t : DomTree) (fuel : Nat) (x id : NodeId) : Nat :=
  ((dfsAux t fuel [id]).map (fun l => l.count x)).getD 0

/-- Every child path from `id` ends within depth `d` (false at depth 0): the
acyclicity bound that makes the source's traversals terminate. -/
def bdep (t : DomTree) : Nat → NodeId → Bool
  | 0, _ => false
  | d + 1, id =>
    match t.get_node id with
    | none => true
    | some n => n.children.all (bdep t d)

/-- Total number of preorder visits below (and including) `id`, assuming all
paths end within depth `d`: the fuel the traversals need. -/
def wt (t : DomTree) : Nat → NodeId → Nat
  | 0, _ => 1
  | d + 1, id =>
    match t.get_node id with
    | none => 1
    | some n => 1 + (n.children.map (wt t d)).sum

/-- `bdep` from the root (trivially true for a rootless tree). -/
def rootBdep (t : DomTree) (d : Nat) : Bool :=
  match t.root with
  | none => true
  | some r => bdep t d r

/-- `wt` from the root. -/
def rootWt (t : DomTree) (d : Nat) : Nat :=
  match t.root with
  | none => 1
  | some r => wt t d r

/-- Fuel sufficient for every traversal inside `compute_tree_diff` when both
trees have depth bounded by `d`. -/
def diffFuel (old new : DomTree) (d : Nat) : Nat :=
  rootWt old d + rootWt new d

/-- The index `detect_insertions` stores in an `Insert` for node `nid` under
parent `pa`: the node's position in the parent's child list, 0 when the parent
or the position cannot be resolved. -/
def insertIndexOf (new : DomTree) (pa nid : NodeId) : Nat :=
  ((new.get_node pa).bind (fun p => p.children.findIdx? (fun id2 => id2 = nid))).getD 0

/-- Every stored node's `id` field equals its storage key — an invariant of
every tree built through `add_node` (which keys the storage by `node.id`) and
preserved by all the mutators, none of which touches the `id` field. -/
def idsMatch (t : DomTree) : Prop := ∀ pr ∈ t.nodes, pr.2.id = pr.1

instance (t : DomTree) : Decidable (idsMatch t) :=
  List.decidableBAll (fun pr : NodeId × DomNode => pr.2.id = pr.1) t.nodes

/-- A 33-byte tag name: 33 copies of `a`. -/
def longTagA : Str := List.replicate 33 97

/-- A tag name agreeing with `longTagA` on the first 32 bytes, differing at
byte 33. -/
def longTagB : Str := List.replicate 32 97 ++ [98]

/-! # Theorems -/

/-! ## Helper lemmas: the mutation translator -/

/-- Single-record translation through the full pipeline equals one dispatch. -/
theorem generate_ops_sequence_singleton (tree : DomTree) (r : MutationRecord) :
    generate_ops_sequence tree [r] = process_mutation tree r [] := rfl

/-! ## C7: ChildList dispatch of the translator -/

/-- C7: for every ChildList mutation record carrying a related node whose
target exists in the reference tree, the translator emits `InsertBefore`
(when `next_sibling` is set) or `AppendChild` (otherwise) if the related node
is present in the target's current child list, and `RemoveChild` if it is
absent. -/
theorem c7_child_list_dispatch (tree : DomTree) (r : MutationRecord) (rel : NodeId)
    (tn : DomNode) (hk : r.type_ = .ChildList) (hr : r.related_node = some rel)
    (ht : tree.get_node r.target = some tn) :
    generate_ops_sequence tree [r] =
      if rel ∈ tn.children then
        (match r.next_sibling with
         | some ref => [DomOp.InsertBefore r.target rel ref]
         | none => [DomOp.AppendChild r.target rel])
      else [DomOp.RemoveChild r.target rel] := by
  simp only [generate_ops_sequence, List.foldl, process_mutation, hk,
    process_child_list_mutation, hr, ht]
  by_cases h : rel ∈ tn.children
  · simp [h]
  · simp [h]

/-- Witness for C7 at the reference tree of the repository's tests: node 2 is
a child of node 1 and `next_sibling` is set, so the record translates to
`InsertBefore`. -/
theorem c7_child_list_dispatch_witness :
    generate_ops_sequence opsExampleTree
      [{ opsExampleRecord with related_node := some 2 }] =
      [DomOp.InsertBefore 1 2 3] := by
  have h := c7_child_list_dispatch opsExampleTree
    { opsExampleRecord with related_node := some 2 } 2
    { id := 1, node_type := .Element, tag_name := some [100, 105, 118],
      text_content := none, attributes := [], parent := none, children := [2, 3],
      prev_sibling := none, next_sibling := none }
    rfl rfl (by decide)
  rw [h]
  decide

/-! ## C8: the specification's InsertBefore example (a code bug) -/

/-- C8: at the specification's own example (and the repository's
`test_insert_before_op` fixture) — root 1 with children `[2, 3]`, record
`{target: 1, related_node: 4, next_sibling: 3}` with node 4 not a child of 1 —
the code emits `RemoveChild{parent: 1, child: 4}`, not the
`InsertBefore{parent: 1, new: 4, reference: 3}` that the claim and the
repository's own test assert: the absent-related-node branch is taken because
node 4 is not in the child list. -/
theorem c8_insert_before_example :
    generate_ops_sequence opsExampleTree [opsExampleRecord] =
      [DomOp.RemoveChild 1 4] ∧
    ¬ generate_ops_sequence opsExampleTree [opsExampleRecord] =
      [DomOp.InsertBefore 1 4 3] := by decide

/-! ## C10: failed lookups leave the tree untouched -/

/-- C10: `append_child` and `remove_child` return `false` and leave the tree
completely unchanged when the parent or child id is not stored, and
`remove_child` does the same when the child is stored but absent from the
parent's child list. -/
theorem c10_missing_ids_noop (t : DomTree) (p c : NodeId) :
    ((t.get_node p = none ∨ t.get_node c = none) →
      t.append_child p c = (false, t) ∧ t.remove_child p c = (false, t)) ∧
    (∀ pn, t.get_node p = some pn → (t.get_node c).isSome → c ∉ pn.children →
      t.remove_child p c = (false, t)) := by
  constructor
  · intro h
    have hcond : ((t.get_node p).isNone ∨ (t.get_node c).isNone) := by
      rcases h with h | h <;> simp [h]
    constructor
    · simp only [DomTree.append_child, if_pos hcond]
    · simp only [DomTree.remove_child, if_pos hcond]
  · intro pn hp hc hnot
    obtain ⟨cn, hcn⟩ := Option.isSome_iff_exists.mp hc
    have hfind : pn.children.findIdx? (fun id => id = c) = none := by
      rw [List.findIdx?_eq_none_iff]
      intro x hx
      simp only [decide_eq_false_iff_not]
      intro hxc; exact hnot (hxc ▸ hx)
    simp [DomTree.remove_child, hp, hcn, hfind]

/-- Witness for C10: a missing parent id (7) makes both operations no-ops on
`simpleTree`, and removing node 2 from under node 2 (not its parent) is also
a no-op. -/
theorem c10_missing_ids_noop_witness :
    (simpleTree.append_child 7 2 = (false, simpleTree) ∧
      simpleTree.remove_child 7 2 = (false, simpleTree)) ∧
    simpleTree.remove_child 2 3 = (false, simpleTree) :=
  ⟨(c10_missing_ids_noop simpleTree 7 2).1 (Or.inl (by decide)),
   (c10_missing_ids_noop simpleTree 2 3).2
     { id := 2, node_type := .Element, tag_name := some [115, 112, 97, 110],
       text_content := none, attributes := [], parent := some 1, children := [],
       prev_sibling := none, next_sibling := some 3 }
     (by decide) (by decide) (by decide)⟩

/-! ## C6: fingerprint determinism, separation, and prefix collisions -/

/-- C6 counterexample: two Element nodes whose tag names differ only at byte
33 have equal fingerprints, because `hash_node` hashes only the first 32 bytes
of the tag name — refuting the claim that any two nodes differing in tag name
hash differently. -/
theorem c6_counterexample :
    hash_node (DomNode.new_element 1 longTagA) =
      hash_node (DomNode.new_element 1 longTagB) ∧
    ¬ (DomNode.new_element 1 longTagA).tag_name =
      (DomNode.new_element 1 longTagB).tag_name := by decide

/-- C6 (amended): `hash_node` is deterministic; nodes differing in attribute
count or child count hash differently, and so do nodes whose tag names differ
within the 32-byte cap (tag names sharing their 32-byte truncation hash
identically, as the counterexample shows); and two Element nodes identical
except for `id` attribute values sharing the same first 16 bytes hash
identically. -/
theorem c6_hash_node_props :
    (∀ n m : DomNode, n = m → hash_node n = hash_node m) ∧
    (∀ n m : DomNode, ¬ n.attributes.length = m.attributes.length →
      ¬ hash_node n = hash_node m) ∧
    (∀ n m : DomNode, ¬ n.children.length = m.children.length →
      ¬ hash_node n = hash_node m) ∧
    (∀ n m : DomNode,
      ¬ n.tag_name.map (fun s => s.take 32) = m.tag_name.map (fun s => s.take 32) →
      ¬ hash_node n = hash_node m) ∧
    (∀ n m : DomNode, n.node_type = NodeType.Element → m.node_type = NodeType.Element →
      n.tag_name = m.tag_name → n.attributes.length = m.attributes.length →
      (n.get_attr idAttrName).map (fun v => v.take 16) =
        (m.get_attr idAttrName).map (fun v => v.take 16) →
      n.get_attr classAttrName = m.get_attr classAttrName →
      n.text_content = m.text_content → n.children.length = m.children.length →
      hash_node n = hash_node m) := by
  refine ⟨fun n m h => by rw [h], ?_, ?_, ?_, ?_⟩
  · intro n m h heq
    exact h (congrArg NodeHash.attrCount heq)
  · intro n m h heq
    exact h (congrArg NodeHash.childCount heq)
  · intro n m h heq
    exact h (congrArg NodeHash.tagPart heq)
  · intro n m hn hm htag hattr hid hclass htext hchild
    simp [hash_node, DomNode.is_element, hn, hm, htag, hattr, hid, hclass,
      htext, hchild]

/-- Witness for C6: concrete instances of every conjunct — determinism on a
`div` element; separation by attribute count, child count and short tag name;
and a fingerprint collision between two elements whose `id` values share
their first 16 bytes and differ at byte 17. -/
theorem c6_hash_node_props_witness :
    hash_node (DomNode.new_element 1 [100]) = hash_node (DomNode.new_element 1 [100]) ∧
    ¬ hash_node (DomNode.new_element 1 [100]) =
      hash_node { DomNode.new_element 1 [100] with attributes := [([104], [104])] } ∧
    ¬ hash_node (DomNode.new_element 1 [100]) =
      hash_node { DomNode.new_element 1 [100] with children := [2] } ∧
    ¬ hash_node (DomNode.new_element 1 [100]) =
      hash_node (DomNode.new_element 1 [101]) ∧
    hash_node ((DomNode.new_element 1 [100]).with_attr idAttrName
      (List.replicate 17 97)) =
      hash_node ((DomNode.new_element 1 [100]).with_attr idAttrName
        (List.replicate 16 97 ++ [98])) :=
  ⟨c6_hash_node_props.1 _ _ rfl,
   c6_hash_node_props.2.1 _ _ (by decide),
   c6_hash_node_props.2.2.1 _ _ (by decide),
   c6_hash_node_props.2.2.2.1 _ _ (by decide),
   c6_hash_node_props.2.2.2.2 _ _ rfl rfl rfl (by decide) (by decide) (by decide)
     rfl (by decide)⟩

/-! ## Counterexamples for the diff-behaviour claims -/

/-- C1 counterexample: `collideTree` diffed against itself is not empty.  Its
two leaf children share a fingerprint (the differing attribute value is not
sampled), so the BFS matches old node 2 against new node 3 and reports their
attribute difference as an `Update` — even though the two input trees are the
same tree. -/
theorem c1_counterexample :
    diff_changes 10 collideTree collideTree =
      some [DiffChange.Update 3 [NodeChange.AttrChange [104] (some [97]) (some [98])]] ∧
    ¬ diff_changes 10 collideTree collideTree = some [] := by decide

/-- C2 counterexample: appending leaf 4 under parent 1 of `simpleTree` yields
`[Delete 1 0 1, Insert 1 2 4]`, not a lone `Insert`: the parent's child count
changed, so its fingerprint misses and the BFS reports the parent itself as
deleted, contradicting the claim's "no Delete ... changes". -/
theorem c2_counterexample :
    diff_changes 10 simpleTree simpleTreePlus =
      some [DiffChange.Delete 1 0 1, DiffChange.Insert 1 2 4] ∧
    DiffChange.Delete 1 0 1 ∈ [DiffChange.Delete 1 0 1, DiffChange.Insert 1 2 4] := by
  decide

/-- C3 counterexample: changing text node 3 of `simpleTree` from "hello" to
"w" yields a single `Delete`, not an `Update` with a `TextChange`: the text
length (and sample) enters the fingerprint, so the changed node no longer
matches. -/
theorem c3_counterexample :
    diff_changes 10 simpleTree simpleTreeText = some [DiffChange.Delete 1 1 3] ∧
    ¬ diff_changes 10 simpleTree simpleTreeText =
      some [DiffChange.Update 3
        [NodeChange.TextChange [104, 101, 108, 108, 111] [119]]] := by decide

/-- C4 counterexample: node 99 is stored in `strayNodeTree` (with a parent
pointer at the root) but unreachable from the root; it is absent from the old
tree, yet the diff emits no `Insert` for it, because `detect_insertions`
enumerates the new tree through the root-reachable iterator, not through the
storage. -/
theorem c4_counterexample :
    (strayNodeTree.get_node 99).isSome = true ∧
    diff_changes 10 rootOnlyTree strayNodeTree = some [] := by decide

/-- Helper for the C5 counterexample: the DFS iterator never finishes on the
self-referential tree, whatever the fuel. -/
theorem cyclic_dfs_none : ∀ f, dfsAux cyclicTree f [1] = none := by
  intro f
  induction f with
  | zero => rfl
  | succ f ih =>
    have hg : cyclicTree.get_node 1 =
        some { DomNode.new_element 1 [100] with children := [1] } := by decide
    simp [dfsAux, hg, ih]

/-- C5 counterexample: on the self-referential tree `cyclicTree` (node 1 its
own child) no amount of fuel completes `compute_tree_diff`: the walk does not
terminate for every pair of input trees. -/
theorem c5_counterexample : ¬ DiffTerminates cyclicTree cyclicTree := by
  rintro ⟨f, hf⟩
  have hnone : compute_tree_diff f cyclicTree cyclicTree = none := by
    have hroot : domIterList cyclicTree f = none := by
      have : domIterList cyclicTree f = dfsAux cyclicTree f [1] := rfl
      rw [this, cyclic_dfs_none]
    simp [compute_tree_diff, hroot]
  rw [hnone] at hf
  simp at hf

/-- C9 counterexample: `twoParentTree` satisfies the sibling-cache invariant,
but appending node 3 — still wired as a child of node 1 — under the childless
node 4 leaves node 3's `prev_sibling` pointing at node 2 while node 3 sits at
position 0 of node 4's child list: `append_child` does not preserve the
invariant. -/
theorem c9_counterexample :
    siblingAgree twoParentTree = true ∧
    siblingAgree (twoParentTree.append_child 4 3).2 = false := by decide

/-! ## DFS traversal infrastructure -/

/-- Fuel monotonicity of the DFS runner. -/
theorem dfsAux_mono (t : DomTree) :
    ∀ (f : Nat) (S l : List NodeId), dfsAux t f S = some l →
      dfsAux t (f + 1) S = some l := by
  intro f
  induction f with
  | zero =>
    intro S l h
    cases S with
    | nil => simpa [dfsAux] using h
    | cons a rest => simp [dfsAux] at h
  | succ f ih =>
    intro S l h
    cases S with
    | nil => simpa [dfsAux] using h
    | cons a rest =>
      simp only [dfsAux] at h ⊢
      obtain ⟨l2, hl2, rfl⟩ := Option.map_eq_some'.mp h
      rw [ih _ _ hl2]
      rfl

/-- Fuel monotonicity, `≤` form. -/
theorem dfsAux_mono_le (t : DomTree) {f f' : Nat} (hle : f ≤ f')
    {S l : List NodeId} (h : dfsAux t f S = some l) : dfsAux t f' S = some l := by
  induction f' with
  | zero => exact (Nat.le_zero.mp hle) ▸ h
  | succ f' ih =>
    rcases Nat.lt_or_ge f (f' + 1) with hlt | hge
    · exact dfsAux_mono t f' S l (ih (Nat.lt_succ_iff.mp hlt))
    · exact (Nat.le_antisymm hle hge) ▸ h

/-- A completed DFS run from a concatenated stack splits into completed runs
from the two halves, at the same fuel. -/
theorem dfsAux_append (t : DomTree) :
    ∀ (f : Nat) (S1 S2 l : List NodeId), dfsAux t f (S1 ++ S2) = some l →
      ∃ l1 l2, dfsAux t f S1 = some l1 ∧ dfsAux t f S2 = some l2 ∧ l = l1 ++ l2 := by
  intro f
  induction f with
  | zero =>
    intro S1 S2 l h
    cases S1 with
    | nil =>
      cases S2 with
      | nil => exact ⟨[], [], rfl, rfl, by simpa [dfsAux] using h.symm⟩
      | cons b rest => simp [dfsAux] at h
    | cons a rest => simp [dfsAux] at h
  | succ f ih =>
    intro S1 S2 l h
    cases S1 with
    | nil =>
      exact ⟨[], l, rfl, h, rfl⟩
    | cons a rest =>
      rw [List.cons_append] at h
      cases hg : t.get_node a with
      | some n =>
        simp only [dfsAux, hg] at h
        obtain ⟨l2, hl2, rfl⟩ := Option.map_eq_some'.mp h
        rw [← List.append_assoc] at hl2
        obtain ⟨m1, m2, hm1, hm2, rfl⟩ := ih _ _ _ hl2
        refine ⟨a :: m1, m2, ?_, dfsAux_mono t f S2 m2 hm2, by simp⟩
        simp only [dfsAux, hg, hm1]
        rfl
      | none =>
        simp only [dfsAux, hg] at h
        obtain ⟨l2, hl2, rfl⟩ := Option.map_eq_some'.mp h
        obtain ⟨m1, m2, hm1, hm2, rfl⟩ := ih _ _ _ hl2
        refine ⟨a :: m1, m2, ?_, dfsAux_mono t f S2 m2 hm2, by simp⟩
        simp only [dfsAux, hg, hm1]
        rfl

/-- Every stacked id appears in the completed enumeration. -/
theorem dfsAux_stack_subset (t : DomTree) :
    ∀ (f : Nat) (S l : List NodeId), dfsAux t f S = some l → S ⊆ l := by
  intro f
  induction f with
  | zero =>
    intro S l h
    cases S with
    | nil => simp
    | cons a rest => simp [dfsAux] at h
  | succ f ih =>
    intro S l h
    cases S with
    | nil => simp
    | cons a rest =>
      cases hg : t.get_node a with
      | some n =>
        simp only [dfsAux, hg] at h
        obtain ⟨l2, hl2, rfl⟩ := Option.map_eq_some'.mp h
        intro x hx
        rcases List.mem_cons.mp hx with rfl | hx
        · exact List.mem_cons_self x l2
        · exact List.mem_cons_of_mem a
            (ih _ _ hl2 (List.mem_append.mpr (Or.inr hx)))
      | none =>
        simp only [dfsAux, hg] at h
        obtain ⟨l2, hl2, rfl⟩ := Option.map_eq_some'.mp h
        intro x hx
        rcases List.mem_cons.mp hx with rfl | hx
        · exact List.mem_cons_self x l2
        · exact List.mem_cons_of_mem a (ih _ _ hl2 hx)

/-- A completed enumeration is closed under stored children. -/
theorem dfsAux_closed (t : DomTree) :
    ∀ (f : Nat) (S l : List NodeId), dfsAux t f S = some l →
      ∀ x ∈ l, ∀ n, t.get_node x = some n → ∀ c ∈ n.children, c ∈ l := by
  intro f
  induction f with
  | zero =>
    intro S l h
    cases S with
    | nil =>
      intro x hx
      simp [dfsAux] at h
      subst h
      simp at hx
    | cons a rest => simp [dfsAux] at h
  | succ f ih =>
    intro S l h
    cases S with
    | nil =>
      intro x hx
      simp [dfsAux] at h
      subst h
      simp at hx
    | cons a rest =>
      cases hg : t.get_node a with
      | some n =>
        simp only [dfsAux, hg] at h
        obtain ⟨l2, hl2, rfl⟩ := Option.map_eq_some'.mp h
        intro x hx m hm c hc
        rcases List.mem_cons.mp hx with rfl | hx
        · rw [hg] at hm
          obtain rfl := Option.some_injective _ hm
          exact List.mem_cons_of_mem x
            (dfsAux_stack_subset t f _ _ hl2 (List.mem_append.mpr (Or.inl hc)))
        · exact List.mem_cons_of_mem a (ih _ _ hl2 x hx m hm c hc)
      | none =>
        simp only [dfsAux, hg] at h
        obtain ⟨l2, hl2, rfl⟩ := Option.map_eq_some'.mp h
        intro x hx m hm c hc
        rcases List.mem_cons.mp hx with rfl | hx
        · rw [hg] at hm; exact absurd hm (by simp)
        · exact List.mem_cons_of_mem a (ih _ _ hl2 x hx m hm c hc)

/-- Soundness: everything enumerated from a stack of reachable ids is
reachable. -/
theorem dfsAux_reach (t : DomTree) :
    ∀ (f : Nat) (S l : List NodeId), (∀ s ∈ S, Reach t s) →
      dfsAux t f S = some l → ∀ x ∈ l, Reach t x := by
  intro f
  induction f with
  | zero =>
    intro S l hS h
    cases S with
    | nil =>
      simp [dfsAux] at h
      subst h
      simp
    | cons a rest => simp [dfsAux] at h
  | succ f ih =>
    intro S l hS h
    cases S with
    | nil =>
      simp [dfsAux] at h
      subst h
      simp
    | cons a rest =>
      have hra : Reach t a := hS a (List.mem_cons_self a rest)
      cases hg : t.get_node a with
      | some n =>
        simp only [dfsAux, hg] at h
        obtain ⟨l2, hl2, rfl⟩ := Option.map_eq_some'.mp h
        intro x hx
        rcases List.mem_cons.mp hx with rfl | hx
        · exact hra
        · refine ih _ _ ?_ hl2 x hx
          intro s hs
          rcases List.mem_append.mp hs with hs | hs
          · exact Reach.child a n s hra hg hs
          · exact hS s (List.mem_cons_of_mem a hs)
      | none =>
        simp only [dfsAux, hg] at h
        obtain ⟨l2, hl2, rfl⟩ := Option.map_eq_some'.mp h
        intro x hx
        rcases List.mem_cons.mp hx with rfl | hx
        · exact hra
        · exact ih _ _ (fun s hs => hS s (List.mem_cons_of_mem a hs)) hl2 x hx

/-- Completeness: every reachable id occurs in the completed root
enumeration. -/
theorem reach_mem_iterList (t : DomTree) (f : Nat) (L : List NodeId)
    (hL : domIterList t f = some L) : ∀ x, Reach t x → x ∈ L := by
  intro x hx
  induction hx with
  | root r hr =>
    rw [domIterList, hr] at hL
    exact dfsAux_stack_subset t f _ _ hL (List.mem_singleton.mpr rfl)
  | child p n c _ hg hc ihp =>
    rw [domIterList] at hL
    exact dfsAux_closed t f _ _ hL p ihp n hg c hc

/-- The root enumeration is exactly the reachable ids. -/
theorem iterList_reach (t : DomTree) (f : Nat) (L : List NodeId)
    (hL : domIterList t f = some L) : ∀ x, x ∈ L ↔ Reach t x := by
  intro x
  constructor
  · intro hx
    rw [domIterList] at hL
    refine dfsAux_reach t f _ _ ?_ hL x hx
    intro s hs
    cases hr : t.root with
    | some r =>
      rw [hr] at hs
      rcases List.mem_singleton.mp hs with rfl
      exact Reach.root s hr
    | none => rw [hr] at hs; simp at hs
  · exact fun h => reach_mem_iterList t f L hL x h

/-- The empty stack completes immediately at any fuel. -/
theorem dfsAux_nil (t : DomTree) (f : Nat) :
    dfsAux t f ([] : List NodeId) = some [] := by
  cases f <;> rfl

/-- A completed run covers each stacked id by a completed singleton run. -/
theorem dfsAux_mem_single (t : DomTree) (f : Nat) :
    ∀ (S l : List NodeId), dfsAux t f S = some l → ∀ c ∈ S,
      ∃ lc, dfsAux t f [c] = some lc := by
  intro S
  induction S with
  | nil => intro l _ c hc; simp at hc
  | cons a rest ih =>
    intro l h c hc
    obtain ⟨l1, l2, h1, h2, rfl⟩ := dfsAux_append t f [a] rest l h
    rcases List.mem_cons.mp hc with rfl | hc
    · exact ⟨l1, h1⟩
    · exact ih l2 h2 c hc

/-- Expansion of a completed singleton run: the id followed by the completed
run of its children (or alone when dangling). -/
theorem dfsAux_single_expand (t : DomTree) (f : Nat) (id : NodeId)
    (l : List NodeId) (h : dfsAux t f [id] = some l) :
    (∀ n, t.get_node id = some n →
      ∃ lc, dfsAux t f n.children = some lc ∧ l = id :: lc) ∧
    (t.get_node id = none → l = [id]) := by
  cases f with
  | zero => simp [dfsAux] at h
  | succ f =>
    constructor
    · intro n hg
      simp only [dfsAux, hg] at h
      obtain ⟨l2, hl2, rfl⟩ := Option.map_eq_some'.mp h
      rw [List.append_nil] at hl2
      exact ⟨l2, dfsAux_mono t f _ _ hl2, rfl⟩
    · intro hg
      simp only [dfsAux, hg] at h
      obtain ⟨l2, hl2, rfl⟩ := Option.map_eq_some'.mp h
      obtain rfl := Option.some_injective _ hl2
      rfl


/-- Occurrence counting: a completed run's count of `x` is the sum of the
subtree counts of the stacked ids. -/
theorem dfsAux_count_sum (t : DomTree) (f : Nat) (x : NodeId) :
    ∀ (S l : List NodeId), dfsAux t f S = some l →
      l.count x = (S.map (subCountAt t f x)).sum := by
  intro S
  induction S with
  | nil =>
    intro l h
    rw [dfsAux_nil] at h
    obtain rfl := Option.some_injective _ h.symm
    simp
  | cons a rest ih =>
    intro l h
    obtain ⟨l1, l2, h1, h2, rfl⟩ := dfsAux_append t f [a] rest l h
    simp only [List.map_cons, List.sum_cons, List.count_append]
    rw [ih l2 h2, subCountAt, h1]
    rfl

/-- The subtree count of `x` below a stored id decomposes as the head
indicator plus the children's counts. -/
theorem subCountAt_expand (t : DomTree) (f : Nat) (x id : NodeId) (n : DomNode)
    (hg : t.get_node id = some n) (l : List NodeId)
    (h : dfsAux t f [id] = some l) :
    subCountAt t f x id =
      (if id = x then 1 else 0) +
        (n.children.map (subCountAt t f x)).sum := by
  obtain ⟨lc, hlc, rfl⟩ := (dfsAux_single_expand t f id l h).1 n hg
  rw [subCountAt, h]
  simp only [Option.map_some', Option.getD_some, List.count_cons]
  rw [dfsAux_count_sum t f x _ _ hlc]
  rw [Nat.add_comm]
  congr 1
  by_cases hax : id = x <;> simp [hax]

/-! ## Association-map lemmas -/

theorem mapLookup_nil {K V : Type} [DecidableEq K] (k : K) :
    mapLookup k ([] : List (K × V)) = none := rfl

theorem mapLookup_cons {K V : Type} [DecidableEq K] (k : K) (p : K × V)
    (rest : List (K × V)) :
    mapLookup k (p :: rest) = if p.1 = k then some p.2 else mapLookup k rest := by
  by_cases h : p.1 = k <;> simp [mapLookup, List.find?_cons, h]

theorem mapLookup_mapInsert_self {K V : Type} [DecidableEq K] (k : K) (v : V)
    (m : List (K × V)) : mapLookup k (mapInsert k v m) = some v := by
  induction m with
  | nil => simp [mapInsert, mapLookup_cons]
  | cons p rest ih =>
    obtain ⟨pk, pv⟩ := p
    by_cases h : pk = k
    · simp [mapInsert, h, mapLookup_cons]
    · simp [mapInsert, h, mapLookup_cons, ih]

theorem mapLookup_mapInsert_other {K V : Type} [DecidableEq K] (k k2 : K) (v : V)
    (m : List (K × V)) (hne : ¬ k2 = k) :
    mapLookup k2 (mapInsert k v m) = mapLookup k2 m := by
  have hne2 : ¬ k = k2 := fun h => hne h.symm
  induction m with
  | nil => simp [mapInsert, mapLookup_cons, mapLookup_nil, hne2]
  | cons p rest ih =>
    obtain ⟨pk, pv⟩ := p
    by_cases h : pk = k
    · subst h
      simp [mapInsert, mapLookup_cons, hne2]
    · simp [mapInsert, h, mapLookup_cons, ih]

theorem mapLookup_mapPush_self {K V : Type} [DecidableEq K] (k : K) (v : V)
    (m : List (K × List V)) :
    mapLookup k (mapPush k v m) = some ((mapLookup k m).getD [] ++ [v]) := by
  induction m with
  | nil => simp [mapPush, mapLookup_cons, mapLookup_nil]
  | cons p rest ih =>
    obtain ⟨pk, pv⟩ := p
    by_cases h : pk = k
    · subst h
      simp [mapPush, mapLookup_cons]
    · simp [mapPush, h, mapLookup_cons, ih]

theorem mapLookup_mapPush_other {K V : Type} [DecidableEq K] (k k2 : K) (v : V)
    (m : List (K × List V)) (hne : ¬ k2 = k) :
    mapLookup k2 (mapPush k v m) = mapLookup k2 m := by
  have hne2 : ¬ k = k2 := fun h => hne h.symm
  induction m with
  | nil => simp [mapPush, mapLookup_cons, mapLookup_nil, hne2]
  | cons p rest ih =>
    obtain ⟨pk, pv⟩ := p
    by_cases h : pk = k
    · subst h
      simp [mapPush, mapLookup_cons, hne2]
    · simp [mapPush, h, mapLookup_cons, ih]

theorem mapLookup_mapUpdate_self {K V : Type} [DecidableEq K] (k : K) (f : V → V)
    (m : List (K × V)) :
    mapLookup k (mapUpdate k f m) = (mapLookup k m).map f := by
  induction m with
  | nil => simp [mapUpdate, mapLookup_nil]
  | cons p rest ih =>
    obtain ⟨pk, pv⟩ := p
    by_cases h : pk = k
    · simp [mapUpdate, h, mapLookup_cons]
    · simp only [mapUpdate, List.map_cons, if_neg h, mapLookup_cons]
      exact ih

theorem mapLookup_mapUpdate_other {K V : Type} [DecidableEq K] (k k2 : K)
    (f : V → V) (m : List (K × V)) (hne : ¬ k2 = k) :
    mapLookup k2 (mapUpdate k f m) = mapLookup k2 m := by
  induction m with
  | nil => simp [mapUpdate, mapLookup_nil]
  | cons p rest ih =>
    obtain ⟨pk, pv⟩ := p
    by_cases h : pk = k
    · have hne2 : ¬ pk = k2 := fun h2 => hne (h2.symm.trans h)
      simp only [mapUpdate, List.map_cons, if_pos h, mapLookup_cons, if_neg hne2]
      exact ih
    · simp only [mapUpdate, List.map_cons, if_neg h, mapLookup_cons]
      by_cases h2 : pk = k2
      · simp [h2]
      · simp only [if_neg h2]
        exact ih

/-- Lookup success is preserved by any insert. -/
theorem mapLookup_mapInsert_isSome {K V : Type} [DecidableEq K] (k k2 : K) (v : V)
    (m : List (K × V)) (h : (mapLookup k2 m).isSome) :
    (mapLookup k2 (mapInsert k v m)).isSome := by
  by_cases he : k2 = k
  · subst he; rw [mapLookup_mapInsert_self]; rfl
  · rwa [mapLookup_mapInsert_other k k2 v m he]

/-- A successful lookup returns a member pair with the looked-up key. -/
theorem mapLookup_mem {K V : Type} [DecidableEq K] (k : K) (v : V)
    (m : List (K × V)) (h : mapLookup k m = some v) : (k, v) ∈ m := by
  induction m with
  | nil => simp [mapLookup_nil] at h
  | cons p rest ih =>
    obtain ⟨pk, pv⟩ := p
    rw [mapLookup_cons] at h
    by_cases hp : pk = k
    · rw [if_pos hp] at h
      obtain rfl := Option.some_injective _ h
      subst hp
      exact List.mem_cons_self _ _
    · rw [if_neg hp] at h
      exact List.mem_cons_of_mem _ (ih h)

/-! ## Attribute-map and node-comparison lemmas -/

/-- Keys of an insert result are among the inserted key and the old keys. -/
theorem mapInsert_keys_subset {K V : Type} [DecidableEq K] (k : K) (v : V) :
    ∀ m : List (K × V), (mapInsert k v m).map Prod.fst ⊆ k :: m.map Prod.fst := by
  intro m
  induction m with
  | nil => simp [mapInsert]
  | cons p rest ih =>
    obtain ⟨pk, pv⟩ := p
    by_cases h : pk = k
    · subst h
      simp only [mapInsert, if_pos rfl, List.map_cons]
      intro x hx
      rcases List.mem_cons.mp hx with rfl | hx
      · exact List.mem_cons_self _ _
      · exact List.mem_cons_of_mem _ (List.mem_cons_of_mem _ hx)
    · simp only [mapInsert, if_neg h, List.map_cons]
      intro x hx
      rcases List.mem_cons.mp hx with rfl | hx
      · exact List.mem_cons_of_mem _ (List.mem_cons_self _ _)
      · rcases List.mem_cons.mp (ih hx) with rfl | hx2
        · exact List.mem_cons_self _ _
        · exact List.mem_cons_of_mem _ (List.mem_cons_of_mem _ hx2)

/-- Inserting preserves distinctness of keys. -/
theorem mapInsert_keys_nodup {K V : Type} [DecidableEq K] (k : K) (v : V) :
    ∀ m : List (K × V), (m.map Prod.fst).Nodup →
      ((mapInsert k v m).map Prod.fst).Nodup := by
  intro m
  induction m with
  | nil => simp [mapInsert]
  | cons p rest ih =>
    obtain ⟨pk, pv⟩ := p
    intro hnd
    rw [List.map_cons, List.nodup_cons] at hnd
    by_cases h : pk = k
    · subst h
      have he : mapInsert pk v ((pk, pv) :: rest) = (pk, v) :: rest := by
        simp [mapInsert]
      rw [he, List.map_cons, List.nodup_cons]
      exact hnd
    · simp only [mapInsert, if_neg h, List.map_cons, List.nodup_cons]
      refine ⟨fun hc => ?_, ih hnd.2⟩
      rcases List.mem_cons.mp (mapInsert_keys_subset k v rest hc) with rfl | hc2
      · exact h rfl
      · exact hnd.1 hc2

/-- The attribute map has distinct keys. -/
theorem attrMap_keys_nodup (attrs : List (Str × Str)) :
    ((attrMap attrs).map Prod.fst).Nodup := by
  rw [attrMap]
  generalize hacc : ([] : List (Str × Str)) = acc
  have hnd : (acc.map Prod.fst).Nodup := by rw [← hacc]; simp
  clear hacc
  induction attrs generalizing acc with
  | nil => simpa using hnd
  | cons kv rest ih => exact ih _ (mapInsert_keys_nodup kv.1 kv.2 acc hnd)

/-- With distinct keys, membership determines the lookup. -/
theorem mapLookup_of_mem {K V : Type} [DecidableEq K] :
    ∀ (m : List (K × V)), (m.map Prod.fst).Nodup →
      ∀ k v, (k, v) ∈ m → mapLookup k m = some v := by
  intro m
  induction m with
  | nil => intro _ k v h; simp at h
  | cons p rest ih =>
    obtain ⟨pk, pv⟩ := p
    intro hnd k v hm
    rw [List.map_cons, List.nodup_cons] at hnd
    rcases List.mem_cons.mp hm with heq | hm2
    · obtain ⟨rfl, rfl⟩ := Prod.mk.injEq .. ▸ heq
      simp [mapLookup_cons]
    · rw [mapLookup_cons]
      have hne : ¬ pk = k := by
        rintro rfl
        exact hnd.1 (List.mem_map.mpr ⟨(pk, v), hm2, rfl⟩)
      rw [if_neg hne]
      exact ih hnd.2 k v hm2

/-- Comparing nodes with identical attribute lists and identical text yields
no changes. -/
theorem compare_changes_eq_nil (o n : DomNode)
    (hattr : o.attributes = n.attributes)
    (htext : o.text_content = n.text_content) :
    compare_changes o n = [] := by
  rw [compare_changes, hattr]
  have hself : ∀ kv ∈ attrMap n.attributes,
      mapLookup kv.1 (attrMap n.attributes) = some kv.2 := by
    intro kv hkv
    exact mapLookup_of_mem _ (attrMap_keys_nodup n.attributes) kv.1 kv.2
      (by simpa using hkv)
  have h1 : (attrMap n.attributes).filterMap (fun kv =>
      let old_value := mapLookup kv.1 (attrMap n.attributes)
      if ¬ old_value = some kv.2 then
        some (NodeChange.AttrChange kv.1 old_value (some kv.2))
      else none) = [] := by
    rw [List.filterMap_eq_nil_iff]
    intro kv hkv
    simp only [hself kv hkv]
    simp
  have h2 : (attrMap n.attributes).filterMap (fun kv =>
      if (mapLookup kv.1 (attrMap n.attributes)).isNone then
        some (NodeChange.AttrChange kv.1 (mapLookup kv.1 (attrMap n.attributes)) none)
      else none) = [] := by
    rw [List.filterMap_eq_nil_iff]
    intro kv hkv
    simp only [hself kv hkv]
    simp
  rw [h1, h2, htext]
  cases n.text_content <;> simp

/-- `compare_nodes` grows the change list by exactly one `Update` holding the
computed changes, or not at all. -/
theorem compare_nodes_changes (o n : DomNode) (d : TreeDiff) :
    (compare_nodes o n d).changes =
      d.changes ++
        (if (compare_changes o n).isEmpty then []
         else [DiffChange.Update n.id (compare_changes o n)]) := by
  rw [compare_nodes]
  by_cases h : (compare_changes o n).isEmpty
  · simp [h]
  · simp only [h, Bool.not_false, if_neg, if_true]
    cases hc : DiffChange.Update n.id (compare_changes o n) <;>
      simp [TreeDiff.add_change, ← hc, h]

/-! ## Characterizing the fingerprint index and the children index -/

/-- Invariance of a hash-indexed property along `build_node_index`'s fold. -/
theorem node_index_foldl_inv (t : DomTree) (P : NodeHash → NodeId → Prop) :
    ∀ (L : List NodeId) (acc : List (NodeHash × NodeId)),
      (∀ h j, mapLookup h acc = some j → P h j) →
      (∀ id ∈ L, ∀ n, t.get_node id = some n → P (hash_node n) id) →
      ∀ h j, mapLookup h (L.foldl (fun index id =>
        match t.get_node id with
        | some node => mapInsert (hash_node node) id index
        | none => index) acc) = some j → P h j := by
  intro L
  induction L with
  | nil => intro acc hacc _ h j hl; exact hacc h j hl
  | cons a rest ih =>
    intro acc hacc hL h j hl
    rw [List.foldl_cons] at hl
    cases hg : t.get_node a with
    | some n =>
      rw [hg] at hl
      refine ih _ ?_ (fun id hid => hL id (List.mem_cons_of_mem a hid)) h j hl
      intro h2 j2 hl2
      by_cases he : h2 = hash_node n
      · subst he
        rw [mapLookup_mapInsert_self] at hl2
        obtain rfl := Option.some_injective _ hl2
        exact hL a (List.mem_cons_self a rest) n hg
      · rw [mapLookup_mapInsert_other _ _ _ _ he] at hl2
        exact hacc h2 j2 hl2
    | none =>
      rw [hg] at hl
      exact ih _ hacc (fun id hid => hL id (List.mem_cons_of_mem a hid)) h j hl

/-- Soundness of the fingerprint index: a hit names an id from the indexed
list whose stored node carries that fingerprint. -/
theorem build_node_index_sound (t : DomTree) (L : List NodeId) (h : NodeHash)
    (j : NodeId) (hl : mapLookup h (build_node_index t L) = some j) :
    j ∈ L ∧ ∃ nj, t.get_node j = some nj ∧ hash_node nj = h := by
  refine node_index_foldl_inv t
    (fun h j => j ∈ L ∧ ∃ nj, t.get_node j = some nj ∧ hash_node nj = h) L [] ?_ ?_ h j hl
  · intro h2 j2 hl2; simp [mapLookup_nil] at hl2
  · intro id hid n hg
    exact ⟨hid, n, hg, rfl⟩

/-- Lookup success survives the rest of the fold. -/
theorem node_index_foldl_isSome (t : DomTree) :
    ∀ (L : List NodeId) (acc : List (NodeHash × NodeId)) (h : NodeHash),
      (mapLookup h acc).isSome →
      (mapLookup h (L.foldl (fun index id =>
        match t.get_node id with
        | some node => mapInsert (hash_node node) id index
        | none => index) acc)).isSome := by
  intro L
  induction L with
  | nil => intro acc h hs; exact hs
  | cons a rest ih =>
    intro acc h hs
    rw [List.foldl_cons]
    cases hg : t.get_node a with
    | some n => exact ih _ h (mapLookup_mapInsert_isSome _ _ _ _ hs)
    | none => exact ih _ h hs

/-- Completeness of the fingerprint index: every stored node of the indexed
list can be found by its fingerprint. -/
theorem build_node_index_complete (t : DomTree) (L : List NodeId) (j : NodeId)
    (nj : DomNode) (hmem : j ∈ L) (hg : t.get_node j = some nj) :
    (mapLookup (hash_node nj) (build_node_index t L)).isSome := by
  obtain ⟨s, r, rfl⟩ := List.append_of_mem hmem
  rw [build_node_index, List.foldl_append, List.foldl_cons, hg]
  exact node_index_foldl_isSome t r _ _ (by rw [mapLookup_mapInsert_self]; rfl)

/-- Folding pushes for a different key leaves a lookup unchanged. -/
theorem mapPush_foldl_other (j id : NodeId) (hne : ¬ id = j) :
    ∀ (cs : List NodeId) (acc : List (NodeId × List NodeId)),
      mapLookup id (cs.foldl (fun a ch => mapPush j ch a) acc) = mapLookup id acc := by
  intro cs
  induction cs with
  | nil => intro acc; rfl
  | cons c rest ih =>
    intro acc
    rw [List.foldl_cons, ih, mapLookup_mapPush_other j id c acc hne]

/-- Folding pushes for one key appends the pushed values to its entry. -/
theorem mapPush_foldl_self (j : NodeId) :
    ∀ (cs : List NodeId) (acc : List (NodeId × List NodeId)), ¬ cs = [] →
      mapLookup j (cs.foldl (fun a ch => mapPush j ch a) acc) =
        some ((mapLookup j acc).getD [] ++ cs) := by
  intro cs
  induction cs with
  | nil => intro acc h; exact absurd rfl h
  | cons c rest ih =>
    intro acc _
    rw [List.foldl_cons]
    by_cases hr : rest = []
    · subst hr
      simp only [List.foldl_nil]
      rw [mapLookup_mapPush_self]
    · rw [ih _ hr, mapLookup_mapPush_self]
      simp

/-- Characterization of one entry of the children index: the node's child
list, repeated once per occurrence of the id in the enumerated list (the
accumulator's entry is untouched for ids with no stored node, no occurrence,
or no children). -/
theorem build_children_index_lookup (t : DomTree) (id : NodeId) :
    ∀ (L : List NodeId) (acc : List (NodeId × List NodeId)),
      mapLookup id (L.foldl (fun index i =>
        match t.get_node i with
        | some node => node.children.foldl (fun idx child_id => mapPush i child_id idx) index
        | none => index) acc) =
      (match t.get_node id with
       | some n =>
         if L.count id = 0 ∨ n.children = [] then mapLookup id acc
         else some ((mapLookup id acc).getD [] ++
           (List.replicate (L.count id) n.children).flatten)
       | none => mapLookup id acc) := by
  intro L
  induction L with
  | nil =>
    intro acc
    cases t.get_node id <;> simp
  | cons a rest ih =>
    intro acc
    rw [List.foldl_cons]
    by_cases ha : a = id
    · subst ha
      cases hg : t.get_node a with
      | some n =>
        dsimp only
        have hcount : (a :: rest).count a = rest.count a + 1 := by
          simp [List.count_cons]
        by_cases hc : n.children = []
        · rw [hc, List.foldl_nil, ih acc, hg, hcount]
          simp [hc]
        · rw [ih _, hg, hcount]
          dsimp only
          by_cases hr : rest.count a = 0
          · rw [if_pos (Or.inl hr), hr]
            rw [if_neg (by simp [hc] : ¬ (0 + 1 = 0 ∨ n.children = []))]
            rw [mapPush_foldl_self a n.children acc hc]
            simp
          · rw [if_neg (by simp [hr, hc] : ¬ (rest.count a = 0 ∨ n.children = []))]
            rw [if_neg (by simp [hc] : ¬ (rest.count a + 1 = 0 ∨ n.children = []))]
            rw [mapPush_foldl_self a n.children acc hc]
            simp only [Option.getD_some]
            rw [show rest.count a + 1 = 1 + rest.count a from Nat.add_comm _ _]
            rw [List.replicate_add, List.flatten_append]
            simp
      | none =>
        dsimp only
        rw [ih acc, hg]
    · have hne : ¬ id = a := fun h => ha h.symm
      have hcount : (a :: rest).count id = rest.count id := by
        simp [List.count_cons, hne]
      cases hg : t.get_node a with
      | some n =>
        dsimp only
        rw [ih _]
        have hpp := mapPush_foldl_other a id hne n.children acc
        cases hgid : t.get_node id with
        | some m => rw [hcount, hpp]
        | none => exact hpp
      | none =>
        dsimp only
        rw [ih acc]
        cases hgid : t.get_node id with
        | some m => rw [hcount]
        | none => rfl

/-! ## Reorder-check silence lemmas -/

/-- Zipping a list with itself pairs each element with itself. -/
theorem zip_self_eq_map {α : Type} (l : List α) :
    l.zip l = l.map (fun a => (a, a)) := by
  induction l with
  | nil => rfl
  | cons a rest ih => simp [List.zip_cons_cons, ih]

/-- `check_children_reorder` emits nothing when the children-index entry for
the node is absent or consists of whole copies of the node's own child list. -/
theorem reorder_moves_eq_nil (n : DomNode) (cidx : List (NodeId × List NodeId))
    (hc : mapLookup n.id cidx = none ∨
      ∃ k, mapLookup n.id cidx = some ((List.replicate k n.children).flatten)) :
    reorder_moves n cidx = [] := by
  rcases hc with hc | ⟨k, hc⟩
  · rw [reorder_moves, hc]
  · rw [reorder_moves, hc]
    dsimp only
    have hflatlen : ((List.replicate k n.children).flatten).length =
        k * n.children.length := by
      rw [List.length_flatten, List.map_replicate, List.sum_replicate, smul_eq_mul]
    by_cases hk : k = 1
    · subst hk
      rw [if_neg (by simp)]
      rw [List.replicate_one, List.flatten_cons, List.flatten_nil, List.append_nil]
      rw [zip_self_eq_map, List.filterMap_eq_nil_iff]
      rintro ⟨i, y⟩ hx
      have h := List.mem_enum hx
      have h2 := h.2
      simp only [List.getElem_map] at h2
      simp [h2]
    · by_cases hlen : n.children.length = 0
      · rw [List.length_eq_zero.mp hlen]
        simp [List.zip_nil_left]
      · have hcond : ¬ n.children.length = ((List.replicate k n.children).flatten).length := by
          rw [hflatlen]
          intro hcon
          rcases Nat.lt_or_ge k 2 with h2 | h2
          · have hk0 : k = 0 := by omega
            subst hk0
            simp at hcon
            exact hlen (by simp [hcon])
          · have hge : 2 * n.children.length ≤ k * n.children.length :=
              Nat.mul_le_mul_right _ h2
            set M := k * n.children.length with hM
            omega
        rw [if_pos hcond]

/-! ## BFS walk lemmas -/

/-- `add_change` appends the change and touches nothing else in the list. -/
theorem add_change_changes (d : TreeDiff) (c : DiffChange) :
    (d.add_change c).changes = d.changes ++ [c] := by
  cases c <;> rfl

/-- Folding `add_change` appends the whole list of changes. -/
theorem foldl_add_change_changes (cs : List DiffChange) :
    ∀ d : TreeDiff, (cs.foldl TreeDiff.add_change d).changes = d.changes ++ cs := by
  induction cs with
  | nil => intro d; simp
  | cons c rest ih =>
    intro d
    rw [List.foldl_cons, ih, add_change_changes]
    simp

/-- A queued child entry names a child of the dequeued node. -/
theorem bfs_entry_mem (nid : NodeId) (children : List NodeId) (e : BfsEntry)
    (he : e ∈ children.enum.map (fun ci => (ci.2, some nid, ci.1))) :
    e.1 ∈ children ∧ e.2.1 = some nid ∧ children.get? e.2.2 = some e.1 := by
  obtain ⟨⟨j, c⟩, hci, rfl⟩ := List.mem_map.mp he
  have h := List.mem_enum hci
  refine ⟨?_, rfl, ?_⟩
  · rw [h.2]
    exact List.getElem_mem _
  · simp only [List.get?_eq_getElem?]
    rw [List.getElem?_eq_getElem h.1]
    exact congrArg some h.2.symm

/-- The one-step diff accumulator is unchanged for a node whose comparison and
reorder check are silent. -/
theorem silent_step_eq (new : DomTree) (n : DomNode) (m : NodeId)
    (cidx : List (NodeId × List NodeId)) (d : TreeDiff)
    (hcmp : ∀ nm, new.get_node m = some nm → compare_changes n nm = [])
    (hrm : reorder_moves n cidx = []) :
    check_children_reorder n cidx
      (match new.get_node m with
       | some nm => compare_nodes n nm d
       | none => d) = d := by
  have hinner : (match new.get_node m with
      | some nm => compare_nodes n nm d
      | none => d) = d := by
    cases hnm : new.get_node m with
    | some nm =>
      dsimp only
      rw [compare_nodes, hcmp nm hnm]
      simp
    | none => rfl
  rw [hinner, check_children_reorder, hrm]
  rfl

/-- A BFS walk in which every reachable stored node matches silently (its
fingerprint hits, the matched comparison finds no changes, the reorder check
finds no moves) adds nothing to the accumulated diff. -/
theorem bfs_silent (old new : DomTree) (idx : List (NodeHash × NodeId))
    (cidx : List (NodeId × List NodeId))
    (hsilent : ∀ id n, Reach old id → old.get_node id = some n →
      ∃ m, mapLookup (hash_node n) idx = some m ∧
        (∀ nm, new.get_node m = some nm → compare_changes n nm = []) ∧
        reorder_moves n cidx = []) :
    ∀ (f : Nat) (queue : List BfsEntry) (d res : TreeDiff),
      (∀ e ∈ queue, Reach old e.1) →
      bfs_diff old new idx cidx f queue d = some res → res.changes = d.changes := by
  intro f
  induction f with
  | zero =>
    intro queue d res hq h
    cases queue with
    | nil =>
      obtain rfl := Option.some_injective _ h
      rfl
    | cons e rest => simp [bfs_diff] at h
  | succ f ih =>
    intro queue d res hq h
    cases queue with
    | nil =>
      obtain rfl := Option.some_injective _ h
      rfl
    | cons e rest =>
      obtain ⟨nid, pid, i⟩ := e
      have hre : Reach old nid := hq _ (List.mem_cons_self _ _)
      cases hg : old.get_node nid with
      | none =>
        simp only [bfs_diff, hg] at h
        exact ih rest d res (fun e2 he2 => hq e2 (List.mem_cons_of_mem _ he2)) h
      | some n =>
        obtain ⟨m, hm, hcmp, hrm⟩ := hsilent nid n hre hg
        simp only [bfs_diff, hg, hm] at h
        rw [silent_step_eq new n m cidx d hcmp hrm] at h
        refine ih _ d res ?_ h
        intro e2 he2
        rcases List.mem_append.mp he2 with he2 | he2
        · exact hq e2 (List.mem_cons_of_mem _ he2)
        · obtain ⟨hc, _, _⟩ := bfs_entry_mem nid n.children e2 he2
          exact Reach.child nid n e2.1 hre hg hc

/-! ## Insertion-detection lemmas -/

/-- The change list after insertion detection. -/
theorem detect_insertions_changes (old_ids : List NodeId) (new : DomTree) :
    ∀ (new_ids : List NodeId) (d : TreeDiff),
      (detect_insertions old_ids new_ids new d).changes =
        d.changes ++ (new_ids.map (insertion_for old_ids new)).flatten := by
  intro ns
  induction ns with
  | nil => intro d; simp [detect_insertions]
  | cons a rest ih =>
    intro d
    rw [detect_insertions, List.foldl_cons]
    rw [show List.foldl
        (fun d new_id => (insertion_for old_ids new new_id).foldl TreeDiff.add_change d)
        ((insertion_for old_ids new a).foldl TreeDiff.add_change d) rest =
      detect_insertions old_ids rest new
        ((insertion_for old_ids new a).foldl TreeDiff.add_change d) from rfl]
    rw [ih, foldl_add_change_changes]
    simp

/-- No insertion is reported for an id the old enumeration contains. -/
theorem insertion_for_mem (old_ids : List NodeId) (new : DomTree) (j : NodeId)
    (h : j ∈ old_ids) : insertion_for old_ids new j = [] := by
  rw [insertion_for, if_pos h]

/-- The children-index entry of a stored node is absent or whole copies of
its child list (specialised form of `build_children_index_lookup`). -/
theorem children_index_entry (t : DomTree) (L : List NodeId) (id : NodeId)
    (n : DomNode) (hg : t.get_node id = some n) :
    mapLookup id (build_children_index t L) = none ∨
      ∃ k, mapLookup id (build_children_index t L) =
        some ((List.replicate k n.children).flatten) := by
  have hlook := build_children_index_lookup t id L []
  rw [build_children_index] at *
  rw [hlook, hg]
  dsimp only
  by_cases hcond : L.count id = 0 ∨ n.children = []
  · rw [if_pos hcond]
    exact Or.inl rfl
  · rw [if_neg hcond]
    exact Or.inr ⟨L.count id, rfl⟩

/-! ## C1: diffing a tree against itself -/

/-- C1 (amended): `compute_tree_diff` applied to one tree twice yields an
empty change list, provided distinct root-reachable stored nodes have
distinct fingerprints (the counterexample shows the claim false without that
proviso) and node ids match their storage keys. -/
theorem c1_diff_self_empty (t : DomTree) (fuel : Nat) (d : TreeDiff)
    (hids : idsMatch t)
    (hinj : ∀ i j ni nj, Reach t i → Reach t j → t.get_node i = some ni →
      t.get_node j = some nj → hash_node ni = hash_node nj → i = j)
    (hres : compute_tree_diff fuel t t = some d) :
    d.changes = [] := by
  rw [compute_tree_diff] at hres
  obtain ⟨LN, hLN, hres2⟩ := Option.bind_eq_some.mp hres
  obtain ⟨d1, hbfs, hres3⟩ := Option.bind_eq_some.mp hres2
  obtain ⟨LO, hLO, hres4⟩ := Option.bind_eq_some.mp hres3
  obtain rfl := Option.some_injective _ hres4
  have hLNO : LO = LN := by
    rw [hLN] at hLO
    exact (Option.some_injective _ hLO).symm
  subst hLNO
  have hd1 : d1.changes = [] := by
    have hq : ∀ e ∈ (match t.root with
        | some root => [((root : NodeId), (none : Option NodeId), 0)]
        | none => ([] : List BfsEntry)), Reach t e.1 := by
      cases hr : t.root with
      | some r =>
        intro e he
        rcases List.mem_singleton.mp he with rfl
        exact Reach.root r hr
      | none => intro e he; simp at he
    refine bfs_silent t t _ _ ?_ fuel _ TreeDiff.new_ d1 hq hbfs
    intro id n hre hg
    have hmem : id ∈ LO := reach_mem_iterList t fuel LO hLO id hre
    obtain ⟨m, hm⟩ := Option.isSome_iff_exists.mp
      (build_node_index_complete t LO id n hmem hg)
    obtain ⟨hmLO, nm, hgm, hhash⟩ := build_node_index_sound t LO _ m hm
    have hrm : Reach t m := (iterList_reach t fuel LO hLO m).mp hmLO
    obtain rfl : m = id := hinj m id nm n hrm hre hgm hg hhash
    refine ⟨m, hm, ?_, ?_⟩
    · intro nm2 hm2
      rw [hg] at hm2
      obtain rfl := Option.some_injective _ hm2
      exact compare_changes_eq_nil n n rfl rfl
    · have hid : n.id = m := hids (m, n) (mapLookup_mem m n t.nodes hg)
      apply reorder_moves_eq_nil
      rw [hid]
      exact children_index_entry t LO m n hg
  rw [detect_insertions_changes, hd1, List.nil_append]
  rw [List.flatten_eq_nil_iff]
  intro l hl
  obtain ⟨j, hj, rfl⟩ := List.mem_map.mp hl
  exact insertion_for_mem LO t j hj

/-- Distinct elements of a duplicate-free list with duplicate-free `filterMap`
image map to distinct images. -/
theorem filterMap_nodup_inj {α β : Type} :
    ∀ (l : List α) (g : α → Option β), l.Nodup → (l.filterMap g).Nodup →
      ∀ i ∈ l, ∀ j ∈ l, ¬ i = j → ∀ a b, g i = some a → g j = some b → ¬ a = b := by
  intro l g
  induction l with
  | nil => intro _ _ i hi; simp at hi
  | cons x rest ih =>
    intro hnd hfm i hi j hj hne a b ha hb
    rw [List.nodup_cons] at hnd
    rcases List.mem_cons.mp hi with rfl | hi2
    · rcases List.mem_cons.mp hj with rfl | hj2
      · exact absurd rfl hne
      · rw [List.filterMap_cons, ha] at hfm
        rw [List.nodup_cons] at hfm
        rintro rfl
        exact hfm.1 (List.mem_filterMap.mpr ⟨j, hj2, hb⟩)
    · rcases List.mem_cons.mp hj with rfl | hj2
      · rw [List.filterMap_cons, hb] at hfm
        rw [List.nodup_cons] at hfm
        rintro rfl
        exact hfm.1 (List.mem_filterMap.mpr ⟨i, hi2, ha⟩)
      · have hfm2 : (rest.filterMap g).Nodup :=
          List.Nodup.sublist (List.Sublist.filterMap g (List.sublist_cons_self x rest)) hfm
        exact ih hnd.2 hfm2 i hi2 j hj2 hne a b ha hb

/-- A decidable criterion for fingerprint injectivity over the reachable
nodes: a duplicate-free enumeration whose stored fingerprints are
duplicate-free. -/
theorem hash_inj_of_nodup (t : DomTree) (f : Nat) (L : List NodeId)
    (hL : domIterList t f = some L) (hnd : L.Nodup)
    (hh : (L.filterMap (fun id => (t.get_node id).map hash_node)).Nodup) :
    ∀ i j ni nj, Reach t i → Reach t j → t.get_node i = some ni →
      t.get_node j = some nj → hash_node ni = hash_node nj → i = j := by
  intro i j ni nj hri hrj hgi hgj hhash
  by_contra hne
  refine filterMap_nodup_inj L (fun id => (t.get_node id).map hash_node) hnd hh
    i ((iterList_reach t f L hL i).mpr hri) j ((iterList_reach t f L hL j).mpr hrj)
    hne (hash_node ni) (hash_node nj) ?_ ?_ hhash
  · show Option.map hash_node (t.get_node i) = some (hash_node ni)
    rw [hgi]; rfl
  · show Option.map hash_node (t.get_node j) = some (hash_node nj)
    rw [hgj]; rfl

/-- Witness for C1: the repository's own three-node test tree diffed against
itself; its three fingerprints are pairwise distinct, and the computed diff
has an empty change list. -/
theorem c1_diff_self_empty_witness :
    compute_tree_diff 10 simpleTree simpleTree = some TreeDiff.new_ ∧
    TreeDiff.new_.changes = [] :=
  ⟨by decide,
   c1_diff_self_empty simpleTree 10 TreeDiff.new_ (by decide)
     (hash_inj_of_nodup simpleTree 10 [1, 2, 3] (by decide) (by decide) (by decide))
     (by decide)⟩

/-! ## C4: where Inserts come from -/

/-- The reorder check appends only `Move` changes. -/
theorem check_children_reorder_changes (n : DomNode)
    (cidx : List (NodeId × List NodeId)) (d : TreeDiff) :
    (check_children_reorder n cidx d).changes = d.changes ++ reorder_moves n cidx := by
  rw [check_children_reorder, foldl_add_change_changes]

/-- Every element of `reorder_moves` is a `Move`. -/
theorem reorder_moves_are_moves (n : DomNode) (cidx : List (NodeId × List NodeId)) :
    ∀ ch ∈ reorder_moves n cidx, ∃ fp tp i nd, ch = DiffChange.Move fp tp i nd := by
  intro ch hch
  rw [reorder_moves] at hch
  cases hl : mapLookup n.id cidx with
  | none => rw [hl] at hch; simp at hch
  | some v =>
    rw [hl] at hch
    dsimp only at hch
    by_cases hlen : ¬ n.children.length = v.length
    · rw [if_pos hlen] at hch; simp at hch
    · rw [if_neg hlen] at hch
      obtain ⟨entry, _, he⟩ := List.mem_filterMap.mp hch
      by_cases hne : ¬ entry.2.1 = entry.2.2
      · rw [if_pos hne] at he
        obtain rfl := Option.some_injective _ he
        exact ⟨n.id, n.id, entry.1, entry.2.2, rfl⟩
      · rw [if_neg hne] at he
        cases he

/-- The BFS walk never emits an `Insert`: any `Insert` in its output was
already in the accumulator. -/
theorem bfs_no_insert (old new : DomTree) (idx : List (NodeHash × NodeId))
    (cidx : List (NodeId × List NodeId)) :
    ∀ (f : Nat) (queue : List BfsEntry) (d res : TreeDiff),
      bfs_diff old new idx cidx f queue d = some res →
      ∀ pa i nid, DiffChange.Insert pa i nid ∈ res.changes →
        DiffChange.Insert pa i nid ∈ d.changes := by
  intro f
  induction f with
  | zero =>
    intro queue d res h pa i nid hm
    cases queue with
    | nil => obtain rfl := Option.some_injective _ h; exact hm
    | cons e rest => simp [bfs_diff] at h
  | succ f ih =>
    intro queue d res h pa i nid hm
    cases queue with
    | nil => obtain rfl := Option.some_injective _ h; exact hm
    | cons e rest =>
      obtain ⟨nid2, pid, j⟩ := e
      cases hg : old.get_node nid2 with
      | none =>
        simp only [bfs_diff, hg] at h
        exact ih rest d res h pa i nid hm
      | some n =>
        cases hidx : mapLookup (hash_node n) idx with
        | some m =>
          simp only [bfs_diff, hg, hidx] at h
          have hstep := ih _ _ res h pa i nid hm
          rw [check_children_reorder_changes] at hstep
          rcases List.mem_append.mp hstep with hstep | hstep
          · have hcmp : (match new.get_node m with
                | some nm => compare_nodes n nm d
                | none => d).changes = d.changes ++
                  (match new.get_node m with
                   | some nm =>
                     if (compare_changes n nm).isEmpty then []
                     else [DiffChange.Update nm.id (compare_changes n nm)]
                   | none => []) := by
              cases hnm : new.get_node m with
              | some nm => dsimp only; rw [compare_nodes_changes]
              | none => dsimp only; rw [List.append_nil]
            rw [hcmp] at hstep
            rcases List.mem_append.mp hstep with hstep | hstep
            · exact hstep
            · exfalso
              cases hnm : new.get_node m with
              | some nm =>
                rw [hnm] at hstep
                dsimp only at hstep
                by_cases hemp : (compare_changes n nm).isEmpty
                · rw [if_pos hemp] at hstep; simp at hstep
                · rw [if_neg hemp] at hstep
                  rcases List.mem_singleton.mp hstep with h2
                  cases h2
              | none => rw [hnm] at hstep; simp at hstep
          · exfalso
            obtain ⟨fp, tp, i2, nd, hmv⟩ := reorder_moves_are_moves n cidx _ hstep
            cases hmv
        | none =>
          simp only [bfs_diff, hg, hidx] at h
          have hstep := ih rest _ res h pa i nid hm
          rw [add_change_changes] at hstep
          rcases List.mem_append.mp hstep with hstep | hstep
          · exact hstep
          · exfalso
            rcases List.mem_singleton.mp hstep with h2
            cases h2

/-- Membership in one id's insertion record. -/
theorem mem_insertion_for (olds : List NodeId) (new : DomTree)
    (j pa nid : NodeId) (i : Nat) :
    DiffChange.Insert pa i nid ∈ insertion_for olds new j ↔
      (j = nid ∧ ¬ nid ∈ olds ∧
        (new.get_node nid).bind DomNode.parent = some pa ∧
        i = insertIndexOf new pa nid) := by
  rw [insertion_for]
  by_cases h1 : j ∈ olds
  · rw [if_pos h1]
    constructor
    · intro h; simp at h
    · rintro ⟨rfl, h2, _⟩; exact absurd h1 h2
  · rw [if_neg h1]
    cases h2 : new.get_node j with
    | none =>
      dsimp only
      constructor
      · intro h; simp at h
      · rintro ⟨rfl, _, h3, _⟩
        rw [h2] at h3
        simp at h3
    | some n =>
      dsimp only
      cases h3 : n.parent with
      | none =>
        constructor
        · intro h; simp at h
        · rintro ⟨rfl, _, h4, _⟩
          rw [h2] at h4
          rw [show (some n).bind DomNode.parent = n.parent from rfl, h3] at h4
          simp at h4
      | some p2 =>
        dsimp only
        constructor
        · intro h
          rcases List.mem_singleton.mp h with heq
          obtain ⟨rfl, rfl, rfl⟩ : pa = p2 ∧ i = ((new.get_node p2).bind
              (fun p => p.children.findIdx? (fun id2 => id2 = j))).getD 0 ∧ nid = j := by
            cases heq
            exact ⟨rfl, rfl, rfl⟩
          refine ⟨rfl, h1, ?_, rfl⟩
          rw [h2]
          rw [show (some n).bind DomNode.parent = n.parent from rfl, h3]
        · rintro ⟨rfl, _, h4, h5⟩
          rw [h2] at h4
          rw [show (some n).bind DomNode.parent = n.parent from rfl, h3] at h4
          obtain rfl := Option.some_injective _ h4
          rw [h5]
          rw [insertIndexOf]
          exact List.mem_singleton.mpr rfl

/-- C4 (amended): every `Insert` in a completed diff comes from the insertion
detection phase, which scans the ids enumerated by the new tree's
root-reachable preorder traversal (not the whole storage) against the ids
enumerated from the old tree's root: `Insert pa i nid` is reported exactly
when `nid` is new-reachable but not old-reachable, its node's parent field is
`some pa` (a node with no parent field is skipped entirely), and `i` is the
node's position in that parent's child list, falling back to 0 when the
parent or the position cannot be resolved. -/
theorem c4_insertion_characterization (old new : DomTree) (fuel : Nat)
    (d : TreeDiff) (LN LO : List NodeId)
    (hn : domIterList new fuel = some LN) (ho : domIterList old fuel = some LO)
    (hres : compute_tree_diff fuel old new = some d) :
    ∀ pa i nid, DiffChange.Insert pa i nid ∈ d.changes ↔
      (nid ∈ LN ∧ ¬ nid ∈ LO ∧
        (new.get_node nid).bind DomNode.parent = some pa ∧
        i = insertIndexOf new pa nid) := by
  intro pa i nid
  rw [compute_tree_diff] at hres
  obtain ⟨LN2, hLN2, hres2⟩ := Option.bind_eq_some.mp hres
  obtain ⟨d1, hbfs, hres3⟩ := Option.bind_eq_some.mp hres2
  obtain ⟨LO2, hLO2, hres4⟩ := Option.bind_eq_some.mp hres3
  obtain rfl := Option.some_injective _ hres4
  obtain rfl : LN = LN2 := by rw [hn] at hLN2; exact Option.some_injective _ hLN2
  obtain rfl : LO = LO2 := by rw [ho] at hLO2; exact Option.some_injective _ hLO2
  have hd1 : ∀ ch ∈ d1.changes, ch ∈ TreeDiff.new_.changes ∨
      ¬ ∃ pa2 i2 nid2, ch = DiffChange.Insert pa2 i2 nid2 := by
    intro ch hch
    right
    rintro ⟨pa2, i2, nid2, rfl⟩
    have := bfs_no_insert old new _ _ fuel _ TreeDiff.new_ d1 hbfs pa2 i2 nid2 hch
    simp [TreeDiff.new_] at this
  rw [detect_insertions_changes]
  constructor
  · intro hm
    rcases List.mem_append.mp hm with hm | hm
    · exfalso
      rcases hd1 _ hm with h | h
      · simp [TreeDiff.new_] at h
      · exact h ⟨pa, i, nid, rfl⟩
    · obtain ⟨l, hl, hml⟩ := List.mem_flatten.mp hm
      obtain ⟨j, hj, rfl⟩ := List.mem_map.mp hl
      obtain ⟨rfl, h2, h3, h4⟩ := (mem_insertion_for LO new j pa nid i).mp hml
      exact ⟨hj, h2, h3, h4⟩
  · rintro ⟨h1, h2, h3, h4⟩
    refine List.mem_append.mpr (Or.inr ?_)
    refine List.mem_flatten.mpr ⟨insertion_for LO new nid, List.mem_map.mpr ⟨nid, h1, rfl⟩, ?_⟩
    exact (mem_insertion_for LO new nid pa nid i).mpr ⟨rfl, h2, h3, h4⟩

/-- Witness for C4 at the append-one-leaf example: node 4 is new-reachable,
absent from the old enumeration, and its Insert carries parent 1 and index 2. -/
theorem c4_insertion_characterization_witness :
    DiffChange.Insert 1 2 4 ∈
      ({ changes := [DiffChange.Delete 1 0 1, DiffChange.Insert 1 2 4],
         inserts := [(4, 1, 2)], deletes := [(1, 1, 0)], moves := [] } : TreeDiff).changes ↔
      ((4 : NodeId) ∈ [1, 2, 3, 4] ∧ ¬ (4 : NodeId) ∈ [1, 2, 3] ∧
        (simpleTreePlus.get_node 4).bind DomNode.parent = some 1 ∧
        2 = insertIndexOf simpleTreePlus 1 4) :=
  c4_insertion_characterization simpleTree simpleTreePlus 10
    { changes := [DiffChange.Delete 1 0 1, DiffChange.Insert 1 2 4],
      inserts := [(4, 1, 2)], deletes := [(1, 1, 0)], moves := [] }
    [1, 2, 3, 4] [1, 2, 3] (by decide) (by decide) (by decide) 1 2 4

/-! ## The single-emitter BFS walk -/

/-- The subtree count below the special id itself is at least one. -/
theorem subCountAt_self_pos (t : DomTree) (F : Nat) (s : NodeId)
    (h : (dfsAux t F [s]).isSome) : 0 < subCountAt t F s s := by
  obtain ⟨ls, hls⟩ := Option.isSome_iff_exists.mp h
  rw [subCountAt, hls]
  simp only [Option.map_some', Option.getD_some]
  exact List.count_pos_iff.mpr (dfsAux_stack_subset t F [s] ls hls (by simp))

/-- Sum of subtree counts over the enqueued child entries equals the sum over
the children. -/
theorem entries_count_sum (t : DomTree) (F : Nat) (s nid : NodeId)
    (children : List NodeId) :
    ((children.enum.map (fun ci => ((ci.2 : NodeId), some nid, ci.1))).map
        (fun e : BfsEntry => subCountAt t F s e.1)).sum =
      (children.map (subCountAt t F s)).sum := by
  rw [List.map_map]
  have : ((fun e : BfsEntry => subCountAt t F s e.1) ∘
      (fun ci : Nat × NodeId => ((ci.2 : NodeId), some nid, ci.1))) =
      (fun ci : Nat × NodeId => subCountAt t F s ci.2) := rfl
  rw [this]
  have h2 : (fun ci : Nat × NodeId => subCountAt t F s ci.2) =
      (subCountAt t F s) ∘ Prod.snd := rfl
  rw [h2, ← List.map_map, List.enum_map_snd]

/-- Children of a node with a completed singleton run have completed singleton
runs. -/
theorem children_runs_isSome (t : DomTree) (F : Nat) (id : NodeId) (n : DomNode)
    (hg : t.get_node id = some n) (h : (dfsAux t F [id]).isSome) :
    ∀ c ∈ n.children, (dfsAux t F [c]).isSome := by
  obtain ⟨l, hl⟩ := Option.isSome_iff_exists.mp h
  obtain ⟨lc, hlc, rfl⟩ := (dfsAux_single_expand t F id l hl).1 n hg
  intro c hc
  obtain ⟨l1, h1⟩ := dfsAux_mem_single t F n.children lc hlc c hc
  rw [h1]
  rfl

/-- The subtree-count sum over the children of a processed non-special node
equals that node's own subtree count. -/
theorem children_count_sum_eq (t : DomTree) (F : Nat) (s id : NodeId)
    (n : DomNode) (hg : t.get_node id = some n) (hne : ¬ id = s)
    (h : (dfsAux t F [id]).isSome) :
    (n.children.map (subCountAt t F s)).sum = subCountAt t F s id := by
  obtain ⟨l, hl⟩ := Option.isSome_iff_exists.mp h
  rw [subCountAt_expand t F s id n hg l hl, if_neg hne]
  omega

/-- A BFS walk whose queue subtrees avoid the special id entirely, over a
tree whose other reachable nodes are silent, adds nothing. -/
theorem bfs_silent_avoiding (old new : DomTree) (idx : List (NodeHash × NodeId))
    (cidx : List (NodeId × List NodeId)) (F : Nat) (s : NodeId)
    (hsilent : ∀ id n, Reach old id → ¬ id = s → old.get_node id = some n →
      ∃ m, mapLookup (hash_node n) idx = some m ∧
        (∀ nm, new.get_node m = some nm → compare_changes n nm = []) ∧
        reorder_moves n cidx = []) :
    ∀ (f : Nat) (queue : List BfsEntry) (d res : TreeDiff),
      (∀ e ∈ queue, Reach old e.1 ∧ (dfsAux old F [e.1]).isSome) →
      (queue.map (fun e => subCountAt old F s e.1)).sum = 0 →
      bfs_diff old new idx cidx f queue d = some res →
      res.changes = d.changes := by
  intro f
  induction f with
  | zero =>
    intro queue d res hq hsum h
    cases queue with
    | nil => obtain rfl := Option.some_injective _ h; rfl
    | cons e rest => simp [bfs_diff] at h
  | succ f ih =>
    intro queue d res hq hsum h
    cases queue with
    | nil => obtain rfl := Option.some_injective _ h; rfl
    | cons e rest =>
      obtain ⟨nid, pid, i⟩ := e
      obtain ⟨hre, hrun⟩ := hq _ (List.mem_cons_self _ _)
      rw [List.map_cons, List.sum_cons] at hsum
      dsimp only at hsum
      have hz : subCountAt old F s nid = 0 := by omega
      have hrests : (rest.map (fun e => subCountAt old F s e.1)).sum = 0 := by omega
      have hne : ¬ nid = s := by
        intro he
        rw [he] at hz hrun
        have := subCountAt_self_pos old F s hrun
        omega
      cases hg : old.get_node nid with
      | none =>
        simp only [bfs_diff, hg] at h
        exact ih rest d res (fun e2 he2 => hq e2 (List.mem_cons_of_mem _ he2)) hrests h
      | some n =>
        obtain ⟨m, hm, hcmp, hrm⟩ := hsilent nid n hre hne hg
        simp only [bfs_diff, hg, hm] at h
        rw [silent_step_eq new n m cidx d hcmp hrm] at h
        refine ih _ d res ?_ ?_ h
        · intro e2 he2
          rcases List.mem_append.mp he2 with he2 | he2
          · exact hq e2 (List.mem_cons_of_mem _ he2)
          · obtain ⟨hc, _, _⟩ := bfs_entry_mem nid n.children e2 he2
            exact ⟨Reach.child nid n e2.1 hre hg hc,
              children_runs_isSome old F nid n hg hrun e2.1 hc⟩
        · rw [List.map_append, List.sum_append, hrests,
            entries_count_sum old F s nid n.children,
            children_count_sum_eq old F s nid n hg hne hrun, hz]

/-- A BFS walk over a tree with exactly one non-silent reachable node `s`
(counted once over all queue subtrees) appends exactly the changes `E` that
processing `s` emits — a `Delete` with `s`'s queued parent metadata when its
fingerprint misses, or the comparison/reorder output when it matches. -/
theorem bfs_single_emitter (old new : DomTree) (idx : List (NodeHash × NodeId))
    (cidx : List (NodeId × List NodeId)) (F : Nat) (s : NodeId) (sn : DomNode)
    (E : List DiffChange) (pm : Option NodeId) (im : Nat)
    (hsn : old.get_node s = some sn)
    (hsilent : ∀ id n, Reach old id → ¬ id = s → old.get_node id = some n →
      ∃ m, mapLookup (hash_node n) idx = some m ∧
        (∀ nm, new.get_node m = some nm → compare_changes n nm = []) ∧
        reorder_moves n cidx = [])
    (hspec :
      (mapLookup (hash_node sn) idx = none ∧
        E = [DiffChange.Delete (pm.getD s) im s]) ∨
      (∃ m, mapLookup (hash_node sn) idx = some m ∧
        (match new.get_node m with
         | some nm =>
           if (compare_changes sn nm).isEmpty then []
           else [DiffChange.Update nm.id (compare_changes sn nm)]
         | none => []) ++ reorder_moves sn cidx = E))
    (hqmeta : mapLookup (hash_node sn) idx = none → ∀ q nq j, Reach old q →
      old.get_node q = some nq → nq.children.get? j = some s →
      some q = pm ∧ j = im) :
    ∀ (f : Nat) (queue : List BfsEntry) (d res : TreeDiff),
      (∀ e ∈ queue, Reach old e.1 ∧ (dfsAux old F [e.1]).isSome ∧
        (e.1 = s → mapLookup (hash_node sn) idx = none →
          e.2.1 = pm ∧ e.2.2 = im)) →
      (queue.map (fun e => subCountAt old F s e.1)).sum = 1 →
      bfs_diff old new idx cidx f queue d = some res →
      res.changes = d.changes ++ E := by
  intro f
  induction f with
  | zero =>
    intro queue d res hq hsum h
    cases queue with
    | nil => rw [List.map_nil, List.sum_nil] at hsum; cases hsum
    | cons e rest => simp [bfs_diff] at h
  | succ f ih =>
    intro queue d res hq hsum h
    cases queue with
    | nil => rw [List.map_nil, List.sum_nil] at hsum; cases hsum
    | cons e rest =>
      obtain ⟨nid, pid, i⟩ := e
      obtain ⟨hre, hrun, hmeta⟩ := hq _ (List.mem_cons_self _ _)
      rw [List.map_cons, List.sum_cons] at hsum
      dsimp only at hsum
      have hqrest : ∀ e2 ∈ rest, Reach old e2.1 ∧ (dfsAux old F [e2.1]).isSome ∧
          (e2.1 = s → mapLookup (hash_node sn) idx = none →
            e2.2.1 = pm ∧ e2.2.2 = im) :=
        fun e2 he2 => hq e2 (List.mem_cons_of_mem _ he2)
      by_cases hne : nid = s
      · subst hne
        have hpos := subCountAt_self_pos old F nid hrun
        have hcount1 : subCountAt old F nid nid = 1 := by omega
        have hrest0 : (rest.map (fun e => subCountAt old F nid e.1)).sum = 0 := by omega
        have hqrest2 : ∀ e2 ∈ rest, Reach old e2.1 ∧ (dfsAux old F [e2.1]).isSome :=
          fun e2 he2 => ⟨(hqrest e2 he2).1, (hqrest e2 he2).2.1⟩
        rcases hspec with ⟨hmiss, hE⟩ | ⟨m, hms, hEeq⟩
        · obtain ⟨hpm, him⟩ := hmeta rfl hmiss
          dsimp only at hpm him
          subst hpm him
          simp only [bfs_diff, hsn, hmiss] at h
          have hfin := bfs_silent_avoiding old new idx cidx F nid hsilent f rest _ res
            hqrest2 hrest0 h
          rw [hfin, add_change_changes, hE]
        · simp only [bfs_diff, hsn, hms] at h
          have hd2 : (check_children_reorder sn cidx
              (match new.get_node m with
               | some nm => compare_nodes sn nm d
               | none => d)).changes = d.changes ++ E := by
            rw [check_children_reorder_changes]
            have hinner : (match new.get_node m with
                | some nm => compare_nodes sn nm d
                | none => d).changes = d.changes ++
                  (match new.get_node m with
                   | some nm =>
                     if (compare_changes sn nm).isEmpty then []
                     else [DiffChange.Update nm.id (compare_changes sn nm)]
                   | none => []) := by
              cases hnm : new.get_node m with
              | some nm => dsimp only; rw [compare_nodes_changes]
              | none => dsimp only; rw [List.append_nil]
            rw [hinner, List.append_assoc, hEeq]
          have hchild0 : (sn.children.map (subCountAt old F nid)).sum = 0 := by
            obtain ⟨l, hl⟩ := Option.isSome_iff_exists.mp hrun
            have := subCountAt_expand old F nid nid sn hsn l hl
            rw [if_pos rfl] at this
            omega
          have hfin := bfs_silent_avoiding old new idx cidx F nid hsilent f
            (rest ++ sn.children.enum.map (fun ci => (ci.2, some nid, ci.1))) _ res
            ?_ ?_ h
          · rw [hfin, hd2]
          · intro e2 he2
            rcases List.mem_append.mp he2 with he2 | he2
            · exact hqrest2 e2 he2
            · obtain ⟨hc, _, _⟩ := bfs_entry_mem nid sn.children e2 he2
              exact ⟨Reach.child nid sn e2.1 hre hsn hc,
                children_runs_isSome old F nid sn hsn hrun e2.1 hc⟩
          · rw [List.map_append, List.sum_append, hrest0,
              entries_count_sum old F nid nid sn.children, hchild0]
      · cases hg : old.get_node nid with
        | none =>
          have hz2 : subCountAt old F s nid = 0 := by
            obtain ⟨l, hl⟩ := Option.isSome_iff_exists.mp hrun
            have hl2 := (dfsAux_single_expand old F nid l hl).2 hg
            subst hl2
            rw [subCountAt, hl]
            have hne3 : ¬ s = nid := fun h2 => hne h2.symm
            simp [List.count_cons, hne3]
          simp only [bfs_diff, hg] at h
          exact ih rest d res hqrest (by omega) h
        | some n =>
          obtain ⟨m, hm, hcmp, hrm⟩ := hsilent nid n hre hne hg
          simp only [bfs_diff, hg, hm] at h
          rw [silent_step_eq new n m cidx d hcmp hrm] at h
          refine ih _ d res ?_ ?_ h
          · intro e2 he2
            rcases List.mem_append.mp he2 with he2 | he2
            · exact hqrest e2 he2
            · obtain ⟨hc, hpid, hpos⟩ := bfs_entry_mem nid n.children e2 he2
              refine ⟨Reach.child nid n e2.1 hre hg hc,
                children_runs_isSome old F nid n hg hrun e2.1 hc, ?_⟩
              intro hes hmiss
              have hqm := hqmeta hmiss nid n e2.2.2 hre hg (by rw [← hes]; exact hpos)
              exact ⟨hpid.trans hqm.1, hqm.2⟩
          · rw [List.map_append, List.sum_append,
              entries_count_sum old F s nid n.children,
              children_count_sum_eq old F s nid n hg hne hrun]
            omega

/-! ## Congruence of traversals under content-only updates -/

/-- Trees with the same stored child lists have identical DFS runs. -/
theorem dfsAux_congr (t1 t2 : DomTree)
    (hch : ∀ id, (t2.get_node id).map DomNode.children =
      (t1.get_node id).map DomNode.children) :
    ∀ (f : Nat) (S : List NodeId), dfsAux t2 f S = dfsAux t1 f S := by
  intro f
  induction f with
  | zero => intro S; cases S <;> rfl
  | succ f ih =>
    intro S
    cases S with
    | nil => rfl
    | cons a rest =>
      have hca := hch a
      cases hg1 : t1.get_node a with
      | some n1 =>
        rw [hg1] at hca
        cases hg2 : t2.get_node a with
        | some n2 =>
          rw [hg2] at hca
          simp only [Option.map_some'] at hca
          have hca2 := Option.some_injective _ hca
          simp only [dfsAux, hg1, hg2, hca2, ih]
        | none => rw [hg2] at hca; simp at hca
      | none =>
        rw [hg1] at hca
        cases hg2 : t2.get_node a with
        | some n2 => rw [hg2] at hca; simp at hca
        | none => simp only [dfsAux, hg1, hg2, ih]

/-- Trees with the same root and the same stored child lists have the same
reachable ids. -/
theorem reach_congr (t1 t2 : DomTree) (hroot : t2.root = t1.root)
    (hch : ∀ id, (t2.get_node id).map DomNode.children =
      (t1.get_node id).map DomNode.children) :
    ∀ x, Reach t1 x → Reach t2 x := by
  intro x hx
  induction hx with
  | root r hr => exact Reach.root r (hroot ▸ hr)
  | child p n c _ hg hc ihp =>
    have hcp := hch p
    rw [hg] at hcp
    cases hg2 : t2.get_node p with
    | some n2 =>
      rw [hg2] at hcp
      simp only [Option.map_some'] at hcp
      have hcp2 := Option.some_injective _ hcp
      exact Reach.child p n2 c ihp hg2 (hcp2 ▸ hc)
    | none => rw [hg2] at hcp; simp at hcp

/-- Comparing nodes with identical attribute lists whose texts differ yields
exactly one `TextChange`. -/
theorem compare_changes_text (o n : DomNode) (t1 t2 : Str)
    (hattr : o.attributes = n.attributes)
    (ho : o.text_content = some t1) (hn : n.text_content = some t2)
    (hne : ¬ t1 = t2) :
    compare_changes o n = [NodeChange.TextChange t1 t2] := by
  rw [compare_changes, hattr]
  have hself : ∀ kv ∈ attrMap n.attributes,
      mapLookup kv.1 (attrMap n.attributes) = some kv.2 := by
    intro kv hkv
    exact mapLookup_of_mem _ (attrMap_keys_nodup n.attributes) kv.1 kv.2
      (by simpa using hkv)
  have h1 : (attrMap n.attributes).filterMap (fun kv =>
      let old_value := mapLookup kv.1 (attrMap n.attributes)
      if ¬ old_value = some kv.2 then
        some (NodeChange.AttrChange kv.1 old_value (some kv.2))
      else none) = [] := by
    rw [List.filterMap_eq_nil_iff]
    intro kv hkv
    simp only [hself kv hkv]
    simp
  have h2 : (attrMap n.attributes).filterMap (fun kv =>
      if (mapLookup kv.1 (attrMap n.attributes)).isNone then
        some (NodeChange.AttrChange kv.1 (mapLookup kv.1 (attrMap n.attributes)) none)
      else none) = [] := by
    rw [List.filterMap_eq_nil_iff]
    intro kv hkv
    simp only [hself kv hkv]
    simp
  rw [h1, h2, ho, hn]
  simp [hne]

/-- Reading back an updated node. -/
theorem get_node_update_node_self (t : DomTree) (id : NodeId)
    (f : DomNode → DomNode) :
    (t.update_node id f).get_node id = (t.get_node id).map f :=
  mapLookup_mapUpdate_self id f t.nodes

/-- Updates do not touch other keys. -/
theorem get_node_update_node_other (t : DomTree) (id id2 : NodeId)
    (f : DomNode → DomNode) (h : ¬ id2 = id) :
    (t.update_node id f).get_node id2 = t.get_node id2 :=
  mapLookup_mapUpdate_other id id2 f t.nodes h

/-! ## C3: a fingerprint-preserving text change -/

/-- C3 (amended): changing one text node's content yields exactly one `Update`
holding exactly one `TextChange` with the old and new text, provided the
change preserves the node's fingerprint (equal length and equal 16-byte
head/tail samples — otherwise the node is reported as a `Delete` instead, as
the counterexample shows), the old enumeration is duplicate-free, and
fingerprints are injective over the reachable nodes. -/
theorem c3_text_update (O : DomTree) (x : NodeId) (xn : DomNode) (t1 t2 : Str)
    (fuel : Nat) (d : TreeDiff) (LO : List NodeId)
    (hgx : O.get_node x = some xn) (hxid : xn.id = x)
    (htext : xn.text_content = some t1) (hneq : ¬ t1 = t2)
    (hids : idsMatch O)
    (hhash : hash_node { xn with text_content := some t2 } = hash_node xn)
    (hL : domIterList O fuel = some LO) (hnd : LO.Nodup) (hmem : x ∈ LO)
    (hinj : ∀ i j ni nj, i ∈ LO → j ∈ LO →
      (O.update_node x (fun n => { n with text_content := some t2 })).get_node i = some ni →
      (O.update_node x (fun n => { n with text_content := some t2 })).get_node j = some nj →
      hash_node ni = hash_node nj → i = j)
    (hres : compute_tree_diff fuel O
      (O.update_node x (fun n => { n with text_content := some t2 })) = some d) :
    d.changes = [DiffChange.Update x [NodeChange.TextChange t1 t2]] := by
  set xn2 : DomNode := { xn with text_content := some t2 } with hxn2
  set N := O.update_node x (fun n => { n with text_content := some t2 }) with hN
  have hgetN : ∀ id, N.get_node id =
      if id = x then some xn2 else O.get_node id := by
    intro id
    by_cases hix : id = x
    · rw [if_pos hix, hix, hN, get_node_update_node_self, hgx]
      rfl
    · rw [if_neg hix, hN, get_node_update_node_other O x id _ hix]
  have hch : ∀ id, (N.get_node id).map DomNode.children =
      (O.get_node id).map DomNode.children := by
    intro id
    rw [hgetN]
    by_cases hix : id = x
    · rw [if_pos hix, hix, hgx]
      rfl
    · rw [if_neg hix]
  have hroot : N.root = O.root := rfl
  have hreach : ∀ y, Reach N y ↔ Reach O y := by
    intro y
    constructor
    · exact fun h => reach_congr N O hroot.symm
        (fun id => (hch id).symm) y h
    · exact fun h => reach_congr O N hroot hch y h
  -- unfold the diff pipeline
  rw [compute_tree_diff] at hres
  obtain ⟨LN, hLN, hres2⟩ := Option.bind_eq_some.mp hres
  obtain ⟨d1, hbfs, hres3⟩ := Option.bind_eq_some.mp hres2
  obtain ⟨LO2, hLO2, hres4⟩ := Option.bind_eq_some.mp hres3
  obtain rfl := Option.some_injective _ hres4
  have hLNL : LN = LO := by
    rw [domIterList, hroot, dfsAux_congr O N hch] at hLN
    rw [domIterList] at hL
    rw [hLN] at hL
    exact Option.some_injective _ hL
  rw [← hLNL] at hL hnd hmem hinj
  have hLO2L : LO2 = LN := by
    rw [hL] at hLO2
    exact (Option.some_injective _ hLO2).symm
  rw [hLO2L]
  -- the old tree must have a root, since x is enumerated
  obtain ⟨rt, hrt⟩ : ∃ rt, O.root = some rt := by
    cases hr : O.root with
    | some r => exact ⟨r, rfl⟩
    | none =>
      rw [domIterList, hr, dfsAux_nil] at hL
      obtain rfl := Option.some_injective _ hL.symm
      simp at hmem
  have hreachO : ∀ y ∈ LN, Reach O y := fun y hy => (iterList_reach O fuel LN hL y).mp hy
  have hrx : Reach O x := hreachO x hmem
  -- the special node matches itself in the new index
  have hsome : (mapLookup (hash_node xn) (build_node_index N LN)).isSome := by
    have := build_node_index_complete N LN x xn2 hmem (by rw [hgetN, if_pos rfl])
    rwa [hhash] at this
  obtain ⟨m0, hm0⟩ := Option.isSome_iff_exists.mp hsome
  obtain ⟨hm0LN, nm0, hgm0, hhash0⟩ := build_node_index_sound N LN _ m0 hm0
  have hm0x : m0 = x := hinj m0 x nm0 xn2 hm0LN hmem hgm0
    (by rw [hgetN, if_pos rfl]) (by rw [hhash0, hhash])
  rw [hm0x] at hm0
  have hd1 : d1.changes = [DiffChange.Update x [NodeChange.TextChange t1 t2]] := by
    have hmain := bfs_single_emitter O N (build_node_index N LN)
      (build_children_index N LN) fuel x xn
      [DiffChange.Update x [NodeChange.TextChange t1 t2]] none 0 hgx
      ?_ ?_ ?_ fuel _ TreeDiff.new_ d1 ?_ ?_ hbfs
    · exact hmain
    · -- silence of the other nodes
      intro id n hre hne hg
      have hgN : N.get_node id = some n := by rw [hgetN, if_neg hne]; exact hg
      have hmemid : id ∈ LN := (iterList_reach O fuel LN hL id).mpr hre
      obtain ⟨m, hm⟩ := Option.isSome_iff_exists.mp
        (build_node_index_complete N LN id n hmemid hgN)
      obtain ⟨hmLN, nm, hgm, hhashm⟩ := build_node_index_sound N LN _ m hm
      have hmemid2 : id ∈ LN := hmemid
      obtain rfl : m = id := hinj m id nm n hmLN hmemid2 hgm hgN hhashm
      refine ⟨m, hm, ?_, ?_⟩
      · intro nm2 hm2
        rw [hgN] at hm2
        obtain rfl := Option.some_injective _ hm2
        exact compare_changes_eq_nil n n rfl rfl
      · have hid : n.id = m := hids (m, n) (mapLookup_mem m n O.nodes hg)
        apply reorder_moves_eq_nil
        rw [hid]
        exact children_index_entry N LN m n hgN
    · -- the special node emits the single Update
      right
      refine ⟨x, hm0, ?_⟩
      rw [hgetN, if_pos rfl]
      dsimp only
      have hcc : compare_changes xn xn2 = [NodeChange.TextChange t1 t2] :=
        compare_changes_text xn xn2 t1 t2 rfl htext rfl hneq
      rw [hcc]
      simp only [List.isEmpty_cons, if_neg]
      have hxid2 : xn2.id = x := hxid
      rw [hxid2]
      have hrm : reorder_moves xn (build_children_index N LN) = [] := by
        apply reorder_moves_eq_nil
        rw [hxid]
        have := children_index_entry N LN x xn2 (by rw [hgetN, if_pos rfl])
        exact this
      rw [hrm, List.append_nil]
      rfl
    · -- metadata: vacuous, the special node matches
      intro hmiss
      rw [hmiss] at hm0
      cases hm0
    · -- initial queue invariant
      rw [hrt]
      intro e he
      rcases List.mem_singleton.mp he with rfl
      refine ⟨Reach.root rt hrt, ?_, ?_⟩
      · rw [show dfsAux O fuel [rt] = domIterList O fuel from by rw [domIterList, hrt], hL]
        rfl
      · intro _ hmiss
        rw [hmiss] at hm0
        cases hm0
    · -- the special node is counted exactly once from the root
      rw [hrt]
      simp only [List.map_cons, List.map_nil, List.sum_cons, List.sum_nil]
      have hrun : dfsAux O fuel [rt] = some LN := by
        rw [show dfsAux O fuel [rt] = domIterList O fuel from by rw [domIterList, hrt], hL]
      rw [subCountAt, hrun]
      simp only [Option.map_some', Option.getD_some, Nat.add_zero]
      exact List.count_eq_one_of_mem hnd hmem
  have hnil : (LN.map (insertion_for LN N)).flatten = [] := by
    rw [List.flatten_eq_nil_iff]
    intro l hl
    obtain ⟨j, hj, rfl⟩ := List.mem_map.mp hl
    exact insertion_for_mem LN N j hj
  rw [detect_insertions_changes, hd1, hnil, List.append_nil]

/-- Distinct list members with stored nodes of equal fingerprint coincide —
the decidable form of fingerprint injectivity used to discharge witnesses. -/
theorem hash_inj_of_list_nodup (t : DomTree) (L : List NodeId) (hnd : L.Nodup)
    (hh : (L.filterMap (fun id => (t.get_node id).map hash_node)).Nodup) :
    ∀ i j ni nj, i ∈ L → j ∈ L → t.get_node i = some ni →
      t.get_node j = some nj → hash_node ni = hash_node nj → i = j := by
  intro i j ni nj hi hj hgi hgj hhash
  by_contra hne
  refine filterMap_nodup_inj L (fun id => (t.get_node id).map hash_node) hnd hh
    i hi j hj hne (hash_node ni) (hash_node nj) ?_ ?_ hhash
  · show Option.map hash_node (t.get_node i) = some (hash_node ni)
    rw [hgi]; rfl
  · show Option.map hash_node (t.get_node j) = some (hash_node nj)
    rw [hgj]; rfl

/-- Witness for C3: changing the middle byte of a 33-byte text keeps the
fingerprint (length 33, equal head/tail samples) and the diff is exactly one
`Update` with one `TextChange`. -/
theorem c3_text_update_witness :
    compute_tree_diff 10 textTree
      (textTree.update_node 2 (fun n => { n with text_content := some longText2 })) =
      some { changes := [DiffChange.Update 2 [NodeChange.TextChange longText1 longText2]],
             inserts := [], deletes := [], moves := [] } ∧
    ({ changes := [DiffChange.Update 2 [NodeChange.TextChange longText1 longText2]],
       inserts := [], deletes := [], moves := [] } : TreeDiff).changes =
      [DiffChange.Update 2 [NodeChange.TextChange longText1 longText2]] :=
  ⟨by decide,
   c3_text_update textTree 2
     { id := 2, node_type := .Text, tag_name := none,
       text_content := some longText1, attributes := [], parent := some 1,
       children := [], prev_sibling := none, next_sibling := none }
     longText1 longText2 10
     { changes := [DiffChange.Update 2 [NodeChange.TextChange longText1 longText2]],
       inserts := [], deletes := [], moves := [] }
     [1, 2] (by decide) (by decide) (by decide) (by decide) (by decide) (by decide)
     (by decide) (by decide) (by decide)
     (hash_inj_of_list_nodup
       (textTree.update_node 2 (fun n => { n with text_content := some longText2 }))
       [1, 2] (by decide) (by decide))
     (by decide)⟩

/-! ## C2: structure of the appended-leaf tree -/

/-- Reading back an added node. -/
theorem get_node_add_node_self (t : DomTree) (n : DomNode) :
    (t.add_node n).get_node n.id = some n :=
  mapLookup_mapInsert_self n.id n t.nodes

/-- Adding a node does not touch other keys. -/
theorem get_node_add_node_other (t : DomTree) (n : DomNode) (id : NodeId)
    (h : ¬ id = n.id) : (t.add_node n).get_node id = t.get_node id :=
  mapLookup_mapInsert_other n.id id n t.nodes h

/-- `siblingOnly` is reflexive. -/
theorem siblingOnly_refl (n : DomNode) : siblingOnly n n :=
  ⟨rfl, rfl, rfl, rfl, rfl, rfl, rfl⟩

/-- The fingerprint ignores the sibling cache. -/
theorem hash_node_siblingOnly (n n2 : DomNode) (h : siblingOnly n n2) :
    hash_node n2 = hash_node n := by
  obtain ⟨hid, hty, htag, htx, hat, hpar, hch⟩ := h
  rw [hash_node, hash_node]
  rw [DomNode.is_element, DomNode.is_element, hty]
  rw [DomNode.get_attr, DomNode.get_attr, DomNode.get_attr, DomNode.get_attr, hat]
  rw [htag, htx, hch]

/-- Structure of the tree obtained by adding a fresh leaf and appending it
under an existing parent: the parent gains the child at the end of its list,
the child is stored with the parent pointer set, and every other node keeps
all its fields except possibly the sibling cache. -/
theorem append_leaf_get (O : DomTree) (p c : NodeId) (cnode pn : DomNode)
    (hgp : O.get_node p = some pn) (hgc : O.get_node c = none)
    (hcid : cnode.id = c)
    (hfreshp : ¬ c ∈ pn.children) :
    ∃ N, (O.add_node cnode).append_child p c = (true, N) ∧
      (∃ pn2, N.get_node p = some pn2 ∧ pn2.children = pn.children ++ [c]) ∧
      (∃ cn2, N.get_node c = some cn2 ∧ cn2.parent = some p ∧
        cn2.children = cnode.children) ∧
      (∀ id, ¬ id = p → ¬ id = c →
        ((O.get_node id = none ∧ N.get_node id = none) ∨
         (∃ n n2, O.get_node id = some n ∧ N.get_node id = some n2 ∧
           siblingOnly n n2))) ∧
      N.root = O.root := by
  have hpc : ¬ p = c := by
    intro h
    rw [h, hgc] at hgp
    cases hgp
  have hcp : ¬ c = p := fun h => hpc h.symm
  set O1 := O.add_node cnode with hO1
  have hO1p : O1.get_node p = some pn := by
    rw [hO1, get_node_add_node_other O cnode p (by rw [hcid]; exact hpc), hgp]
  have hO1c : O1.get_node c = some cnode := by
    rw [hO1, ← hcid]
    exact get_node_add_node_self O cnode
  have hO1other : ∀ id, ¬ id = c → O1.get_node id = O.get_node id := by
    intro id h
    rw [hO1, get_node_add_node_other O cnode id (by rw [hcid]; exact h)]
  have hO1root : O1.root = O.root := rfl
  rw [DomTree.append_child, hO1p, hO1c]
  simp only [Option.isNone_some, Bool.false_eq_true, or_self, if_false]
  set t1 := O1.update_node p (fun n => { n with children := n.children ++ [c] }) with ht1
  set t2 := t1.update_node c (fun n => { n with parent := some p }) with ht2
  have ht1p : t1.get_node p = some { pn with children := pn.children ++ [c] } := by
    rw [ht1, get_node_update_node_self, hO1p]
    rfl
  have ht2p : t2.get_node p = some { pn with children := pn.children ++ [c] } := by
    rw [ht2, get_node_update_node_other t1 c p _ hpc, ht1p]
  have ht2c : t2.get_node c = some { cnode with parent := some p } := by
    rw [ht2, get_node_update_node_self, ht1, get_node_update_node_other O1 p c _ hcp, hO1c]
    rfl
  have ht2other : ∀ id, ¬ id = p → ¬ id = c → t2.get_node id = O.get_node id := by
    intro id hp2 hc2
    rw [ht2, get_node_update_node_other t1 c id _ hc2, ht1,
      get_node_update_node_other O1 p id _ hp2, hO1other id hc2]
  rw [ht2p]
  by_cases hlen : pn.children.length > 0
  · rw [if_pos hlen]
    dsimp only
    have hlt : pn.children.length - 1 < pn.children.length := by omega
    have hgetapp : (pn.children ++ [c]).get? (pn.children.length - 1) =
        pn.children.get? (pn.children.length - 1) := by
      rw [List.get?_eq_getElem?, List.get?_eq_getElem?, List.getElem?_append, if_pos hlt]
    rw [hgetapp]
    obtain ⟨prevId, hprev⟩ : ∃ prevId,
        pn.children.get? (pn.children.length - 1) = some prevId := by
      rw [List.get?_eq_getElem?]
      exact ⟨pn.children.get ⟨pn.children.length - 1, hlt⟩, List.getElem?_eq_getElem hlt⟩
    rw [hprev]
    dsimp only
    have hprevmem : prevId ∈ pn.children := by
      rw [List.get?_eq_getElem?] at hprev
      exact List.getElem?_mem hprev
    have hprevc : ¬ prevId = c := fun h => hfreshp (h ▸ hprevmem)
    have hcprev : ¬ c = prevId := fun h => hprevc h.symm
    refine ⟨_, rfl, ?_, ?_, ?_, rfl⟩
    · -- parent characterization
      by_cases hpp : p = prevId
      · refine ⟨{ { pn with children := pn.children ++ [c] } with
          next_sibling := some c }, ?_, rfl⟩
        rw [get_node_update_node_other _ c p _ hpc,
          get_node_update_node_other _ c p _ hpc, ← hpp,
          get_node_update_node_self, ht2p]
        rfl
      · refine ⟨{ pn with children := pn.children ++ [c] }, ?_, rfl⟩
        rw [get_node_update_node_other _ c p _ hpc,
          get_node_update_node_other _ c p _ hpc,
          get_node_update_node_other _ prevId p _ hpp, ht2p]
    · -- child characterization
      refine ⟨{ cnode with parent := some p, prev_sibling := some prevId, next_sibling := none }, ?_, rfl, rfl⟩
      rw [get_node_update_node_self, get_node_update_node_self,
        get_node_update_node_other _ prevId c _ hcprev, ht2c]
      rfl
    · -- other nodes
      intro id hip hic
      by_cases hiprev : id = prevId
      · cases hO : O.get_node id with
        | none =>
          left
          refine ⟨rfl, ?_⟩
          rw [get_node_update_node_other _ c id _ hic,
            get_node_update_node_other _ c id _ hic, hiprev,
            get_node_update_node_self, ← hiprev, ht2other id hip hic, hO]
          rfl
        | some n =>
          right
          refine ⟨n, { n with next_sibling := some c }, rfl, ?_, ?_⟩
          · rw [get_node_update_node_other _ c id _ hic,
              get_node_update_node_other _ c id _ hic, hiprev,
              get_node_update_node_self, ← hiprev, ht2other id hip hic, hO]
            rfl
          · exact ⟨rfl, rfl, rfl, rfl, rfl, rfl, rfl⟩
      · cases hO : O.get_node id with
        | none =>
          left
          refine ⟨rfl, ?_⟩
          rw [get_node_update_node_other _ c id _ hic,
            get_node_update_node_other _ c id _ hic,
            get_node_update_node_other _ prevId id _ hiprev,
            ht2other id hip hic, hO]
        | some n =>
          right
          refine ⟨n, n, rfl, ?_, siblingOnly_refl n⟩
          rw [get_node_update_node_other _ c id _ hic,
            get_node_update_node_other _ c id _ hic,
            get_node_update_node_other _ prevId id _ hiprev,
            ht2other id hip hic, hO]
  · rw [if_neg hlen]
    refine ⟨_, rfl, ?_, ?_, ?_, rfl⟩
    · refine ⟨{ pn with children := pn.children ++ [c] }, ?_, rfl⟩
      rw [get_node_update_node_other _ c p _ hpc, ht2p]
    · refine ⟨{ cnode with parent := some p, next_sibling := none }, ?_, rfl, rfl⟩
      rw [get_node_update_node_self, ht2c]
      rfl
    · intro id hip hic
      cases hO : O.get_node id with
      | none =>
        left
        refine ⟨rfl, ?_⟩
        rw [get_node_update_node_other _ c id _ hic, ht2other id hip hic, hO]
      | some n =>
        right
        refine ⟨n, n, rfl, ?_, siblingOnly_refl n⟩
        rw [get_node_update_node_other _ c id _ hic, ht2other id hip hic, hO]

/-! ## C2: appending a fresh leaf under an existing parent -/

/-- `findIdx?` scanning `l ++ [c]` for an id fresh to `l` lands past `l`. -/
theorem findIdx_append_fresh (c : NodeId) :
    ∀ (l : List NodeId) (i : Nat), ¬ c ∈ l →
      List.findIdx? (fun id => id = c) (l ++ [c]) i = some (i + l.length) := by
  intro l
  induction l with
  | nil =>
    intro i h
    rw [List.nil_append, List.findIdx?_cons]
    simp
  | cons a rest ih =>
    intro i h
    have hac : ¬ a = c := fun he => h (he ▸ List.mem_cons_self a rest)
    have h2 : ¬ c ∈ rest := fun hm => h (List.mem_cons_of_mem _ hm)
    rw [List.cons_append, List.findIdx?_cons, if_neg (by simp [hac])]
    rw [ih (i + 1) h2, List.length_cons]
    congr 1
    omega

/-- A successful positional lookup is a member of the indexed enumeration. -/
theorem mem_enum_of_get (l : List NodeId) (j x : NodeId) (h : l.get? j = some x) :
    (j, x) ∈ l.enum := by
  rw [List.get?_eq_getElem?] at h
  exact List.mk_mem_enum_iff_getElem?.mpr h

/-- Flattening a map that is empty away from the single occurrence of `c`
yields the block at `c`. -/
theorem flatten_eq_of_count_one {β : Type} (f : NodeId → List β) (c : NodeId) :
    ∀ L : List NodeId, L.count c = 1 → (∀ j ∈ L, ¬ j = c → f j = []) →
      (L.map f).flatten = f c := by
  intro L
  induction L with
  | nil => intro h; simp at h
  | cons a rest ih =>
    intro hc hz
    by_cases hac : a = c
    · subst hac
      rw [List.count_cons_self] at hc
      have hr0 : rest.count a = 0 := by omega
      have hzero : ∀ j ∈ rest, f j = [] := by
        intro j hj
        by_cases hjc : j = a
        · subst hjc
          rw [List.count_eq_zero] at hr0
          exact absurd hj hr0
        · exact hz j (List.mem_cons_of_mem _ hj) hjc
      rw [List.map_cons, List.flatten_cons]
      have hnil : (rest.map f).flatten = [] := by
        rw [List.flatten_eq_nil_iff]
        intro l hl
        obtain ⟨j, hj, rfl⟩ := List.mem_map.mp hl
        exact hzero j hj
      rw [hnil, List.append_nil]
    · have hc2 : rest.count c = 1 := by
        rw [List.count_cons, if_neg (by simp [hac])] at hc
        omega
      rw [List.map_cons, List.flatten_cons, hz a (List.mem_cons_self _ _) hac,
        List.nil_append]
      exact ih hc2 (fun j hj hjc => hz j (List.mem_cons_of_mem _ hj) hjc)

/-- C2 (amended): appending a freshly created leaf `c` under an existing
parent `p` is reported as exactly two changes — a `Delete` of the old parent
(whose fingerprint changes with its child count, so the BFS cannot match it;
the counterexample refutes the claimed lone `Insert`) located at the parent's
own BFS position, followed by one `Insert` of the leaf at the end of `p`'s
child list — provided the traversals finish, the enumerations are
duplicate-free, ids match storage keys, the new tree's fingerprints are
injective over its enumeration and miss the old parent's fingerprint, the
appended id is fresh (stored nowhere, listed by no node, not the root), and
`pm`/`im` name `p`'s unique parent metadata. -/
theorem c2_append_leaf (O N : DomTree) (p c : NodeId) (cnode pn : DomNode)
    (fuel : Nat) (d : TreeDiff) (LO LN : List NodeId) (pm : Option NodeId)
    (im : Nat)
    (hgp : O.get_node p = some pn) (hgc : O.get_node c = none)
    (hcid : cnode.id = c) (hcleaf : cnode.children = [])
    (hfresh : ∀ pr ∈ O.nodes, ¬ c ∈ pr.2.children)
    (hrootc : ¬ O.root = some c)
    (hids : idsMatch O)
    (happ : (O.add_node cnode).append_child p c = (true, N))
    (hLO : domIterList O fuel = some LO) (hnd : LO.Nodup) (hpmem : p ∈ LO)
    (hLN : domIterList N fuel = some LN) (hndN : LN.Nodup)
    (hinj : ∀ i j ni nj, i ∈ LN → j ∈ LN → N.get_node i = some ni →
      N.get_node j = some nj → hash_node ni = hash_node nj → i = j)
    (hpmiss : ∀ j ∈ LN, ¬ (N.get_node j).map hash_node = some (hash_node pn))
    (hmeta0 : O.root = some p → pm = none ∧ im = 0)
    (hmeta1 : ∀ q ∈ LO, ∀ pr ∈ (((O.get_node q).map DomNode.children).getD []).enum,
      pr.2 = p → some q = pm ∧ pr.1 = im)
    (hres : compute_tree_diff fuel O N = some d) :
    d.changes = [DiffChange.Delete (pm.getD p) im p,
      DiffChange.Insert p pn.children.length c] := by
  have hfreshp : ¬ c ∈ pn.children := hfresh (p, pn) (mapLookup_mem p pn O.nodes hgp)
  obtain ⟨N2, happ2, ⟨pn2, hgp2, hpch2⟩, ⟨cn2, hgc2, hcpar, hcch2⟩, hother, hroot⟩ :=
    append_leaf_get O p c cnode pn hgp hgc hcid hfreshp
  rw [happ] at happ2
  injection happ2 with h1 h2
  subst h2
  have hpc : ¬ p = c := by
    rintro rfl
    rw [hgp] at hgc
    cases hgc
  have hsoChildren : ∀ {n n2 : DomNode}, siblingOnly n n2 → n2.children = n.children :=
    fun h => h.2.2.2.2.2.2
  -- reachable old ids stay reachable in the appended tree
  have hreachON : ∀ y, Reach O y → Reach N y := by
    intro y hy
    induction hy with
    | root r hr => exact Reach.root r (by rw [hroot]; exact hr)
    | child q nq x hq hg hc ih =>
      by_cases hqp : q = p
      · subst hqp
        rw [hgp] at hg
        obtain rfl := Option.some_injective _ hg
        exact Reach.child q pn2 x ih hgp2
          (by rw [hpch2]; exact List.mem_append_left _ hc)
      · have hqc : ¬ q = c := by rintro rfl; rw [hgc] at hg; cases hg
        rcases hother q hqp hqc with ⟨hn1, _⟩ | ⟨n, n2, hn1, hn2, hso⟩
        · rw [hn1] at hg; cases hg
        · rw [hn1] at hg
          obtain rfl := Option.some_injective _ hg
          exact Reach.child q n2 x ih hn2 (by rw [hsoChildren hso]; exact hc)
  have hnoreachc : ¬ Reach O c := by
    intro h
    cases h with
    | root r hr => exact hrootc hr
    | child q nq c2 hq hg hc =>
      exact hfresh (q, nq) (mapLookup_mem q nq O.nodes hg) hc
  have hcLO : ¬ c ∈ LO := fun h => hnoreachc ((iterList_reach O fuel LO hLO c).mp h)
  have hreachp : Reach O p := (iterList_reach O fuel LO hLO p).mp hpmem
  have hreachNc : Reach N c :=
    Reach.child p pn2 c (hreachON p hreachp) hgp2
      (by rw [hpch2]; exact List.mem_append_right _ (List.mem_singleton.mpr rfl))
  have hcmemLN : c ∈ LN := (iterList_reach N fuel LN hLN c).mpr hreachNc
  -- reachable new ids are old ids or the appended leaf
  have hreachNO : ∀ y, Reach N y → Reach O y ∨ y = c := by
    intro y hy
    induction hy with
    | root r hr => exact Or.inl (Reach.root r (by rw [← hroot]; exact hr))
    | child q nq x hq hg hc ih =>
      rcases ih with ihO | rfl
      · by_cases hqp : q = p
        · subst hqp
          rw [hgp2] at hg
          obtain rfl := Option.some_injective _ hg
          rw [hpch2] at hc
          rcases List.mem_append.mp hc with hcl | hcr
          · exact Or.inl (Reach.child q pn x ihO hgp hcl)
          · exact Or.inr (List.mem_singleton.mp hcr)
        · have hqc : ¬ q = c := fun he => hnoreachc (he ▸ ihO)
          rcases hother q hqp hqc with ⟨hn1, hn2⟩ | ⟨n, n2, hn1, hn2, hso⟩
          · rw [hn2] at hg; cases hg
          · rw [hn2] at hg
            obtain rfl := Option.some_injective _ hg
            exact Or.inl (Reach.child q n x ihO hn1
              (by rw [← hsoChildren hso]; exact hc))
      · rw [hgc2] at hg
        obtain rfl := Option.some_injective _ hg
        rw [hcch2, hcleaf] at hc
        cases hc
  -- unfold the diff pipeline
  rw [compute_tree_diff] at hres
  obtain ⟨LN2, hLN2, hres2⟩ := Option.bind_eq_some.mp hres
  obtain ⟨d1, hbfs, hres3⟩ := Option.bind_eq_some.mp hres2
  obtain ⟨LO2, hLO2, hres4⟩ := Option.bind_eq_some.mp hres3
  obtain rfl := Option.some_injective _ hres4
  have hLN2L : LN2 = LN := by
    rw [hLN] at hLN2
    exact (Option.some_injective _ hLN2).symm
  have hLO2L : LO2 = LO := by
    rw [hLO] at hLO2
    exact (Option.some_injective _ hLO2).symm
  rw [hLN2L] at hbfs
  rw [hLN2L, hLO2L]
  obtain ⟨rt, hrt⟩ : ∃ rt, O.root = some rt := by
    cases hr : O.root with
    | some r => exact ⟨r, rfl⟩
    | none =>
      rw [domIterList, hr, dfsAux_nil] at hLO
      obtain rfl := Option.some_injective _ hLO.symm
      simp at hpmem
  -- the BFS emits exactly the Delete of the old parent
  have hd1 : d1.changes = [DiffChange.Delete (pm.getD p) im p] := by
    have hmissP : mapLookup (hash_node pn) (build_node_index N LN) = none := by
      cases hm : mapLookup (hash_node pn) (build_node_index N LN) with
      | none => rfl
      | some m =>
        obtain ⟨hmLN, nm, hgm, hh⟩ := build_node_index_sound N LN _ m hm
        exact absurd (by rw [hgm, Option.map_some', hh]) (hpmiss m hmLN)
    have hmain := bfs_single_emitter O N (build_node_index N LN)
      (build_children_index N LN) fuel p pn
      [DiffChange.Delete (pm.getD p) im p] pm im hgp
      ?_ ?_ ?_ fuel _ TreeDiff.new_ d1 ?_ ?_ hbfs
    · exact hmain
    · -- every other reachable node matches silently
      intro id n hre hne hg
      have hidc : ¬ id = c := by rintro rfl; rw [hg] at hgc; cases hgc
      rcases hother id hne hidc with ⟨hn1, _⟩ | ⟨n0, n2, hn1, hn2, hso⟩
      · rw [hn1] at hg; cases hg
      · have heq : n0 = n := by
          rw [hn1] at hg
          exact Option.some_injective _ hg
        rw [heq] at hso
        have hashEq : hash_node n2 = hash_node n := hash_node_siblingOnly n n2 hso
        have hmemid : id ∈ LN := (iterList_reach N fuel LN hLN id).mpr (hreachON id hre)
        have hsome := build_node_index_complete N LN id n2 hmemid hn2
        rw [hashEq] at hsome
        obtain ⟨m, hm⟩ := Option.isSome_iff_exists.mp hsome
        obtain ⟨hmLN, nm, hgm, hhashm⟩ := build_node_index_sound N LN _ m hm
        obtain rfl : m = id := hinj m id nm n2 hmLN hmemid hgm hn2
          (by rw [hhashm, hashEq])
        refine ⟨m, hm, ?_, ?_⟩
        · intro nm2 hm2
          rw [hn2] at hm2
          obtain rfl := Option.some_injective _ hm2
          exact compare_changes_eq_nil n n2 hso.2.2.2.2.1.symm hso.2.2.2.1.symm
        · have hid : n.id = m := hids (m, n) (mapLookup_mem m n O.nodes hg)
          apply reorder_moves_eq_nil
          rw [hid, ← hsoChildren hso]
          exact children_index_entry N LN m n2 hn2
    · exact Or.inl ⟨hmissP, rfl⟩
    · -- the parent's BFS metadata is pinned by its unique list position
      intro _ q nq j hrq hgq hcj
      have hqLO : q ∈ LO := reach_mem_iterList O fuel LO hLO q hrq
      have henum : (j, p) ∈ nq.children.enum := by
        rw [List.get?_eq_getElem?] at hcj
        exact List.mk_mem_enum_iff_getElem?.mpr hcj
      exact hmeta1 q hqLO (j, p) (by rw [hgq]; exact henum) rfl
    · -- initial queue invariant
      rw [hrt]
      intro e he
      rcases List.mem_singleton.mp he with rfl
      refine ⟨Reach.root rt hrt, ?_, ?_⟩
      · rw [show dfsAux O fuel [rt] = domIterList O fuel from by
          rw [domIterList, hrt], hLO]
        rfl
      · intro hrtp _
        dsimp only at hrtp ⊢
        obtain ⟨hpm, him⟩ := hmeta0 (by rw [hrt, hrtp])
        exact ⟨hpm.symm, him.symm⟩
    · -- the parent is counted exactly once from the root
      rw [hrt]
      simp only [List.map_cons, List.map_nil, List.sum_cons, List.sum_nil]
      have hrun : dfsAux O fuel [rt] = some LO := by
        rw [show dfsAux O fuel [rt] = domIterList O fuel from by
          rw [domIterList, hrt], hLO]
      rw [subCountAt, hrun]
      simp only [Option.map_some', Option.getD_some, Nat.add_zero]
      exact List.count_eq_one_of_mem hnd hpmem
  -- insertion detection emits exactly the Insert of the leaf
  have hflat : (LN.map (insertion_for LO N)).flatten =
      [DiffChange.Insert p pn.children.length c] := by
    have hcount : LN.count c = 1 := List.count_eq_one_of_mem hndN hcmemLN
    have hfc : insertion_for LO N c = [DiffChange.Insert p pn.children.length c] := by
      rw [insertion_for, if_neg hcLO, hgc2]
      dsimp only
      rw [hcpar]
      dsimp only
      rw [hgp2, Option.some_bind, hpch2,
        findIdx_append_fresh c pn.children 0 hfreshp]
      rw [Option.getD_some, Nat.zero_add]
    have hothers : ∀ j ∈ LN, ¬ j = c → insertion_for LO N j = [] := by
      intro j hj hjc
      rcases hreachNO j ((iterList_reach N fuel LN hLN j).mp hj) with hOr | rfl
      · exact insertion_for_mem LO N j (reach_mem_iterList O fuel LO hLO j hOr)
      · exact absurd rfl hjc
    exact (flatten_eq_of_count_one (insertion_for LO N) c LN hcount hothers).trans hfc
  rw [detect_insertions_changes, hd1, hflat]
  rfl

/-- Witness for C2: `simpleTree` with a fresh `p` element 4 appended under the
root; the computed diff is exactly the Delete of the old root followed by the
Insert of node 4 at child position 2. -/
theorem c2_append_leaf_witness :
    compute_tree_diff 10 simpleTree simpleTreePlus =
      some { changes := [DiffChange.Delete 1 0 1, DiffChange.Insert 1 2 4],
             inserts := [(4, 1, 2)], deletes := [(1, 1, 0)], moves := [] } ∧
    ({ changes := [DiffChange.Delete 1 0 1, DiffChange.Insert 1 2 4],
       inserts := [(4, 1, 2)], deletes := [(1, 1, 0)],
       moves := [] } : TreeDiff).changes =
      [DiffChange.Delete 1 0 1, DiffChange.Insert 1 2 4] :=
  ⟨by decide,
   c2_append_leaf simpleTree simpleTreePlus 1 4 (DomNode.new_element 4 [112])
     ⟨1, NodeType.Element, some [100, 105, 118], none, [], none, [2, 3], none, none⟩
     10 _ [1, 2, 3] [1, 2, 3, 4] none 0
     (by decide) (by decide) rfl rfl (by decide) (by decide) (by decide)
     (by decide) (by decide) (by decide) (by decide) (by decide) (by decide)
     (hash_inj_of_list_nodup simpleTreePlus [1, 2, 3, 4] (by decide) (by decide))
     (by decide) (fun _ => ⟨rfl, rfl⟩) (by decide) (by decide)⟩

/-! ## C5: termination of the diff on bounded-depth trees -/

/-- Every preorder weight is at least one. -/
theorem wt_pos (t : DomTree) : ∀ (d : Nat) (id : NodeId), 1 ≤ wt t d id := by
  intro d id
  cases d with
  | zero => exact Nat.le_refl 1
  | succ d =>
    cases hg : t.get_node id with
    | none => simp only [wt, hg]; omega
    | some n => simp only [wt, hg]; omega

/-- The root weight is at least one. -/
theorem rootWt_pos (t : DomTree) (d : Nat) : 1 ≤ rootWt t d := by
  cases hr : t.root with
  | none => rw [rootWt, hr]
  | some r => rw [rootWt, hr]; exact wt_pos t d r

/-- Depth bounds are monotone. -/
theorem bdep_mono (t : DomTree) : ∀ (d e : Nat) (id : NodeId), d ≤ e →
    bdep t d id = true → bdep t e id = true := by
  intro d
  induction d with
  | zero => intro e id _ h; rw [bdep] at h; cases h
  | succ d ih =>
    intro e id hde h
    obtain ⟨e0, rfl⟩ : ∃ e0, e = e0 + 1 := ⟨e - 1, by omega⟩
    cases hg : t.get_node id with
    | none => simp only [bdep, hg]
    | some n =>
      simp only [bdep, hg] at h ⊢
      rw [List.all_eq_true] at h ⊢
      intro x hx
      exact ih e0 x (by omega) (h x hx)

/-- Below its depth bound the weight of a node saturates. -/
theorem wt_stable (t : DomTree) : ∀ (d e : Nat) (id : NodeId), d ≤ e →
    bdep t d id = true → wt t e id = wt t d id := by
  intro d
  induction d with
  | zero => intro e id _ h; rw [bdep] at h; cases h
  | succ d ih =>
    intro e id hde h
    obtain ⟨e0, rfl⟩ : ∃ e0, e = e0 + 1 := ⟨e - 1, by omega⟩
    cases hg : t.get_node id with
    | none => simp only [wt, hg]
    | some n =>
      simp only [bdep, hg] at h
      rw [List.all_eq_true] at h
      simp only [wt, hg]
      congr 2
      exact List.map_congr_left (fun x hx => ih e0 x (by omega) (h x hx))

/-- The DFS finishes once the fuel covers the stack's total weight. -/
theorem dfsAux_terminates (t : DomTree) (D : Nat) :
    ∀ (fuel : Nat) (S : List NodeId),
      (∀ id ∈ S, bdep t D id = true) →
      (S.map (wt t D)).sum ≤ fuel →
      (dfsAux t fuel S).isSome = true := by
  intro fuel
  induction fuel with
  | zero =>
    intro S hb hs
    cases S with
    | nil => rfl
    | cons id rest =>
      rw [List.map_cons, List.sum_cons] at hs
      have := wt_pos t D id
      omega
  | succ fuel ih =>
    intro S hb hs
    cases S with
    | nil => rfl
    | cons id rest =>
      rw [List.map_cons, List.sum_cons] at hs
      have hw1 := wt_pos t D id
      cases hg : t.get_node id with
      | none =>
        have hrest : (dfsAux t fuel rest).isSome = true :=
          ih rest (fun j hj => hb j (List.mem_cons_of_mem _ hj)) (by omega)
        simp only [dfsAux, hg]
        rw [Option.isSome_map']
        exact hrest
      | some n =>
        have hbid := hb id (List.mem_cons_self _ _)
        obtain ⟨D0, rfl⟩ : ∃ D0, D = D0 + 1 := by
          cases D with
          | zero => rw [bdep] at hbid; cases hbid
          | succ D0 => exact ⟨D0, rfl⟩
        simp only [bdep, hg] at hbid
        rw [List.all_eq_true] at hbid
        have hch : ∀ x ∈ n.children, bdep t D0 x = true := fun x hx => hbid x hx
        have hchsum : (n.children.map (wt t (D0 + 1))).sum =
            (n.children.map (wt t D0)).sum := by
          congr 1
          exact List.map_congr_left (fun x hx => wt_stable t D0 (D0 + 1) x
            (Nat.le_succ _) (hch x hx))
        have hwid : wt t (D0 + 1) id = 1 + (n.children.map (wt t D0)).sum := by
          simp only [wt, hg]
        have hinner : (dfsAux t fuel (n.children ++ rest)).isSome = true := by
          refine ih (n.children ++ rest) ?_ ?_
          · intro j hj
            rcases List.mem_append.mp hj with hj | hj
            · exact bdep_mono t D0 (D0 + 1) j (Nat.le_succ _) (hch j hj)
            · exact hb j (List.mem_cons_of_mem _ hj)
          · rw [List.map_append, List.sum_append, hchsum]
            omega
        simp only [dfsAux, hg]
        rw [Option.isSome_map']
        exact hinner

/-- Summing a per-node weight over the BFS entries of a child list. -/
theorem entries_weight_sum (f : NodeId → Nat) (pidv : NodeId) (cs : List NodeId) :
    (((cs.enum.map (fun ci => ((ci.2 : NodeId), some pidv, ci.1))).map
      (fun e : BfsEntry => f e.1))).sum = (cs.map f).sum := by
  rw [List.map_map]
  show (cs.enum.map (fun ci => f ci.2)).sum = (cs.map f).sum
  rw [show (fun ci : Nat × NodeId => f ci.2) = f ∘ Prod.snd from rfl,
    ← List.map_map, List.enum_map_snd]

/-- The BFS accepts an empty queue at any fuel. -/
theorem bfs_diff_nil (old new : DomTree) (idx : List (NodeHash × NodeId))
    (cidx : List (NodeId × List NodeId)) (f : Nat) (dd : TreeDiff) :
    bfs_diff old new idx cidx f [] dd = some dd := by
  cases f with
  | zero => rfl
  | succ f => rfl

/-- The BFS finishes once the fuel covers the queue's total weight. -/
theorem bfs_terminates (old new : DomTree) (idx : List (NodeHash × NodeId))
    (cidx : List (NodeId × List NodeId)) (D : Nat) :
    ∀ (fuel : Nat) (queue : List BfsEntry) (dd : TreeDiff),
      (∀ e ∈ queue, bdep old D e.1 = true) →
      (queue.map (fun e => wt old D e.1)).sum ≤ fuel →
      (bfs_diff old new idx cidx fuel queue dd).isSome = true := by
  intro fuel
  induction fuel with
  | zero =>
    intro queue dd hb hs
    cases queue with
    | nil => rfl
    | cons e rest =>
      rw [List.map_cons, List.sum_cons] at hs
      have := wt_pos old D e.1
      omega
  | succ fuel ih =>
    intro queue dd hb hs
    cases queue with
    | nil => rfl
    | cons e rest =>
      obtain ⟨nid, pid, i⟩ := e
      rw [List.map_cons, List.sum_cons] at hs
      dsimp only at hs
      have hw1 := wt_pos old D nid
      cases hg : old.get_node nid with
      | none =>
        simp only [bfs_diff, hg]
        exact ih rest dd (fun e2 he2 => hb e2 (List.mem_cons_of_mem _ he2)) (by omega)
      | some n =>
        have hbid := hb _ (List.mem_cons_self _ _)
        dsimp only at hbid
        obtain ⟨D0, rfl⟩ : ∃ D0, D = D0 + 1 := by
          cases D with
          | zero => rw [bdep] at hbid; cases hbid
          | succ D0 => exact ⟨D0, rfl⟩
        simp only [bdep, hg] at hbid
        rw [List.all_eq_true] at hbid
        have hch : ∀ x ∈ n.children, bdep old D0 x = true := fun x hx => hbid x hx
        have hchsum : (n.children.map (wt old (D0 + 1))).sum =
            (n.children.map (wt old D0)).sum := by
          congr 1
          exact List.map_congr_left (fun x hx => wt_stable old D0 (D0 + 1) x
            (Nat.le_succ _) (hch x hx))
        have hwid : wt old (D0 + 1) nid = 1 + (n.children.map (wt old D0)).sum := by
          simp only [wt, hg]
        cases hm : mapLookup (hash_node n) idx with
        | some m =>
          simp only [bfs_diff, hg, hm]
          refine ih _ _ ?_ ?_
          · intro e2 he2
            rcases List.mem_append.mp he2 with h2 | h2
            · exact hb e2 (List.mem_cons_of_mem _ h2)
            · obtain ⟨hc, _, _⟩ := bfs_entry_mem nid n.children e2 h2
              exact bdep_mono old D0 (D0 + 1) e2.1 (Nat.le_succ _) (hch e2.1 hc)
          · rw [List.map_append, List.sum_append,
              entries_weight_sum (wt old (D0 + 1)) nid n.children, hchsum]
            omega
        | none =>
          simp only [bfs_diff, hg, hm]
          exact ih rest _ (fun e2 he2 => hb e2 (List.mem_cons_of_mem _ he2)) (by omega)

/-- C5 (amended): the diff terminates on every pair of trees whose
root-reachable child graphs have bounded depth — the fuel `diffFuel old new d`
lets every traversal finish; the cyclic-tree counterexample refutes the
claim's unconditional reading, under which every fuel is exhausted. -/
theorem c5_diff_terminates (old new : DomTree) (d : Nat)
    (hold : rootBdep old d = true) (hnew : rootBdep new d = true) :
    (compute_tree_diff (diffFuel old new d) old new).isSome = true := by
  have hwo := rootWt_pos old d
  have hwn := rootWt_pos new d
  have hnewIter : (domIterList new (diffFuel old new d)).isSome = true := by
    rw [domIterList]
    cases hr : new.root with
    | none => rw [dfsAux_nil]; rfl
    | some r =>
      show (dfsAux new (diffFuel old new d) [r]).isSome = true
      refine dfsAux_terminates new d _ [r] ?_ ?_
      · intro id hid
        rcases List.mem_singleton.mp hid with rfl
        rw [rootBdep, hr] at hnew
        exact hnew
      · rw [List.map_cons, List.map_nil, List.sum_cons, List.sum_nil]
        have hw : rootWt new d = wt new d r := by rw [rootWt, hr]
        rw [diffFuel]
        omega
  obtain ⟨LN, hLN⟩ := Option.isSome_iff_exists.mp hnewIter
  have hbfsT : (bfs_diff old new (build_node_index new LN)
      (build_children_index new LN) (diffFuel old new d)
      (match old.root with
       | some root => [((root : NodeId), (none : Option NodeId), 0)]
       | none => []) TreeDiff.new_).isSome = true := by
    cases hr : old.root with
    | none =>
      show (bfs_diff old new (build_node_index new LN) (build_children_index new LN)
        (diffFuel old new d) [] TreeDiff.new_).isSome = true
      rw [bfs_diff_nil]
      rfl
    | some r =>
      show (bfs_diff old new (build_node_index new LN) (build_children_index new LN)
        (diffFuel old new d) [(r, none, 0)] TreeDiff.new_).isSome = true
      refine bfs_terminates old new _ _ d _ _ TreeDiff.new_ ?_ ?_
      · intro e he
        rcases List.mem_singleton.mp he with rfl
        rw [rootBdep, hr] at hold
        exact hold
      · rw [List.map_cons, List.map_nil, List.sum_cons, List.sum_nil]
        dsimp only
        have hw : rootWt old d = wt old d r := by rw [rootWt, hr]
        rw [diffFuel]
        omega
  obtain ⟨d1, hd1⟩ := Option.isSome_iff_exists.mp hbfsT
  have holdIter : (domIterList old (diffFuel old new d)).isSome = true := by
    rw [domIterList]
    cases hr : old.root with
    | none => rw [dfsAux_nil]; rfl
    | some r =>
      show (dfsAux old (diffFuel old new d) [r]).isSome = true
      refine dfsAux_terminates old d _ [r] ?_ ?_
      · intro id hid
        rcases List.mem_singleton.mp hid with rfl
        rw [rootBdep, hr] at hold
        exact hold
      · rw [List.map_cons, List.map_nil, List.sum_cons, List.sum_nil]
        have hw : rootWt old d = wt old d r := by rw [rootWt, hr]
        rw [diffFuel]
        omega
  obtain ⟨LO, hLO⟩ := Option.isSome_iff_exists.mp holdIter
  rw [compute_tree_diff, hLN]
  simp only [Option.bind_eq_bind, Option.some_bind]
  rw [hd1]
  simp only [Option.some_bind]
  rw [hLO]
  simp only [Option.some_bind]
  rfl

/-- Witness for C5: the three-node test tree has depth bound 3 and the diff
of the tree against itself with the computed fuel succeeds. -/
theorem c5_diff_terminates_witness :
    rootBdep simpleTree 3 = true ∧
    (compute_tree_diff (diffFuel simpleTree simpleTree 3)
      simpleTree simpleTree).isSome = true :=
  ⟨by decide, c5_diff_terminates simpleTree simpleTree 3 (by decide) (by decide)⟩

/-! ## C9: the sibling-cache invariant under the structural mutators -/

/-- `mapUpdate` does not change the key sequence. -/
theorem update_node_keys (t : DomTree) (k : NodeId) (f : DomNode → DomNode) :
    (t.update_node k f).nodes.map Prod.fst = t.nodes.map Prod.fst := by
  show (mapUpdate k f t.nodes).map Prod.fst = t.nodes.map Prod.fst
  rw [mapUpdate, List.map_map]
  apply List.map_congr_left
  intro kv _
  by_cases hk : kv.1 = k
  · simp [Function.comp, hk]
  · simp [Function.comp, hk]

/-- An empty slot passes the per-position check. -/
theorem sibOkAt_none (t : DomTree) (children : List NodeId) (i : Nat)
    (h : children.get? i = none) : sibOkAt t children i = true := by
  rw [sibOkAt, h]

/-- A slot whose node carries the right pointers passes the check. -/
theorem sibOkAt_eval (t : DomTree) (children : List NodeId) (i : Nat)
    (x : NodeId) (xn : DomNode)
    (hx : children.get? i = some x) (hg : t.get_node x = some xn)
    (hprev : xn.prev_sibling = (if i = 0 then none else children.get? (i - 1)))
    (hnext : xn.next_sibling = children.get? (i + 1)) :
    sibOkAt t children i = true := by
  rw [sibOkAt, hx]
  dsimp only
  rw [hg]
  simp [hprev, hnext]

/-- A dangling slot passes the check. -/
theorem sibOkAt_dangling (t : DomTree) (children : List NodeId) (i : Nat)
    (x : NodeId) (hx : children.get? i = some x) (hg : t.get_node x = none) :
    sibOkAt t children i = true := by
  rw [sibOkAt, hx]
  dsimp only
  rw [hg]

/-- What a passing check says about the slot's stored node. -/
theorem sibOkAt_extract (t : DomTree) (children : List NodeId) (i : Nat)
    (x : NodeId) (xn : DomNode)
    (hx : children.get? i = some x) (hg : t.get_node x = some xn)
    (h : sibOkAt t children i = true) :
    xn.prev_sibling = (if i = 0 then none else children.get? (i - 1)) ∧
    xn.next_sibling = children.get? (i + 1) := by
  rw [sibOkAt, hx] at h
  dsimp only at h
  rw [hg] at h
  simpa using h

/-- The check only reads the slot node's sibling pointers. -/
theorem sibOkAt_congr2 (t1 t2 : DomTree) (children : List NodeId) (i : Nat)
    (h : ∀ x, children.get? i = some x →
      (t2.get_node x).map (fun n => (n.prev_sibling, n.next_sibling)) =
      (t1.get_node x).map (fun n => (n.prev_sibling, n.next_sibling))) :
    sibOkAt t2 children i = sibOkAt t1 children i := by
  rw [sibOkAt, sibOkAt]
  cases hx : children.get? i with
  | none => rfl
  | some x =>
    dsimp only
    have h2 := h x hx
    cases hg2 : t2.get_node x with
    | none =>
      cases hg1 : t1.get_node x with
      | none => rfl
      | some n1 => rw [hg2, hg1] at h2; cases h2
    | some n2 =>
      cases hg1 : t1.get_node x with
      | none => rw [hg2, hg1] at h2; cases h2
      | some n1 =>
        rw [hg2, hg1] at h2
        simp only [Option.map_some'] at h2
        obtain ⟨hp, hn⟩ := Prod.mk.injEq _ _ _ _ |>.mp (Option.some_injective _ h2)
        dsimp only
        rw [hp, hn]

/-- The invariant, read back through `get_node`. -/
theorem siblingAgree_get (t : DomTree) (h : siblingAgree t = true) :
    ∀ id n, t.get_node id = some n → ∀ i, sibOkAt t n.children i = true := by
  intro id n hg i
  by_cases hlt : i < n.children.length
  · rw [siblingAgree, List.all_eq_true] at h
    have h2 := h (id, n) (mapLookup_mem id n t.nodes hg)
    rw [List.all_eq_true] at h2
    exact h2 i (List.mem_range.mpr hlt)
  · refine sibOkAt_none t n.children i ?_
    rw [List.get?_eq_getElem?]
    exact List.getElem?_eq_none (by omega)

/-- The invariant, established through `get_node` (unique keys). -/
theorem siblingAgree_of_get (t : DomTree) (hnd : keysNodup t)
    (h : ∀ id n, t.get_node id = some n → ∀ i, sibOkAt t n.children i = true) :
    siblingAgree t = true := by
  rw [siblingAgree, List.all_eq_true]
  intro pr hpr
  obtain ⟨k, v⟩ := pr
  rw [List.all_eq_true]
  intro i _
  exact h k v (mapLookup_of_mem t.nodes hnd k v hpr) i

/-- A member of a list of naturals is at most the sum. -/
theorem mem_le_sum : ∀ (l : List Nat) (x : Nat), x ∈ l → x ≤ l.sum := by
  intro l
  induction l with
  | nil => intro x hx; cases hx
  | cons a rest ih =>
    intro x hx
    rw [List.sum_cons]
    rcases List.mem_cons.mp hx with rfl | hx
    · omega
    · have := ih x hx
      omega

/-- Two distinct positions holding `x` put the count at two. -/
theorem two_pos_count : ∀ (l : List NodeId) (i j : Nat) (x : NodeId), ¬ i = j →
    l.get? i = some x → l.get? j = some x → 2 ≤ l.count x := by
  intro l
  induction l with
  | nil => intro i j x _ hi _; cases i <;> cases hi
  | cons a rest ih =>
    intro i j x hij hi hj
    cases i with
    | zero =>
      cases j with
      | zero => exact absurd rfl hij
      | succ j2 =>
        have ha : a = x := Option.some_injective _ hi
        have hmem : x ∈ rest := List.get?_mem hj
        rw [ha, List.count_cons_self]
        have := List.one_le_count_iff.mpr hmem
        omega
    | succ i2 =>
      cases j with
      | zero =>
        have ha : a = x := Option.some_injective _ hj
        have hmem : x ∈ rest := List.get?_mem hi
        rw [ha, List.count_cons_self]
        have := List.one_le_count_iff.mpr hmem
        omega
      | succ j2 =>
        have h2 := ih i2 j2 x (fun h => hij (by rw [h])) hi hj
        have : rest.count x ≤ (a :: rest).count x := by
          rw [List.count_cons]
          split <;> omega
        omega

/-- What a successful `findIdx?` (arbitrary start index) yields. -/
theorem findIdx_get (c : NodeId) : ∀ (l : List NodeId) (i pos : Nat),
    List.findIdx? (fun id => id = c) l i = some pos →
    i ≤ pos ∧ l.get? (pos - i) = some c := by
  intro l
  induction l with
  | nil => intro i pos h; cases h
  | cons a rest ih =>
    intro i pos h
    rw [List.findIdx?_cons] at h
    by_cases hac : a = c
    · rw [if_pos (by simp [hac])] at h
      obtain rfl := Option.some_injective _ h
      refine ⟨Nat.le_refl i, ?_⟩
      rw [Nat.sub_self]
      show some a = some c
      rw [hac]
    · rw [if_neg (by simp [hac])] at h
      obtain ⟨hle, hget⟩ := ih (i + 1) pos h
      refine ⟨by omega, ?_⟩
      have heq : pos - i = (pos - (i + 1)) + 1 := by omega
      rw [heq]
      exact hget

/-- One stored child list's count bounds the global occurrence count. -/
theorem occ_single_le (t : DomTree) (x id : NodeId) (n : DomNode)
    (h : (id, n) ∈ t.nodes) : n.children.count x ≤ childOccCount t x := by
  rw [childOccCount]
  exact mem_le_sum _ _ (List.mem_map.mpr ⟨(id, n), h, rfl⟩)

/-- Two stored child lists under distinct keys bound the occurrence count
jointly. -/
theorem occ_pair_le (t : DomTree) (x id1 id2 : NodeId) (n1 n2 : DomNode)
    (hne : ¬ id1 = id2) (h1 : (id1, n1) ∈ t.nodes) (h2 : (id2, n2) ∈ t.nodes) :
    n1.children.count x + n2.children.count x ≤ childOccCount t x := by
  obtain ⟨l1, l2, hsplit⟩ := List.append_of_mem h1
  have h2b : (id2, n2) ∈ l1 ++ l2 := by
    rw [hsplit] at h2
    rcases List.mem_append.mp h2 with hh | hh
    · exact List.mem_append.mpr (Or.inl hh)
    · rcases List.mem_cons.mp hh with he | hh
      · injection he with e1 _
        exact absurd e1.symm hne
      · exact List.mem_append.mpr (Or.inr hh)
  rw [childOccCount, hsplit, List.map_append, List.map_cons, List.sum_append,
    List.sum_cons]
  rcases List.mem_append.mp h2b with hh | hh
  · have := mem_le_sum (l1.map fun pr => pr.2.children.count x) _
      (List.mem_map.mpr ⟨(id2, n2), hh, rfl⟩)
    dsimp only at this ⊢
    omega
  · have := mem_le_sum (l2.map fun pr => pr.2.children.count x) _
      (List.mem_map.mpr ⟨(id2, n2), hh, rfl⟩)
    dsimp only at this ⊢
    omega

/-- Unfolding `uniqueChildOcc`: every occupied id occupies at most one slot. -/
theorem uco_bound (t : DomTree) (hu : uniqueChildOcc t = true) :
    ∀ id n x, (id, n) ∈ t.nodes → x ∈ n.children → childOccCount t x ≤ 1 := by
  intro id n x hmem hx
  rw [uniqueChildOcc, List.all_eq_true] at hu
  have h2 := hu (id, n) hmem
  rw [List.all_eq_true] at h2
  simpa using h2 x hx

/-- One id in the child lists of two distinct stored nodes contradicts
occurrence uniqueness. -/
theorem occ_cross (t : DomTree) (hu : uniqueChildOcc t = true)
    (id1 id2 x : NodeId) (n1 n2 : DomNode) (hne : ¬ id1 = id2)
    (h1 : t.get_node id1 = some n1) (h2 : t.get_node id2 = some n2)
    (hx1 : x ∈ n1.children) (hx2 : x ∈ n2.children) : False := by
  have hm1 := mapLookup_mem id1 n1 t.nodes h1
  have hm2 := mapLookup_mem id2 n2 t.nodes h2
  have hpair := occ_pair_le t x id1 id2 n1 n2 hne hm1 hm2
  have hb := uco_bound t hu id1 n1 x hm1 hx1
  have c1 := List.one_le_count_iff.mpr hx1
  have c2 := List.one_le_count_iff.mpr hx2
  omega

/-- One id in two slots of one stored child list contradicts occurrence
uniqueness. -/
theorem occ_same (t : DomTree) (hu : uniqueChildOcc t = true)
    (id x : NodeId) (n : DomNode) (h : t.get_node id = some n) (i j : Nat)
    (hij : ¬ i = j) (hi : n.children.get? i = some x)
    (hj : n.children.get? j = some x) : False := by
  have hm := mapLookup_mem id n t.nodes h
  have h2 := two_pos_count n.children i j x hij hi hj
  have hs := occ_single_le t x id n hm
  have hb := uco_bound t hu id n x hm (List.get?_mem hi)
  omega

/-- An id occupying no slot is in no stored child list. -/
theorem occ_zero_not_mem (t : DomTree) (x : NodeId)
    (hocc : childOccCount t x = 0) (id : NodeId) (n : DomNode)
    (h : t.get_node id = some n) : ¬ x ∈ n.children := by
  intro hx
  have h1 := occ_single_le t x id n (mapLookup_mem id n t.nodes h)
  have h2 := List.one_le_count_iff.mpr hx
  omega

/-- Full structure of `append_child` on a stored parent with children and a
stored fresh child: result tree, chosen previous sibling, key preservation,
and every node's new value. -/
theorem append_child_get (t : DomTree) (p c : NodeId) (pn cnode : DomNode)
    (hgp : t.get_node p = some pn) (hgc : t.get_node c = some cnode)
    (hpc : ¬ p = c) (hfreshp : ¬ c ∈ pn.children)
    (hlen : pn.children.length > 0) :
    ∃ N prevId, t.append_child p c = (true, N) ∧
      pn.children.get? (pn.children.length - 1) = some prevId ∧
      N.nodes.map Prod.fst = t.nodes.map Prod.fst ∧
      N.get_node c = some { cnode with parent := some p, prev_sibling := some prevId, next_sibling := none } ∧
      (¬ prevId = p →
        N.get_node p = some { pn with children := pn.children ++ [c] } ∧
        N.get_node prevId = (t.get_node prevId).map
          (fun n => { n with next_sibling := some c })) ∧
      (prevId = p →
        N.get_node p = some { pn with children := pn.children ++ [c], next_sibling := some c }) ∧
      (∀ id, ¬ id = c → ¬ id = p → ¬ id = prevId →
        N.get_node id = t.get_node id) := by
  have hcp : ¬ c = p := fun h => hpc h.symm
  rw [DomTree.append_child, hgp, hgc]
  simp only [Option.isNone_some, Bool.false_eq_true, or_self, if_false]
  set t1 := t.update_node p (fun n => { n with children := n.children ++ [c] }) with ht1
  set t2 := t1.update_node c (fun n => { n with parent := some p }) with ht2
  have ht1p : t1.get_node p = some { pn with children := pn.children ++ [c] } := by
    rw [ht1, get_node_update_node_self, hgp]
    rfl
  have ht2p : t2.get_node p = some { pn with children := pn.children ++ [c] } := by
    rw [ht2, get_node_update_node_other t1 c p _ hpc, ht1p]
  have ht2c : t2.get_node c = some { cnode with parent := some p } := by
    rw [ht2, get_node_update_node_self, ht1, get_node_update_node_other t p c _ hcp, hgc]
    rfl
  have ht2other : ∀ id, ¬ id = p → ¬ id = c → t2.get_node id = t.get_node id := by
    intro id hp2 hc2
    rw [ht2, get_node_update_node_other t1 c id _ hc2, ht1,
      get_node_update_node_other t p id _ hp2]
  rw [ht2p]
  rw [if_pos hlen]
  dsimp only
  have hlt : pn.children.length - 1 < pn.children.length := by omega
  have hgetapp : (pn.children ++ [c]).get? (pn.children.length - 1) =
      pn.children.get? (pn.children.length - 1) := by
    rw [List.get?_eq_getElem?, List.get?_eq_getElem?, List.getElem?_append, if_pos hlt]
  rw [hgetapp]
  obtain ⟨prevId, hprev⟩ : ∃ prevId,
      pn.children.get? (pn.children.length - 1) = some prevId := by
    rw [List.get?_eq_getElem?]
    exact ⟨pn.children.get ⟨pn.children.length - 1, hlt⟩, List.getElem?_eq_getElem hlt⟩
  rw [hprev]
  dsimp only
  have hprevmem : prevId ∈ pn.children := by
    rw [List.get?_eq_getElem?] at hprev
    exact List.getElem?_mem hprev
  have hprevc : ¬ prevId = c := fun h => hfreshp (h ▸ hprevmem)
  have hcprev : ¬ c = prevId := fun h => hprevc h.symm
  refine ⟨_, prevId, rfl, rfl, ?_, ?_, ?_, ?_, ?_⟩
  · -- keys
    simp only [update_node_keys, ht2, ht1]
  · -- the child
    rw [get_node_update_node_self, get_node_update_node_self,
      get_node_update_node_other _ prevId c _ hcprev, ht2c]
    rfl
  · -- previous sibling distinct from the parent
    intro hpp
    have hppr : ¬ p = prevId := fun h => hpp h.symm
    constructor
    · rw [get_node_update_node_other _ c p _ hpc,
        get_node_update_node_other _ c p _ hpc,
        get_node_update_node_other _ prevId p _ hppr, ht2p]
    · rw [get_node_update_node_other _ c prevId _ hprevc,
        get_node_update_node_other _ c prevId _ hprevc,
        get_node_update_node_self, ht2,
        get_node_update_node_other t1 c prevId _ hprevc, ht1,
        get_node_update_node_other t p prevId _ hpp]
  · -- previous sibling is the parent itself
    intro hpp
    rw [get_node_update_node_other _ c p _ hpc,
      get_node_update_node_other _ c p _ hpc, ← hpp,
      get_node_update_node_self]
    rw [hpp, ht2p]
    rfl
  · -- untouched nodes
    intro id hic hip hiprev
    rw [get_node_update_node_other _ c id _ hic,
      get_node_update_node_other _ c id _ hic,
      get_node_update_node_other _ prevId id _ hiprev, ht2other id hip hic]

/-- Structure of `append_child` under a childless stored parent. -/
theorem append_child_get_nil (t : DomTree) (p c : NodeId) (pn cnode : DomNode)
    (hgp : t.get_node p = some pn) (hgc : t.get_node c = some cnode)
    (hpc : ¬ p = c) (hlen : pn.children.length = 0) :
    ∃ N, t.append_child p c = (true, N) ∧
      N.nodes.map Prod.fst = t.nodes.map Prod.fst ∧
      N.get_node c = some { cnode with parent := some p, next_sibling := none } ∧
      N.get_node p = some { pn with children := pn.children ++ [c] } ∧
      (∀ id, ¬ id = c → ¬ id = p → N.get_node id = t.get_node id) := by
  have hcp : ¬ c = p := fun h => hpc h.symm
  rw [DomTree.append_child, hgp, hgc]
  simp only [Option.isNone_some, Bool.false_eq_true, or_self, if_false]
  set t1 := t.update_node p (fun n => { n with children := n.children ++ [c] }) with ht1
  set t2 := t1.update_node c (fun n => { n with parent := some p }) with ht2
  have ht1p : t1.get_node p = some { pn with children := pn.children ++ [c] } := by
    rw [ht1, get_node_update_node_self, hgp]
    rfl
  have ht2p : t2.get_node p = some { pn with children := pn.children ++ [c] } := by
    rw [ht2, get_node_update_node_other t1 c p _ hpc, ht1p]
  have ht2c : t2.get_node c = some { cnode with parent := some p } := by
    rw [ht2, get_node_update_node_self, ht1, get_node_update_node_other t p c _ hcp, hgc]
    rfl
  have ht2other : ∀ id, ¬ id = p → ¬ id = c → t2.get_node id = t.get_node id := by
    intro id hp2 hc2
    rw [ht2, get_node_update_node_other t1 c id _ hc2, ht1,
      get_node_update_node_other t p id _ hp2]
  rw [ht2p]
  rw [if_neg (by omega)]
  refine ⟨_, rfl, ?_, ?_, ?_, ?_⟩
  · simp only [update_node_keys, ht2, ht1]
  · rw [get_node_update_node_self, ht2c]
    rfl
  · rw [get_node_update_node_other _ c p _ hpc, ht2p]
  · intro id hic hip
    rw [get_node_update_node_other _ c id _ hic, ht2other id hip hic]

/-- Slot transfer: a new-tree check at slot `i` follows from an old-tree check
at slot `j` when the three-entry window matches and the slot node's sibling
pointers are preserved. -/
theorem sibOkAt_transfer (t N : DomTree) (ls ls2 : List NodeId) (i j : Nat)
    (hsame : ls2.get? i = ls.get? j)
    (hprevE : (if i = 0 then none else ls2.get? (i - 1)) =
      (if j = 0 then none else ls.get? (j - 1)))
    (hnextE : ls2.get? (i + 1) = ls.get? (j + 1))
    (hptr : ∀ x, ls.get? j = some x →
      (N.get_node x).map (fun n => (n.prev_sibling, n.next_sibling)) =
      (t.get_node x).map (fun n => (n.prev_sibling, n.next_sibling)))
    (hok : sibOkAt t ls j = true) : sibOkAt N ls2 i = true := by
  cases hx : ls.get? j with
  | none => exact sibOkAt_none N ls2 i (by rw [hsame, hx])
  | some x =>
    have hx2 : ls2.get? i = some x := by rw [hsame, hx]
    have hptr2 := hptr x hx
    cases hgx : t.get_node x with
    | none =>
      rw [hgx] at hptr2
      simp only [Option.map_none'] at hptr2
      exact sibOkAt_dangling N ls2 i x hx2 (Option.map_eq_none'.mp hptr2)
    | some xn =>
      rw [hgx] at hptr2
      simp only [Option.map_some'] at hptr2
      obtain ⟨xn2, hgx2, hpair⟩ := Option.map_eq_some'.mp hptr2
      obtain ⟨hp1, hn1⟩ := Prod.mk.injEq _ _ _ _ |>.mp hpair
      obtain ⟨hpo, hno⟩ := sibOkAt_extract t ls j x xn hx hgx hok
      refine sibOkAt_eval N ls2 i x xn2 hx2 hgx2 ?_ ?_
      · rw [hp1, hpo, hprevE]
      · rw [hn1, hno, hnextE]

/-- `append_child` preserves the sibling-cache invariant when the appended
child occupies no child slot and has a cleared `prev_sibling`. -/
theorem append_child_preserves_siblings (t : DomTree) (p c : NodeId)
    (hnd : keysNodup t) (hu : uniqueChildOcc t = true)
    (hsib : siblingAgree t = true) (hpc : ¬ p = c)
    (hocc : childOccCount t c = 0)
    (hdet1 : (t.get_node c).bind DomNode.prev_sibling = none) :
    siblingAgree (t.append_child p c).2 = true := by
  cases hgp : t.get_node p with
  | none =>
    rw [DomTree.append_child, hgp,
      if_pos (show (none : Option DomNode).isNone = true ∨
        (t.get_node c).isNone = true from Or.inl rfl)]
    exact hsib
  | some pn =>
    cases hgc : t.get_node c with
    | none =>
      rw [DomTree.append_child, hgp, hgc,
        if_pos (show (some pn).isNone = true ∨
          (none : Option DomNode).isNone = true from Or.inr rfl)]
      exact hsib
    | some cnode =>
      rw [hgc] at hdet1
      have hcprev : cnode.prev_sibling = none := hdet1
      have hold := siblingAgree_get t hsib
      have hnomem : ∀ id n, t.get_node id = some n → ¬ c ∈ n.children :=
        fun id n h => occ_zero_not_mem t c hocc id n h
      have hfreshp : ¬ c ∈ pn.children := hnomem p pn hgp
      have hcp : ¬ c = p := fun h => hpc h.symm
      by_cases hlen : pn.children.length > 0
      · -- the parent already has children
        obtain ⟨N, prevId, happ, hprev, hkeys, hNc, hNp1, hNp2, hNo⟩ :=
          append_child_get t p c pn cnode hgp hgc hpc hfreshp hlen
        rw [happ]
        show siblingAgree N = true
        have hndN : keysNodup N := by rw [keysNodup, hkeys]; exact hnd
        have hprevmem : prevId ∈ pn.children := List.get?_mem hprev
        have hprevc : ¬ prevId = c := fun h => hfreshp (h ▸ hprevmem)
        have hptr : ∀ x, ¬ x = c → ¬ x = prevId →
            (N.get_node x).map (fun n => (n.prev_sibling, n.next_sibling)) =
            (t.get_node x).map (fun n => (n.prev_sibling, n.next_sibling)) := by
          intro x hxc hxprev
          by_cases hxp : x = p
          · rw [hxp, (hNp1 (fun h => hxprev (hxp.trans h.symm))).1, hgp]
            rfl
          · rw [hNo x hxc hxp hxprev]
        have hprevptr : (N.get_node prevId).map
            (fun n => (n.prev_sibling, n.next_sibling)) =
            (t.get_node prevId).map (fun n => (n.prev_sibling, some c)) := by
          by_cases hpp : prevId = p
          · rw [hpp, hNp2 hpp, hgp]
            rfl
          · rw [(hNp1 hpp).2]
            cases t.get_node prevId with
            | none => rfl
            | some n0 => rfl
        refine siblingAgree_of_get N hndN ?_
        intro id n hgid i
        by_cases hidc : id = c
        · -- the appended leaf's own (unchanged) child list
          rw [hidc, hNc] at hgid
          obtain rfl := Option.some_injective _ hgid
          show sibOkAt N cnode.children i = true
          refine sibOkAt_transfer t N cnode.children cnode.children i i rfl rfl rfl
            ?_ (hold c cnode hgc i)
          intro x hxi
          have hxc : ¬ x = c := fun he => hnomem c cnode hgc (he ▸ List.get?_mem hxi)
          have hxprev : ¬ x = prevId := by
            intro he
            exact occ_cross t hu c p x cnode pn hcp hgc hgp
              (List.get?_mem hxi) (he ▸ hprevmem)
          exact hptr x hxc hxprev
        · by_cases hidp : id = p
          · -- the parent's extended child list
            rw [hidp] at hgid
            have hch : n.children = pn.children ++ [c] := by
              by_cases hpp : prevId = p
              · rw [hNp2 hpp] at hgid
                obtain rfl := Option.some_injective _ hgid
                rfl
              · rw [(hNp1 hpp).1] at hgid
                obtain rfl := Option.some_injective _ hgid
                rfl
            rw [show sibOkAt N n.children i = sibOkAt N (pn.children ++ [c]) i from
              by rw [hch]]
            have happlt : ∀ k, k < pn.children.length →
                (pn.children ++ [c]).get? k = pn.children.get? k := by
              intro k hk
              rw [List.get?_eq_getElem?, List.get?_eq_getElem?,
                List.getElem?_append, if_pos hk]
            have happlen : (pn.children ++ [c]).get? pn.children.length = some c := by
              rw [List.get?_eq_getElem?, List.getElem?_append, if_neg (by omega)]
              rw [Nat.sub_self]
              rfl
            by_cases hiL : i < pn.children.length
            · obtain ⟨x, hx⟩ : ∃ x, pn.children.get? i = some x := by
                rw [List.get?_eq_getElem?]
                exact ⟨pn.children.get ⟨i, hiL⟩, List.getElem?_eq_getElem hiL⟩
              by_cases hi1 : i + 1 < pn.children.length
              · -- interior slot: full transfer
                refine sibOkAt_transfer t N pn.children (pn.children ++ [c]) i i
                  (happlt i hiL) ?_ (happlt (i + 1) hi1) ?_ (hold p pn hgp i)
                · by_cases hi0 : i = 0
                  · rw [if_pos hi0, if_pos hi0]
                  · rw [if_neg hi0, if_neg hi0, happlt (i - 1) (by omega)]
                · intro x2 hx2
                  obtain rfl : x = x2 := by
                    rw [hx] at hx2
                    exact Option.some_injective _ hx2
                  have hxc : ¬ x = c := fun he => hfreshp (he ▸ List.get?_mem hx)
                  have hxprev : ¬ x = prevId := by
                    intro he
                    refine occ_same t hu p x pn hgp i (pn.children.length - 1)
                      (by omega) hx ?_
                    rw [← he] at hprev
                    exact hprev
                  exact hptr x hxc hxprev
              · -- last original slot: its node is the chosen previous sibling
                have hiL1 : i = pn.children.length - 1 := by omega
                have hxprev : x = prevId := by
                  have hx3 : pn.children.get? (pn.children.length - 1) = some x := by
                    rw [← hiL1]
                    exact hx
                  rw [hx3] at hprev
                  exact Option.some_injective _ hprev
                have hx2 : (pn.children ++ [c]).get? i = some prevId := by
                  rw [happlt i hiL, hx, hxprev]
                cases hgx : t.get_node prevId with
                | none =>
                  rw [hgx] at hprevptr
                  simp only [Option.map_none'] at hprevptr
                  exact sibOkAt_dangling N _ i prevId hx2
                    (Option.map_eq_none'.mp hprevptr)
                | some xn =>
                  rw [hgx] at hprevptr
                  simp only [Option.map_some'] at hprevptr
                  obtain ⟨xn2, hgx2, hpair⟩ := Option.map_eq_some'.mp hprevptr
                  obtain ⟨hp1, hn1⟩ := Prod.mk.injEq _ _ _ _ |>.mp hpair
                  obtain ⟨hpo, _⟩ := sibOkAt_extract t pn.children i prevId xn
                    (by rw [← hxprev]; exact hx) hgx (hold p pn hgp i)
                  refine sibOkAt_eval N (pn.children ++ [c]) i prevId xn2 hx2 hgx2
                    ?_ ?_
                  · rw [hp1, hpo]
                    by_cases hi0 : i = 0
                    · rw [if_pos hi0, if_pos hi0]
                    · rw [if_neg hi0, if_neg hi0, happlt (i - 1) (by omega)]
                  · rw [hn1, show i + 1 = pn.children.length from by omega, happlen]
            · by_cases hiL2 : i = pn.children.length
              · -- the appended slot holds the new leaf
                refine sibOkAt_eval N (pn.children ++ [c]) i c
                  { cnode with parent := some p, prev_sibling := some prevId, next_sibling := none }
                  (by rw [hiL2, happlen]) hNc ?_ ?_
                · show some prevId = _
                  rw [if_neg (by omega), hiL2,
                    happlt (pn.children.length - 1) (by omega), hprev]
                · show (none : Option NodeId) = _
                  rw [List.get?_eq_getElem?,
                    List.getElem?_eq_none (by simp; omega)]
              · refine sibOkAt_none N _ i ?_
                rw [List.get?_eq_getElem?]
                exact List.getElem?_eq_none (by simp; omega)
          · by_cases hidprev : id = prevId
            · -- its own pointer moved, its child list did not
              have hpp : ¬ prevId = p := fun h => hidp (hidprev.trans h)
              have h2 := (hNp1 hpp).2
              rw [hidprev, h2] at hgid
              obtain ⟨n0, hgn0, hfn⟩ := Option.map_eq_some'.mp hgid
              have hch : n.children = n0.children := by rw [← hfn]
              rw [show sibOkAt N n.children i = sibOkAt N n0.children i from
                by rw [hch]]
              refine sibOkAt_transfer t N n0.children n0.children i i rfl rfl rfl
                ?_ (hold prevId n0 hgn0 i)
              intro x hxi
              refine hptr x ?_ ?_
              · exact fun he => hnomem prevId n0 hgn0 (he ▸ List.get?_mem hxi)
              · exact fun he => occ_cross t hu prevId p x n0 pn hpp hgn0 hgp
                  (List.get?_mem hxi) (he ▸ hprevmem)
            · rw [hNo id hidc hidp hidprev] at hgid
              exact sibOkAt_transfer t N n.children n.children i i rfl rfl rfl
                (fun x hxi => hptr x
                  (fun he => hnomem id n hgid (he ▸ List.get?_mem hxi))
                  (fun he => occ_cross t hu id p x n pn hidp hgid hgp
                    (List.get?_mem hxi) (he ▸ hprevmem)))
                (hold id n hgid i)
      · -- childless parent
        have hlen0 : pn.children.length = 0 := by omega
        obtain ⟨N, happ, hkeys, hNc, hNp, hNo⟩ :=
          append_child_get_nil t p c pn cnode hgp hgc hpc hlen0
        rw [happ]
        show siblingAgree N = true
        have hndN : keysNodup N := by rw [keysNodup, hkeys]; exact hnd
        have hptr : ∀ x, ¬ x = c →
            (N.get_node x).map (fun n => (n.prev_sibling, n.next_sibling)) =
            (t.get_node x).map (fun n => (n.prev_sibling, n.next_sibling)) := by
          intro x hxc
          by_cases hxp : x = p
          · rw [hxp, hNp, hgp]
            rfl
          · rw [hNo x hxc hxp]
        refine siblingAgree_of_get N hndN ?_
        intro id n hgid i
        by_cases hidc : id = c
        · rw [hidc, hNc] at hgid
          obtain rfl := Option.some_injective _ hgid
          show sibOkAt N cnode.children i = true
          refine sibOkAt_transfer t N cnode.children cnode.children i i rfl rfl rfl
            ?_ (hold c cnode hgc i)
          intro x hxi
          exact hptr x (fun he => hnomem c cnode hgc (he ▸ List.get?_mem hxi))
        · by_cases hidp : id = p
          · rw [hidp, hNp] at hgid
            obtain rfl := Option.some_injective _ hgid
            show sibOkAt N (pn.children ++ [c]) i = true
            have hnil : pn.children = [] := List.length_eq_zero.mp hlen0
            rw [hnil, List.nil_append]
            cases i with
            | zero =>
              exact sibOkAt_eval N [c] 0 c
                { cnode with parent := some p, next_sibling := none } rfl hNc
                hcprev rfl
            | succ i2 =>
              exact sibOkAt_none N [c] (i2 + 1) rfl
          · rw [hNo id hidc hidp] at hgid
            exact sibOkAt_transfer t N n.children n.children i i rfl rfl rfl
              (fun x hxi => hptr x
                (fun he => hnomem id n hgid (he ▸ List.get?_mem hxi)))
              (hold id n hgid i)

/-- Reading through an optional in-place update. -/
theorem get_node_opt_update (t : DomTree) (o : Option NodeId)
    (f : DomNode → DomNode) (id : NodeId) :
    (match o with
     | some x => t.update_node x f
     | none => t).get_node id =
    if o = some id then (t.get_node id).map f else t.get_node id := by
  cases o with
  | none => rw [if_neg (by simp)]
  | some x =>
    by_cases hx : x = id
    · rw [hx]
      rw [if_pos rfl]
      exact get_node_update_node_self t id f
    · rw [if_neg (by simp [hx])]
      exact get_node_update_node_other t x id f (fun h => hx h.symm)

/-- An optional in-place update does not change the key sequence. -/
theorem opt_update_keys (t : DomTree) (o : Option NodeId) (f : DomNode → DomNode) :
    (match o with
     | some x => t.update_node x f
     | none => t).nodes.map Prod.fst = t.nodes.map Prod.fst := by
  cases o with
  | none => rfl
  | some x => exact update_node_keys t x f

/-- `remove_child` preserves the sibling-cache invariant (unique keys, unique
child occurrences, parent distinct from child); failed removals leave the tree
untouched. -/
theorem remove_child_preserves_siblings (t : DomTree) (p c : NodeId)
    (hnd : keysNodup t) (hu : uniqueChildOcc t = true)
    (hsib : siblingAgree t = true) (hpc : ¬ p = c) :
    siblingAgree (t.remove_child p c).2 = true := by
  cases hgp : t.get_node p with
  | none =>
    rw [DomTree.remove_child, hgp,
      if_pos (show (none : Option DomNode).isNone = true ∨
        (t.get_node c).isNone = true from Or.inl rfl)]
    exact hsib
  | some pn =>
    cases hgc : t.get_node c with
    | none =>
      rw [DomTree.remove_child, hgp, hgc,
        if_pos (show (some pn).isNone = true ∨
          (none : Option DomNode).isNone = true from Or.inr rfl)]
      exact hsib
    | some cnode =>
      cases hfind : pn.children.findIdx? (fun id => id = c) with
      | none =>
        rw [DomTree.remove_child, hgp, hgc]
        simp only [Option.isNone_some, Bool.false_eq_true, or_self, if_false]
        rw [hfind]
        exact hsib
      | some pos =>
        rw [DomTree.remove_child, hgp, hgc]
        simp only [Option.isNone_some, Bool.false_eq_true, or_self, if_false]
        rw [hfind]
        dsimp only
        set prO := (if pos > 0 then pn.children.get? (pos - 1) else none) with hprOdef
        set nxO := (if pos + 1 < pn.children.length then pn.children.get? (pos + 1)
          else none) with hnxOdef
        set T1 := t.update_node p
          (fun n => { n with children := n.children.eraseIdx pos }) with hT1
        set T2 := (match prO with
          | some pr => T1.update_node pr (fun n => { n with next_sibling := nxO })
          | none => T1) with hT2
        set T3 := (match nxO with
          | some nx => T2.update_node nx (fun n => { n with prev_sibling := prO })
          | none => T2) with hT3
        set T4 := T3.update_node c
          (fun n => { n with parent := none, prev_sibling := none, next_sibling := none }) with hT4
        show siblingAgree T4 = true
        have hcp : ¬ c = p := fun h => hpc h.symm
        have hold := siblingAgree_get t hsib
        -- position facts
        have hposc : pn.children.get? pos = some c := by
          have h := findIdx_get c pn.children 0 pos hfind
          rw [Nat.sub_zero] at h
          exact h.2
        have hcmem : c ∈ pn.children := List.get?_mem hposc
        have hposlt : pos < pn.children.length := by
          by_contra h
          rw [List.get?_eq_getElem?, List.getElem?_eq_none (by omega)] at hposc
          cases hposc
        have hcuniq : ∀ j, pn.children.get? j = some c → j = pos := by
          intro j hj
          by_contra h
          exact occ_same t hu p c pn hgp j pos h hj hposc
        have hnxOeq : nxO = pn.children.get? (pos + 1) := by
          rw [hnxOdef]
          by_cases h : pos + 1 < pn.children.length
          · rw [if_pos h]
          · rw [if_neg h, List.get?_eq_getElem?,
              List.getElem?_eq_none (by omega)]
        have hprO_pos : pos > 0 → prO = pn.children.get? (pos - 1) := by
          intro h
          rw [hprOdef, if_pos h]
        have hprO_zero : pos = 0 → prO = none := by
          intro h
          rw [hprOdef, if_neg (by omega)]
        have hprmem : ∀ x, prO = some x → pn.children.get? (pos - 1) = some x ∧ pos > 0 := by
          intro x hx
          by_cases h : pos > 0
          · rw [hprO_pos h] at hx
            exact ⟨hx, h⟩
          · rw [hprO_zero (by omega)] at hx
            cases hx
        have hnxmem : ∀ x, nxO = some x → pn.children.get? (pos + 1) = some x := by
          intro x hx
          rw [hnxOeq] at hx
          exact hx
        have hprc : ¬ prO = some c := by
          intro h
          obtain ⟨hg2, hp2⟩ := hprmem c h
          have := hcuniq (pos - 1) hg2
          omega
        have hnxc : ¬ nxO = some c := by
          intro h
          have := hcuniq (pos + 1) (hnxmem c h)
          omega
        have hprnx : ∀ x, prO = some x → ¬ nxO = some x := by
          intro x hpr hnx
          obtain ⟨hg2, hp2⟩ := hprmem x hpr
          exact occ_same t hu p x pn hgp (pos - 1) (pos + 1) (by omega) hg2
            (hnxmem x hnx)
        -- get characterizations
        have hg4 : ∀ id, ¬ id = c → T4.get_node id = T3.get_node id := by
          intro id h
          rw [hT4, get_node_update_node_other _ c id _ h]
        have hg4c : T4.get_node c = (T3.get_node c).map
            (fun n => { n with parent := none, prev_sibling := none, next_sibling := none }) := by
          rw [hT4, get_node_update_node_self]
        have hg3 : ∀ id, T3.get_node id =
            if nxO = some id then (T2.get_node id).map
              (fun n => { n with prev_sibling := prO })
            else T2.get_node id := by
          intro id
          rw [hT3]
          exact get_node_opt_update T2 nxO _ id
        have hg2 : ∀ id, T2.get_node id =
            if prO = some id then (T1.get_node id).map
              (fun n => { n with next_sibling := nxO })
            else T1.get_node id := by
          intro id
          rw [hT2]
          exact get_node_opt_update T1 prO _ id
        have hg1 : ∀ id, T1.get_node id =
            if id = p then (t.get_node id).map
              (fun n => { n with children := n.children.eraseIdx pos })
            else t.get_node id := by
          intro id
          by_cases h : id = p
          · rw [if_pos h, h, hT1, get_node_update_node_self]
          · rw [if_neg h, hT1, get_node_update_node_other t p id _ h]
        have hkeys : T4.nodes.map Prod.fst = t.nodes.map Prod.fst := by
          rw [hT4, update_node_keys, hT3, opt_update_keys, hT2, opt_update_keys,
            hT1, update_node_keys]
        have hndN : keysNodup T4 := by
          rw [keysNodup, hkeys]
          exact hnd
        have hNc : T4.get_node c = some { cnode with parent := none, prev_sibling := none, next_sibling := none } := by
          rw [hg4c, hg3 c, if_neg hnxc, hg2 c, if_neg hprc, hg1 c,
            if_neg hcp, hgc]
          rfl
        have hptr : ∀ x, ¬ x = c → ¬ prO = some x → ¬ nxO = some x →
            (T4.get_node x).map (fun n => (n.prev_sibling, n.next_sibling)) =
            (t.get_node x).map (fun n => (n.prev_sibling, n.next_sibling)) := by
          intro x hxc hxpr hxnx
          rw [hg4 x hxc, hg3 x, if_neg hxnx, hg2 x, if_neg hxpr, hg1 x]
          by_cases hxp : x = p
          · rw [if_pos hxp, hxp, hgp]
            rfl
          · rw [if_neg hxp]
        have hNchMap : ∀ id, ¬ id = c → (T4.get_node id).map DomNode.children =
            (t.get_node id).map
              (fun n => if id = p then n.children.eraseIdx pos else n.children) := by
          intro id hic
          rw [hg4 id hic, hg3 id, hg2 id, hg1 id]
          split_ifs <;> cases t.get_node id <;> rfl
        have hNch : ∀ id n2, ¬ id = c → T4.get_node id = some n2 →
            ∃ n0, t.get_node id = some n0 ∧
              n2.children = (if id = p then n0.children.eraseIdx pos
                else n0.children) := by
          intro id n2 hic hg
          have h := hNchMap id hic
          rw [hg] at h
          cases hgt : t.get_node id with
          | none =>
            rw [hgt] at h
            cases h
          | some n0 =>
            rw [hgt] at h
            simp only [Option.map_some'] at h
            exact ⟨n0, rfl, Option.some_injective _ h⟩
        have hprptr : ∀ prN, prO = some prN → ¬ prN = c → ¬ nxO = some prN →
            (T4.get_node prN).map (fun n => (n.prev_sibling, n.next_sibling)) =
            (t.get_node prN).map (fun n => (n.prev_sibling, nxO)) := by
          intro prN hpr hprc2 hnx2
          rw [hg4 prN hprc2, hg3 prN, if_neg hnx2, hg2 prN, if_pos hpr, hg1 prN]
          by_cases hxp : prN = p
          · rw [if_pos hxp, hxp, hgp]
            rfl
          · rw [if_neg hxp]
            cases t.get_node prN <;> rfl
        have hnxptr : ∀ nxN, nxO = some nxN → ¬ nxN = c → ¬ prO = some nxN →
            (T4.get_node nxN).map (fun n => (n.prev_sibling, n.next_sibling)) =
            (t.get_node nxN).map (fun n => (prO, n.next_sibling)) := by
          intro nxN hnx hnxc2 hpr2
          rw [hg4 nxN hnxc2, hg3 nxN, if_pos hnx, hg2 nxN, if_neg hpr2, hg1 nxN]
          by_cases hxp : nxN = p
          · rw [if_pos hxp, hxp, hgp]
            rfl
          · rw [if_neg hxp]
            cases t.get_node nxN <;> rfl
        -- the invariant for the new tree
        refine siblingAgree_of_get T4 hndN ?_
        intro id n hgid i
        by_cases hidc : id = c
        · -- the removed child's own (unchanged) child list
          rw [hidc, hNc] at hgid
          obtain rfl := Option.some_injective _ hgid
          show sibOkAt T4 cnode.children i = true
          refine sibOkAt_transfer t T4 cnode.children cnode.children i i rfl rfl rfl
            ?_ (hold c cnode hgc i)
          intro x hxi
          have hxmem : x ∈ cnode.children := List.get?_mem hxi
          refine hptr x ?_ ?_ ?_
          · exact fun he => occ_cross t hu c p x cnode pn hcp hgc hgp hxmem
              (he ▸ hcmem)
          · exact fun he => occ_cross t hu c p x cnode pn hcp hgc hgp hxmem
              (List.get?_mem (hprmem x he).1)
          · exact fun he => occ_cross t hu c p x cnode pn hcp hgc hgp hxmem
              (List.get?_mem (hnxmem x he))
        · by_cases hidp : id = p
          · -- the parent's contracted child list
            rw [hidp] at hgid
            obtain ⟨n0, hgt0, hch⟩ := hNch p n hpc hgid
            rw [hgp] at hgt0
            obtain rfl := Option.some_injective _ hgt0
            rw [if_pos rfl] at hch
            rw [show sibOkAt T4 n.children i = sibOkAt T4 (pn.children.eraseIdx pos) i
              from by rw [hch]]
            have herase : ∀ j, (pn.children.eraseIdx pos).get? j =
                if j < pos then pn.children.get? j else pn.children.get? (j + 1) := by
              intro j
              rw [List.get?_eq_getElem?, List.getElem?_eraseIdx]
              by_cases hj : j < pos
              · rw [if_pos hj, if_pos hj, ← List.get?_eq_getElem?]
              · rw [if_neg hj, if_neg hj, ← List.get?_eq_getElem?]
            by_cases hcase1 : i + 1 < pos
            · -- well left of the removed slot
              refine sibOkAt_transfer t T4 pn.children (pn.children.eraseIdx pos) i i
                (by rw [herase i, if_pos (by omega)]) ?_
                (by rw [herase (i+1), if_pos hcase1]) ?_ (hold p pn hgp i)
              · by_cases hi0 : i = 0
                · rw [if_pos hi0, if_pos hi0]
                · rw [if_neg hi0, if_neg hi0, herase (i-1), if_pos (by omega)]
              · intro x hx
                refine hptr x ?_ ?_ ?_
                · exact fun he => by
                    have := hcuniq i (he ▸ hx)
                    omega
                · exact fun he => occ_same t hu p x pn hgp i (pos - 1) (by omega) hx
                    (hprmem x he).1
                · exact fun he => occ_same t hu p x pn hgp i (pos + 1) (by omega) hx
                    (hnxmem x he)
            · by_cases hcase2 : i + 1 = pos
              · -- the slot just left of the removal: the relinked previous node
                have hpos0 : pos > 0 := by omega
                obtain ⟨x, hx⟩ : ∃ x, pn.children.get? i = some x := by
                  rw [List.get?_eq_getElem?]
                  exact ⟨pn.children.get ⟨i, by omega⟩, List.getElem?_eq_getElem (by omega)⟩
                have hprx : prO = some x := by
                  rw [hprO_pos hpos0, show pos - 1 = i from by omega]
                  exact hx
                have hxc : ¬ x = c := fun he => by
                  have := hcuniq i (he ▸ hx)
                  omega
                have hxnx : ¬ nxO = some x := fun he => hprnx x hprx he
                have hslot : (pn.children.eraseIdx pos).get? i = some x := by
                  rw [herase i, if_pos (by omega)]
                  exact hx
                have hp2 := hprptr x hprx hxc hxnx
                cases hgx : t.get_node x with
                | none =>
                  rw [hgx] at hp2
                  simp only [Option.map_none'] at hp2
                  exact sibOkAt_dangling T4 _ i x hslot (Option.map_eq_none'.mp hp2)
                | some xn =>
                  rw [hgx] at hp2
                  simp only [Option.map_some'] at hp2
                  obtain ⟨xn2, hgx2, hpair⟩ := Option.map_eq_some'.mp hp2
                  obtain ⟨hp1, hn1⟩ := Prod.mk.injEq _ _ _ _ |>.mp hpair
                  obtain ⟨hpo, _⟩ := sibOkAt_extract t pn.children i x xn hx hgx
                    (hold p pn hgp i)
                  refine sibOkAt_eval T4 (pn.children.eraseIdx pos) i x xn2 hslot
                    hgx2 ?_ ?_
                  · rw [hp1, hpo]
                    by_cases hi0 : i = 0
                    · rw [if_pos hi0, if_pos hi0]
                    · rw [if_neg hi0, if_neg hi0, herase (i-1), if_pos (by omega)]
                  · rw [hn1, herase (i+1), if_neg (by omega), hcase2, hnxOeq]
              · by_cases hcase3 : i = pos
                · -- the removed slot now holds the relinked next node
                  cases hnxv : pn.children.get? (pos + 1) with
                  | none =>
                    refine sibOkAt_none T4 _ i ?_
                    rw [herase i, if_neg (by omega), hcase3]
                    exact hnxv
                  | some nxN =>
                    have hnxN : nxO = some nxN := by rw [hnxOeq, hnxv]
                    have hnxNc : ¬ nxN = c := fun he => by
                      have := hcuniq (pos + 1) (he ▸ hnxv)
                      omega
                    have hnxNpr : ¬ prO = some nxN := fun he => hprnx nxN he hnxN
                    have hslot : (pn.children.eraseIdx pos).get? i = some nxN := by
                      rw [herase i, if_neg (by omega), hcase3]
                      exact hnxv
                    have hp2 := hnxptr nxN hnxN hnxNc hnxNpr
                    cases hgx : t.get_node nxN with
                    | none =>
                      rw [hgx] at hp2
                      simp only [Option.map_none'] at hp2
                      exact sibOkAt_dangling T4 _ i nxN hslot
                        (Option.map_eq_none'.mp hp2)
                    | some xn =>
                      rw [hgx] at hp2
                      simp only [Option.map_some'] at hp2
                      obtain ⟨xn2, hgx2, hpair⟩ := Option.map_eq_some'.mp hp2
                      obtain ⟨hp1, hn1⟩ := Prod.mk.injEq _ _ _ _ |>.mp hpair
                      obtain ⟨_, hno⟩ := sibOkAt_extract t pn.children (pos + 1) nxN
                        xn hnxv hgx (hold p pn hgp (pos + 1))
                      refine sibOkAt_eval T4 (pn.children.eraseIdx pos) i nxN xn2
                        hslot hgx2 ?_ ?_
                      · rw [hp1]
                        by_cases hi0 : i = 0
                        · rw [if_pos hi0, hprO_zero (by omega)]
                        · rw [if_neg hi0, herase (i-1), if_pos (by omega),
                            hprO_pos (by omega), hcase3]
                      · rw [hn1, hno, herase (i+1), if_neg (by omega), hcase3]
                · -- right of the removed slot: indices shift by one
                  have hgt : i > pos := by omega
                  refine sibOkAt_transfer t T4 pn.children (pn.children.eraseIdx pos)
                    i (i + 1)
                    (by rw [herase i, if_neg (by omega)]) ?_
                    (by rw [herase (i+1), if_neg (by omega)]) ?_
                    (hold p pn hgp (i + 1))
                  · rw [if_neg (by omega), if_neg (by omega), herase (i-1),
                      if_neg (by omega), show i - 1 + 1 = i from by omega]
                    rfl
                  · intro x hx
                    refine hptr x ?_ ?_ ?_
                    · exact fun he => by
                        have := hcuniq (i+1) (he ▸ hx)
                        omega
                    · exact fun he => occ_same t hu p x pn hgp (i+1) (pos - 1)
                        (by omega) hx (hprmem x he).1
                    · exact fun he => occ_same t hu p x pn hgp (i+1) (pos + 1)
                        (by omega) hx (hnxmem x he)
          · -- all other nodes keep their lists and referenced pointers
            obtain ⟨n0, hgt0, hch⟩ := hNch id n hidc hgid
            rw [if_neg hidp] at hch
            rw [show sibOkAt T4 n.children i = sibOkAt T4 n0.children i from
              by rw [hch]]
            refine sibOkAt_transfer t T4 n0.children n0.children i i rfl rfl rfl
              ?_ (hold id n0 hgt0 i)
            intro x hx
            have hxmem : x ∈ n0.children := List.get?_mem hx
            refine hptr x ?_ ?_ ?_
            · exact fun he => occ_cross t hu id p x n0 pn hidp hgt0 hgp hxmem
                (he ▸ hcmem)
            · exact fun he => occ_cross t hu id p x n0 pn hidp hgt0 hgp hxmem
                (List.get?_mem (hprmem x he).1)
            · exact fun he => occ_cross t hu id p x n0 pn hidp hgt0 hgp hxmem
                (List.get?_mem (hnxmem x he))

/-- C9 (amended): `remove_child` always preserves the sibling-cache invariant
(on trees with unique storage keys and unique child occurrences, parent
distinct from child), and `append_child` preserves it provided the appended
child is detached — it occupies no child slot anywhere and its cached
`prev_sibling` is cleared; the counterexample shows `append_child` breaks the
invariant for an attached child, refuting the claim's unconditional reading. -/
theorem c9_mutators_preserve_siblings :
    (∀ (t : DomTree) (p c : NodeId), keysNodup t → uniqueChildOcc t = true →
      siblingAgree t = true → ¬ p = c → childOccCount t c = 0 →
      (t.get_node c).bind DomNode.prev_sibling = none →
      siblingAgree (t.append_child p c).2 = true) ∧
    (∀ (t : DomTree) (p c : NodeId), keysNodup t → uniqueChildOcc t = true →
      siblingAgree t = true → ¬ p = c →
      siblingAgree (t.remove_child p c).2 = true) :=
  ⟨fun t p c hnd hu hsib hpc hocc hdet =>
     append_child_preserves_siblings t p c hnd hu hsib hpc hocc hdet,
   fun t p c hnd hu hsib hpc =>
     remove_child_preserves_siblings t p c hnd hu hsib hpc⟩

/-- Witness for C9: appending a fresh element 4 under the root of the
three-node test tree, and removing child 2 from it, both leave the
sibling-cache invariant intact. -/
theorem c9_mutators_preserve_siblings_witness :
    siblingAgree ((simpleTree.add_node (DomNode.new_element 4 [112])).append_child 1 4).2 = true ∧
    siblingAgree (simpleTree.remove_child 1 2).2 = true :=
  ⟨c9_mutators_preserve_siblings.1
     (simpleTree.add_node (DomNode.new_element 4 [112])) 1 4
     (by rw [keysNodup]; decide) (by decide) (by decide) (by decide) (by decide)
     (by decide),
   c9_mutators_preserve_siblings.2 simpleTree 1 2
     (by rw [keysNodup]; decide) (by decide) (by decide) (by decide)⟩
